import Mathlib

/-
Verification development for the incrementally-rehashing hash table
(dict.c of the annotated Redis 2.9.5 reading).  The C structures and
functions are shallowly embedded: chains are Lean lists, the bucket array is
a list of chains, machine counters are Nat (no counter here can overflow in
a well-formed state), the rehash cursor and the iterator count are Int as in
the source.  Keys and values are opaque payloads modelled as naturals; the
type descriptor is modelled by passing the hash function to each operation
and comparing keys by equality.  Undefined behaviour of the C code (a failed
assert, or the rehash skip loop running off the end of the array) is
modelled by Option: none means the C execution would not return normally.
-/

set_option linter.unusedVariables false

/-- Entry of a collision chain (struct dictEntry): owns a key and a value.
The next pointer of the source is realised by the enclosing list. -/
structure dictEntry where
  key : Nat
  val : Nat
deriving DecidableEq

/-- One hash table generation (struct dictht): the bucket array of chains
plus the size, sizemask and used fields of the source. -/
structure dictht where
  table : List (List dictEntry)
  size : Nat
  sizemask : Nat
  used : Nat
deriving DecidableEq

/-- The dictionary (struct dict): two generations, the rehash cursor
(sentinel -1, as the source comments state) and the count of live safe
iterators. -/
structure dict where
  ht0 : dictht
  ht1 : dictht
  rehashidx : Int
  iterators : Int
deriving DecidableEq

/-- Modelled from the spec: DICT_HT_INITIAL_SIZE from dict.h, which is not
under src; the spec fixes the minimum table size at 4. -/
def DICT_HT_INITIAL_SIZE : Nat := 4

/-- Modelled from the spec: LONG_MAX of the 64-bit target platform, used
only as the cap inside _dictNextPower. -/
def LONG_MAX : Nat := 2 ^ 63 - 1

/-- Modelled from the spec: the dictIsRehashing macro of dict.h; rehashidx
equal to -1 means that no rehash is in progress. -/
def dictIsRehashing (d : dict) : Bool := d.rehashidx != -1

/-- Reset generation (_dictReset): unallocated array, all counters zero. -/
def emptyHt : dictht := { table := [], size := 0, sizemask := 0, used := 0 }

/-- dictCreate / _dictInit: fresh dictionary, both generations unallocated,
cursor at the sentinel, no live iterators. -/
def dictCreate : dict :=
  { ht0 := emptyHt, ht1 := emptyHt, rehashidx := -1, iterators := 0 }

/-- Loop of _dictNextPower: starting from DICT_HT_INITIAL_SIZE, double until
the requested size is reached.  The structural fuel of 64 doublings covers
every size below the LONG_MAX cap checked by the caller. -/
def nextPowerLoop (size : Nat) : Nat → Nat → Nat
  | 0, i => i
  | fuel + 1, i => if size ≤ i then i else nextPowerLoop size fuel (i * 2)

/-- Next power of two used as a real table size (_dictNextPower). -/
def _dictNextPower (size : Nat) : Nat :=
  if LONG_MAX ≤ size then LONG_MAX
  else nextPowerLoop size 64 DICT_HT_INITIAL_SIZE

/-- dictExpand: allocate a zeroed generation whose size is the next power of
two at least the requested size; install it as ht0 when ht0 is unallocated,
otherwise install it as ht1 and set the cursor to 0 (rehashing begins).
The result none models DICT_ERR; the C returns it without mutating. -/
def dictExpand (d : dict) (size : Nat) : Option dict :=
  if dictIsRehashing d || decide (size < d.ht0.used) then none
  else
    let realsize := _dictNextPower size
    let n : dictht := { table := List.replicate realsize [], size := realsize,
                        sizemask := realsize - 1, used := 0 }
    if d.ht0.table.isEmpty then some { d with ht0 := n }
    else some { d with ht1 := n, rehashidx := 0 }

/-- Skip loop of dictRehash: the first index at or after start whose chain
is non-empty; none when the loop would run off the end of the bucket array
(undefined behaviour in the C source, never reached from a well-formed
state). -/
def findNonEmptySlotAux (t : List (List dictEntry)) : Nat → Nat → Option Nat
  | 0, _ => none
  | fuel + 1, start =>
    if start < t.length then
      if (t.getD start []).isEmpty then findNonEmptySlotAux t fuel (start + 1)
      else some start
    else none

/-- Entry point of the skip loop of dictRehash. -/
def findNonEmptySlot (t : List (List dictEntry)) (start : Nat) : Option Nat :=
  findNonEmptySlotAux t (t.length - start) start

/-- Inner loop of dictRehash: move every entry of the drained chain into the
incoming generation, each entry prepended to the chain of the slot selected
by its hash masked with the incoming sizemask, incrementing used once per
entry. -/
def moveEntries (hash : Nat → Nat) : List dictEntry → dictht → dictht
  | [], ht => ht
  | e :: rest, ht =>
    let h := hash e.key &&& ht.sizemask
    moveEntries hash rest
      { ht with table := ht.table.set h (e :: ht.table.getD h []),
                used := ht.used + 1 }

/-- One iteration of the dictRehash while-loop: when ht0.used is 0, complete
(free the old primary array, promote the incoming generation, reset it, and
set the cursor to the sentinel); otherwise drain the whole chain of the
first non-empty slot at or after the cursor and advance the cursor past it.
The per-entry decrements of ht0.used sum to the chain length.  The Bool is
the C return value (false for 0, rehash complete; true for 1, more work).
none models the assert on the cursor failing or the skip loop running out
of bounds. -/
def rehashStep1 (hash : Nat → Nat) (d : dict) : Option (dict × Bool) :=
  if d.ht0.used = 0 then
    some ({ d with ht0 := d.ht1, ht1 := emptyHt, rehashidx := -1 }, false)
  else if 0 ≤ d.rehashidx ∧ d.rehashidx.toNat < d.ht0.size then
    match findNonEmptySlot d.ht0.table d.rehashidx.toNat with
    | none => none
    | some j =>
      let chain := d.ht0.table.getD j []
      let newht1 := moveEntries hash chain d.ht1
      let newht0 :=
        { d.ht0 with
          table := d.ht0.table.set j [],
          used := d.ht0.used - chain.length }
      some ({ d with ht0 := newht0, ht1 := newht1, rehashidx := (j : Int) + 1 }, true)
  else none

/-- The while(n--) loop of dictRehash. -/
def dictRehashLoop (hash : Nat → Nat) : Nat → dict → Option (dict × Bool)
  | 0, d => some (d, true)
  | n + 1, d =>
    match rehashStep1 hash d with
    | none => none
    | some (d2, false) => some (d2, false)
    | some (d2, true) => dictRehashLoop hash n d2

/-- dictRehash: perform up to n rehash steps; the guard returns 0 when the
table is not rehashing.  Bool true means entries remain to rehash. -/
def dictRehash (hash : Nat → Nat) (d : dict) (n : Nat) : Option (dict × Bool) :=
  if dictIsRehashing d then dictRehashLoop hash n d else some (d, false)

/-- One amortized rehash step (_dictRehashStep): suppressed while the live
safe iterator count is non-zero. -/
def _dictRehashStep (hash : Nat → Nat) (d : dict) : Option dict :=
  if d.iterators = 0 then (dictRehash hash d 1).map Prod.fst else some d

/-- The pattern shared by dictAddRaw, dictFind, dictGenericDelete and
dictGetRandomKey: one amortized rehash step if rehashing is active. -/
def rehashStepIfActive (hash : Nat → Nat) (d : dict) : Option dict :=
  if dictIsRehashing d then _dictRehashStep hash d else some d

/-- Resize policy of the insertion path (_dictExpandIfNeeded).  canResize
models the process-wide dict_can_resize gate; the forced threshold
dict_force_resize_ratio is 5, compared against the integer quotient
used / size exactly as the C does. -/
def _dictExpandIfNeeded (canResize : Bool) (d : dict) : Option dict :=
  if dictIsRehashing d then some d
  else if d.ht0.size = 0 then dictExpand d DICT_HT_INITIAL_SIZE
  else if d.ht0.size ≤ d.ht0.used ∧ (canResize || decide (5 < d.ht0.used / d.ht0.size)) then
    dictExpand d (max d.ht0.size d.ht0.used * 2)
  else some d

/-- Chain search with the descriptor comparison (equality on keys). -/
def chainHasKey (chain : List dictEntry) (key : Nat) : Bool :=
  chain.any fun e => e.key == key

/-- Slot computation for insertion (_dictKeyIndex): run the resize policy,
then return none (the C -1) when the key is already present or the policy
failed, otherwise the slot index computed against the generation being
written to (ht1 while rehashing, ht0 otherwise). -/
def _dictKeyIndex (hash : Nat → Nat) (canResize : Bool) (d : dict) (key : Nat) :
    dict × Option Nat :=
  match _dictExpandIfNeeded canResize d with
  | none => (d, none)
  | some d1 =>
    let h := hash key
    let idx0 := h &&& d1.ht0.sizemask
    if chainHasKey (d1.ht0.table.getD idx0 []) key then (d1, none)
    else if !dictIsRehashing d1 then (d1, some idx0)
    else
      let idx1 := h &&& d1.ht1.sizemask
      if chainHasKey (d1.ht1.table.getD idx1 []) key then (d1, none)
      else (d1, some idx1)

/-- dictAddRaw: one amortized rehash step when rehashing, then the slot
lookup, and on success a new entry carrying the key (value not yet set,
modelled as 0) linked at the head of the target chain of the generation
being written to, whose used count is incremented.  The pair (g, idx)
locates the new entry (generation index, slot index), standing for the
returned entry pointer; none in the second component models the NULL return
(key already present, or the resize policy failed). -/
def dictAddRaw (hash : Nat → Nat) (canResize : Bool) (d : dict) (key : Nat) :
    Option (dict × Option (Nat × Nat)) :=
  match rehashStepIfActive hash d with
  | none => none
  | some d1 =>
    match _dictKeyIndex hash canResize d1 key with
    | (d2, none) => some (d2, none)
    | (d2, some idx) =>
      if dictIsRehashing d2 then
        let ht := d2.ht1
        let ht2 := { ht with
          table := ht.table.set idx ({ key := key, val := 0 } :: ht.table.getD idx []),
          used := ht.used + 1 }
        some ({ d2 with ht1 := ht2 }, some (1, idx))
      else
        let ht := d2.ht0
        let ht2 := { ht with
          table := ht.table.set idx ({ key := key, val := 0 } :: ht.table.getD idx []),
          used := ht.used + 1 }
        some ({ d2 with ht0 := ht2 }, some (0, idx))

/-- dictSetVal applied to the entry just returned by dictAddRaw: that entry
is the head of its slot chain, so setting its value rewrites that head. -/
def setSlotHeadVal (d : dict) (g idx val : Nat) : dict :=
  let upd := fun (ht : dictht) =>
    { ht with
      table := ht.table.set idx
        (match ht.table.getD idx [] with
         | [] => []
         | e :: rest => { e with val := val } :: rest) }
  if g = 1 then { d with ht1 := upd d.ht1 } else { d with ht0 := upd d.ht0 }

/-- dictAdd: dictAddRaw followed by dictSetVal.  The Bool is DICT_OK (true)
or DICT_ERR (false). -/
def dictAdd (hash : Nat → Nat) (canResize : Bool) (d : dict) (key val : Nat) :
    Option (dict × Bool) :=
  match dictAddRaw hash canResize d key with
  | none => none
  | some (d1, none) => some (d1, false)
  | some (d1, some (g, idx)) => some (setSlotHeadVal d1 g idx val, true)

/-- Unlink of the first chain entry carrying the given key (the unlink
branch of dictGenericDelete); none when the chain has no such entry. -/
def removeKeyChain (key : Nat) : List dictEntry → Option (List dictEntry)
  | [] => none
  | e :: rest =>
    if e.key == key then some rest
    else (removeKeyChain key rest).map fun r => e :: r

/-- dictGenericDelete: the empty-table check, one amortized rehash step,
then a scan of ht0 and (only while rehashing) ht1, unlinking the first
match and decrementing that generation's used count.  The Bool is DICT_OK
(true) or DICT_ERR (false); the C returns the same DICT_ERR value for the
empty-table case and for the not-found case.  The nofree flag of the source
only controls destructor calls and has no state counterpart here. -/
def dictGenericDelete (hash : Nat → Nat) (d : dict) (key : Nat) :
    Option (dict × Bool) :=
  if d.ht0.size = 0 then some (d, false)
  else
    match rehashStepIfActive hash d with
    | none => none
    | some d1 =>
      let h := hash key
      let idx0 := h &&& d1.ht0.sizemask
      match removeKeyChain key (d1.ht0.table.getD idx0 []) with
      | some c0 =>
        some ({ d1 with
                ht0 := { d1.ht0 with
                         table := d1.ht0.table.set idx0 c0,
                         used := d1.ht0.used - 1 } }, true)
      | none =>
        if !dictIsRehashing d1 then some (d1, false)
        else
          let idx1 := h &&& d1.ht1.sizemask
          match removeKeyChain key (d1.ht1.table.getD idx1 []) with
          | some c1 =>
            some ({ d1 with
                    ht1 := { d1.ht1 with
                             table := d1.ht1.table.set idx1 c1,
                             used := d1.ht1.used - 1 } }, true)
          | none => some (d1, false)

/-- dictDelete (nofree = 0; the flag does not change table state). -/
def dictDelete (hash : Nat → Nat) (d : dict) (key : Nat) : Option (dict × Bool) :=
  dictGenericDelete hash d key

/-- Chain lookup returning the first entry carrying the key. -/
def chainFind (chain : List dictEntry) (key : Nat) : Option dictEntry :=
  chain.find? fun e => e.key == key

/-- dictFind: NULL on a table whose ht0 is unallocated, otherwise one
amortized rehash step, then a chain search in ht0 and, only while
rehashing, in ht1. -/
def dictFind (hash : Nat → Nat) (d : dict) (key : Nat) :
    Option (dict × Option dictEntry) :=
  if d.ht0.size = 0 then some (d, none)
  else
    match rehashStepIfActive hash d with
    | none => none
    | some d1 =>
      let h := hash key
      let idx0 := h &&& d1.ht0.sizemask
      match chainFind (d1.ht0.table.getD idx0 []) key with
      | some e => some (d1, some e)
      | none =>
        if !dictIsRehashing d1 then some (d1, none)
        else
          let idx1 := h &&& d1.ht1.sizemask
          some (d1, chainFind (d1.ht1.table.getD idx1 []) key)

/-- dictResize (resize-to-fit): refused while the resize gate is disabled or
while already rehashing; otherwise expand to max(used, minimum size). -/
def dictResize (canResize : Bool) (d : dict) : Option dict :=
  if !canResize || dictIsRehashing d then none
  else dictExpand d (max d.ht0.used DICT_HT_INITIAL_SIZE)

/-- dictEmpty: _dictClear both generations (freeing every chain and
resetting the generation) and reset the cursor and the iterator count. -/
def dictEmpty (d : dict) : dict :=
  { ht0 := emptyHt, ht1 := emptyHt, rehashidx := -1, iterators := 0 }

/-- Modelled from the spec: the dictSize macro of dict.h, the total
occupied count over both generations. -/
def dictSize (d : dict) : Nat := d.ht0.used + d.ht1.used

/-- State effect of dictGetRandomKey: the early NULL on an empty dict, then
one amortized rehash step.  The rejection-sampling selection that follows in
the source only reads the table, so it has no state effect to model; the
random draws are external inputs. -/
def dictGetRandomKeyState (hash : Nat → Nat) (d : dict) : Option dict :=
  if dictSize d = 0 then some d
  else if dictIsRehashing d then _dictRehashStep hash d
  else some d

/-- Iterator (struct dictIterator): entry and nextEntry are pointers into a
chain, modelled as the chain suffix that starts at the pointed entry ([]
is NULL). -/
structure dictIterator where
  table : Nat
  index : Int
  safe : Bool
  entry : List dictEntry
  nextEntry : List dictEntry
deriving DecidableEq

/-- dictGetIterator: fresh scan-only iterator. -/
def dictGetIterator : dictIterator :=
  { table := 0, index := -1, safe := false, entry := [], nextEntry := [] }

/-- dictGetSafeIterator: fresh mutation-safe iterator. -/
def dictGetSafeIterator : dictIterator :=
  { dictGetIterator with safe := true }

/-- Body of the dictNext while(1) loop, with structural fuel (the loop
visits each slot at most once, so ht0.size + ht1.size + 2 iterations always
suffice).  On the first advance of a safe iterator (index still -1, table
still 0) the live-iterator count of the dict is incremented. -/
def dictNextLoop : Nat → dict → dictIterator → dict × dictIterator × Option dictEntry
  | 0, d, iter => (d, iter, none)
  | fuel + 1, d, iter =>
    if iter.entry.isEmpty then
      let d1 := if iter.safe = true ∧ iter.index = -1 ∧ iter.table = 0 then
        { d with iterators := d.iterators + 1 } else d
      let ht := if iter.table = 0 then d1.ht0 else d1.ht1
      let i1 := iter.index + 1
      if (ht.size : Int) ≤ i1 then
        if dictIsRehashing d1 && decide (iter.table = 0) then
          let it1 : dictIterator :=
            { iter with
              table := 1,
              index := 0,
              entry := d1.ht1.table.getD 0 [] }
          match it1.entry with
          | [] => dictNextLoop fuel d1 it1
          | e :: rest => (d1, { it1 with nextEntry := rest }, some e)
        else
          (d1, { iter with index := i1 }, none)
      else
        let it1 : dictIterator :=
          { iter with
            index := i1,
            entry := ht.table.getD i1.toNat [] }
        match it1.entry with
        | [] => dictNextLoop fuel d1 it1
        | e :: rest => (d1, { it1 with nextEntry := rest }, some e)
    else
      let it1 : dictIterator := { iter with entry := iter.nextEntry }
      match it1.entry with
      | [] => dictNextLoop fuel d it1
      | e :: rest => (d, { it1 with nextEntry := rest }, some e)

/-- dictNext: run the loop with enough fuel for both generations. -/
def dictNext (d : dict) (iter : dictIterator) :
    dict × dictIterator × Option dictEntry :=
  dictNextLoop (d.ht0.size + d.ht1.size + 2) d iter

/-- dictReleaseIterator: decrement the live count exactly for a safe
iterator that has been advanced at least once (index no longer -1, or table
no longer 0). -/
def dictReleaseIterator (d : dict) (iter : dictIterator) : dict :=
  if iter.safe = true ∧ ¬(iter.index = -1 ∧ iter.table = 0) then
    { d with iterators := d.iterators - 1 }
  else d

/-- Entries of one generation, chained in slot order. -/
def htEntries (ht : dictht) : List dictEntry := ht.table.flatten

/-- Entries of the whole dictionary, ht0 first. -/
def allEntries (d : dict) : List dictEntry := htEntries d.ht0 ++ htEntries d.ht1

/-- Keys stored in the dictionary. -/
def keysOf (d : dict) : List Nat := (allEntries d).map dictEntry.key

/-- Well-formedness of one generation: the bucket array has length size,
sizemask is size - 1, used counts the entries, and every entry sits in the
slot selected by its hash masked with sizemask. -/
def htWF (hash : Nat → Nat) (ht : dictht) : Prop :=
  ht.table.length = ht.size ∧
  ht.sizemask = ht.size - 1 ∧
  ht.used = (htEntries ht).length ∧
  ∀ i < ht.size, ∀ e ∈ ht.table.getD i [], hash e.key &&& ht.sizemask = i

/-- Well-formedness of a dictionary: both generations well formed, keys not
duplicated across the two generations, and the rehash-state invariant: when
stable the incoming generation is reset; when rehashing the cursor is
non-negative, both generations are allocated, and every primary slot
strictly below the cursor has already been drained. -/
def dictWF (hash : Nat → Nat) (d : dict) : Prop :=
  htWF hash d.ht0 ∧ htWF hash d.ht1 ∧
  (keysOf d).Nodup ∧
  (d.rehashidx = -1 ∧ d.ht1 = emptyHt ∨
    d.rehashidx ≠ -1 ∧ 0 ≤ d.rehashidx ∧ d.ht0.size ≠ 0 ∧ d.ht1.size ≠ 0 ∧
    ∀ i < d.rehashidx.toNat, d.ht0.table.getD i [] = [])

/-- Operations of the public interface that mutate a dictionary, for the
statement of state-invariant claims. -/
inductive DictOp where
  | addO (key val : Nat)
  | findO (key : Nat)
  | delO (key : Nat)
  | rehashO (n : Nat)
  | iterO (iter : dictIterator)
  | randomO
deriving DecidableEq

/-- State effect of one public operation on the dictionary. -/
def applyDictOp (hash : Nat → Nat) (canResize : Bool) : DictOp → dict → Option dict
  | .addO k v, d => (dictAdd hash canResize d k v).map Prod.fst
  | .findO k, d => (dictFind hash d k).map Prod.fst
  | .delO k, d => (dictDelete hash d k).map Prod.fst
  | .rehashO n, d => (dictRehash hash d n).map Prod.fst
  | .iterO it, d => some (dictNext d it).1
  | .randomO, d => dictGetRandomKeyState hash d

/-- The mutating operations considered by the safe-iterator claim. -/
inductive MutOp where
  | addM (key val : Nat)
  | findM (key : Nat)
  | delM (key : Nat)
deriving DecidableEq

/-- State effect of one add/find/delete call. -/
def applyMut (hash : Nat → Nat) (canResize : Bool) : MutOp → dict → Option dict
  | .addM k v, d => (dictAdd hash canResize d k v).map Prod.fst
  | .findM k, d => (dictFind hash d k).map Prod.fst
  | .delM k, d => (dictDelete hash d k).map Prod.fst

/-- Run a sequence of add/find/delete calls. -/
def runMut (hash : Nat → Nat) (canResize : Bool) : List MutOp → dict → Option dict
  | [], d => some d
  | op :: ops, d =>
    match applyMut hash canResize op d with
    | none => none
    | some d1 => runMut hash canResize ops d1

/-- Key operated on by an add/find/delete call. -/
def mutKey : MutOp → Nat
  | .addM k _ => k
  | .findM k => k
  | .delM k => k

/-- Keys mentioned by a sequence of operations. -/
def opKeys (ops : List MutOp) : List Nat := ops.map mutKey

/-- Iterator-subsystem operations: create (safe or scan-only), advance the
j-th live iterator, release the j-th live iterator. -/
inductive IterOp where
  | createO (safe : Bool)
  | nextO (j : Nat)
  | releaseO (j : Nat)
deriving DecidableEq

/-- A dictionary together with its live (not yet released) iterators. -/
structure IterState where
  d : dict
  live : List dictIterator
deriving DecidableEq

/-- One iterator-subsystem operation; out-of-range indices are no-ops. -/
def applyIterOp : IterOp → IterState → IterState
  | .createO safe, s =>
    { s with live := s.live ++ [if safe then dictGetSafeIterator else dictGetIterator] }
  | .nextO j, s =>
    if h : j < s.live.length then
      let r := dictNext s.d (s.live.get ⟨j, h⟩)
      { d := r.1, live := s.live.set j r.2.1 }
    else s
  | .releaseO j, s =>
    if h : j < s.live.length then
      { d := dictReleaseIterator s.d (s.live.get ⟨j, h⟩), live := s.live.eraseIdx j }
    else s

/-- Run a sequence of iterator-subsystem operations. -/
def runIter : List IterOp → IterState → IterState
  | [], s => s
  | op :: ops, s => runIter ops (applyIterOp op s)

/-- An iterator holds a claim on the dict counter exactly when it is safe
and has been advanced at least once. -/
def chargedCount (l : List dictIterator) : Nat :=
  l.countP fun it => decide (it.safe = true ∧ ¬(it.index = -1 ∧ it.table = 0))

/-- Helper: getD after set at the same index. -/
lemma getD_set_self {α : Type} (l : List α) (i : Nat) (x d : α) (h : i < l.length) :
    (l.set i x).getD i d = x := by
  simp [List.getD_eq_getElem?_getD, List.getElem?_set_self, h]

/-- Helper: getD after set at a different index. -/
lemma getD_set_ne {α : Type} (l : List α) (i j : Nat) (x d : α) (h : i ≠ j) :
    (l.set i x).getD j d = l.getD j d := by
  simp [List.getD_eq_getElem?_getD, List.getElem?_set_ne h]

/-- Helper: setting an index to its current value is the identity. -/
lemma set_getD_self {α : Type} (l : List α) (i : Nat) (d : α) (h : i < l.length) :
    l.set i (l.getD i d) = l := by
  apply List.ext_getElem
  · simp
  · intro n h1 h2
    rcases eq_or_ne i n with rfl | hne
    · simp [List.getD_eq_getElem?_getD, List.getElem?_eq_getElem h]
    · simp [List.getElem_set_ne hne]

/-- Helper: flattening after a set, as a permutation. -/
lemma flatten_set_perm {α : Type} (l : List (List α)) (i : Nat) (x : List α)
    (h : i < l.length) :
    List.Perm (l.set i x).flatten (x ++ (l.set i []).flatten) := by
  induction l generalizing i with
  | nil => simp at h
  | cons hd tl ih =>
    cases i with
    | zero => simp
    | succ n =>
      simp only [List.set, List.flatten_cons]
      have hn : n < tl.length := by simpa using h
      have h1 : List.Perm (hd ++ (tl.set n x).flatten)
          (hd ++ (x ++ (tl.set n []).flatten)) := (ih n hn).append_left hd
      refine h1.trans ?_
      rw [← List.append_assoc, ← List.append_assoc]
      exact (List.perm_append_comm).append_right _

/-- Helper: a list of lists is one slot plus the rest, as a permutation. -/
lemma flatten_getD_perm {α : Type} (l : List (List α)) (i : Nat) (h : i < l.length) :
    List.Perm l.flatten (l.getD i [] ++ (l.set i []).flatten) := by
  have := flatten_set_perm l i (l.getD i []) h
  rwa [set_getD_self l i [] h] at this

/-- Helper: membership in a slot gives membership in the flattening. -/
lemma mem_flatten_of_getD {α : Type} (l : List (List α)) (i : Nat) (a : α)
    (ha : a ∈ l.getD i []) : a ∈ l.flatten := by
  rcases Nat.lt_or_ge i l.length with h | h
  · exact ((flatten_getD_perm l i h).mem_iff).2 (List.mem_append_left _ ha)
  · rw [List.getD_eq_getElem?_getD, List.getElem?_eq_none h] at ha
    simp at ha

/-- Helper: flattening membership through the slots. -/
lemma mem_flatten_iff_getD {α : Type} (l : List (List α)) (a : α) :
    a ∈ l.flatten ↔ ∃ i, i < l.length ∧ a ∈ l.getD i [] := by
  constructor
  · intro h
    rw [List.mem_flatten] at h
    obtain ⟨s, hs, has⟩ := h
    rw [List.mem_iff_get] at hs
    obtain ⟨⟨i, hi⟩, rfl⟩ := hs
    refine ⟨i, hi, ?_⟩
    rw [List.getD_eq_getElem?_getD, List.getElem?_eq_getElem hi]
    simpa using has
  · rintro ⟨i, hi, ha⟩
    exact mem_flatten_of_getD l i a ha

/-- Helper: flattening a table of empty chains. -/
lemma flatten_replicate_nil {α : Type} (n : Nat) :
    (List.replicate n ([] : List α)).flatten = [] := by
  induction n with
  | zero => rfl
  | succ m ih =>
    rw [List.replicate_succ, List.flatten_cons, List.nil_append]
    exact ih

/-- The doubling loop never shrinks its accumulator. -/
lemma nextPowerLoop_ge_self (size fuel i : Nat) : i ≤ nextPowerLoop size fuel i := by
  induction fuel generalizing i with
  | zero => simp [nextPowerLoop]
  | succ n ih =>
    simp only [nextPowerLoop]
    split
    · exact le_refl i
    · exact le_trans (by omega) (ih (i * 2))

/-- With enough fuel the doubling loop reaches the requested size. -/
lemma nextPowerLoop_ge (size fuel : Nat) : ∀ i, size ≤ i * 2 ^ fuel →
    size ≤ nextPowerLoop size fuel i := by
  induction fuel with
  | zero => intro i h; simpa [nextPowerLoop] using h
  | succ n ih =>
    intro i h
    simp only [nextPowerLoop]
    split
    · assumption
    · apply ih
      calc size ≤ i * 2 ^ (n + 1) := h
        _ = i * 2 * 2 ^ n := by ring

/-- The doubling loop preserves being a power of two. -/
lemma nextPowerLoop_pow2 (size fuel : Nat) : ∀ i, (∃ k, i = 2 ^ k) →
    ∃ m, nextPowerLoop size fuel i = 2 ^ m := by
  induction fuel with
  | zero => intro i h; simpa [nextPowerLoop] using h
  | succ n ih =>
    intro i h
    simp only [nextPowerLoop]
    split
    · assumption
    · obtain ⟨k, rfl⟩ := h
      exact ih (2 ^ k * 2) ⟨k + 1, by ring⟩

/-- The doubling loop stops at the first power of two that fits. -/
lemma nextPowerLoop_le (size fuel p : Nat) (hp : ∃ m, p = 2 ^ m) (hsp : size ≤ p) :
    ∀ i, (∃ k, i = 2 ^ k) → i ≤ p → nextPowerLoop size fuel i ≤ p := by
  induction fuel with
  | zero => intro i hi hip; simpa [nextPowerLoop] using hip
  | succ n ih =>
    intro i hi hip
    simp only [nextPowerLoop]
    split
    · exact hip
    · obtain ⟨k, rfl⟩ := hi
      obtain ⟨m, rfl⟩ := hp
      have hkm : k < m := by
        have hlt : 2 ^ k < 2 ^ m := lt_of_lt_of_le (by omega) hsp
        exact (Nat.pow_lt_pow_iff_right (by norm_num)).1 hlt
      apply ih (2 ^ k * 2) ⟨k + 1, by ring⟩
      calc 2 ^ k * 2 = 2 ^ (k + 1) := by ring
        _ ≤ 2 ^ m := Nat.pow_le_pow_right (by norm_num) (by omega)

/-- A real table size is always at least the minimum size. -/
lemma _dictNextPower_ge4 (s : Nat) : 4 ≤ _dictNextPower s := by
  unfold _dictNextPower
  split
  · norm_num [LONG_MAX]
  · exact nextPowerLoop_ge_self s 64 DICT_HT_INITIAL_SIZE

/-- A real table size is never zero. -/
lemma _dictNextPower_pos (s : Nat) : _dictNextPower s ≠ 0 := by
  have := _dictNextPower_ge4 s
  omega

/-- Below the LONG_MAX cap, _dictNextPower is the least power of two that is
at least both the requested size and the minimum size. -/
lemma _dictNextPower_spec (s : Nat) (hs : s < LONG_MAX) :
    s ≤ _dictNextPower s ∧ (∃ m, _dictNextPower s = 2 ^ m) ∧
    ∀ p, (∃ m, p = 2 ^ m) → 4 ≤ p → s ≤ p → _dictNextPower s ≤ p := by
  have hcap : ¬ LONG_MAX ≤ s := by omega
  unfold _dictNextPower
  rw [if_neg hcap]
  refine ⟨?_, ?_, ?_⟩
  · apply nextPowerLoop_ge
    calc s ≤ LONG_MAX := le_of_lt hs
      _ ≤ DICT_HT_INITIAL_SIZE * 2 ^ 64 := by norm_num [LONG_MAX, DICT_HT_INITIAL_SIZE]
  · exact nextPowerLoop_pow2 s 64 DICT_HT_INITIAL_SIZE ⟨2, rfl⟩
  · intro p hp h4 hsp
    exact nextPowerLoop_le s 64 p hp hsp DICT_HT_INITIAL_SIZE ⟨2, rfl⟩ h4

/-- The reset generation is well formed. -/
lemma htWF_emptyHt (hash : Nat → Nat) : htWF hash emptyHt := by
  refine ⟨rfl, rfl, rfl, ?_⟩
  intro i hi
  simp [emptyHt] at hi

/-- A freshly allocated zeroed generation is well formed. -/
lemma htWF_newArray (hash : Nat → Nat) (n : Nat) :
    htWF hash { table := List.replicate n [], size := n, sizemask := n - 1, used := 0 } := by
  refine ⟨by simp, rfl, by simp [htEntries, flatten_replicate_nil], ?_⟩
  intro i hi e he
  have : (List.replicate n ([] : List dictEntry)).getD i [] = [] := by
    rcases Nat.lt_or_ge i n with h | h
    · simp [List.getD_eq_getElem?_getD, List.getElem?_replicate, h]
    · rw [List.getD_eq_getElem?_getD, List.getElem?_eq_none (by simpa using h)]
      rfl
  rw [this] at he
  simp at he

/-- Search through chainHasKey finds exactly the stored keys. -/
lemma chainHasKey_iff (c : List dictEntry) (k : Nat) :
    chainHasKey c k = true ↔ ∃ e ∈ c, e.key = k := by
  simp [chainHasKey, List.any_eq_true]

/-- chainFind misses exactly when no entry carries the key. -/
lemma chainFind_eq_none_iff (c : List dictEntry) (k : Nat) :
    chainFind c k = none ↔ ∀ e ∈ c, e.key ≠ k := by
  simp [chainFind, List.find?_eq_none]

/-- chainFind returns an entry of the chain carrying the key. -/
lemma chainFind_mem (c : List dictEntry) (k : Nat) (e : dictEntry)
    (h : chainFind c k = some e) : e ∈ c ∧ e.key = k := by
  refine ⟨List.mem_of_find?_eq_some h, ?_⟩
  have h2 := List.find?_some h
  simpa using h2

/-- chainFind hits as soon as some entry carries the key. -/
lemma chainFind_isSome (c : List dictEntry) (k : Nat) (e : dictEntry)
    (he : e ∈ c) (hk : e.key = k) : ∃ x, chainFind c k = some x := by
  cases hfind : chainFind c k with
  | some x => exact ⟨x, rfl⟩
  | none =>
    rw [chainFind_eq_none_iff] at hfind
    exact absurd hk (hfind e he)

/-- removeKeyChain misses exactly when no entry carries the key. -/
lemma removeKeyChain_none_iff (k : Nat) (c : List dictEntry) :
    removeKeyChain k c = none ↔ ∀ e ∈ c, e.key ≠ k := by
  induction c with
  | nil => simp [removeKeyChain]
  | cons e0 rest ih =>
    simp only [removeKeyChain, beq_iff_eq]
    by_cases h : e0.key = k
    · simp [h]
    · rw [if_neg h]
      constructor
      · intro hmap e he
        rcases List.mem_cons.1 he with rfl | hmem
        · exact h
        · cases hrest : removeKeyChain k rest with
          | some r => rw [hrest] at hmap; simp at hmap
          | none => exact (ih.1 hrest) e hmem
      · intro hall
        have hnone : removeKeyChain k rest = none :=
          ih.2 fun e he => hall e (List.mem_cons_of_mem _ he)
        rw [hnone]
        rfl

/-- removeKeyChain unlinks exactly one entry carrying the key. -/
lemma removeKeyChain_some (k : Nat) (c c2 : List dictEntry)
    (h : removeKeyChain k c = some c2) :
    ∃ e, e.key = k ∧ List.Perm c (e :: c2) := by
  induction c generalizing c2 with
  | nil => simp [removeKeyChain] at h
  | cons e0 rest ih =>
    simp only [removeKeyChain, beq_iff_eq] at h
    by_cases h0 : e0.key = k
    · rw [if_pos h0] at h
      obtain rfl : rest = c2 := by simpa using h
      exact ⟨e0, h0, List.Perm.refl _⟩
    · rw [if_neg h0] at h
      cases hrest : removeKeyChain k rest with
      | none => rw [hrest] at h; simp at h
      | some r =>
        rw [hrest] at h
        obtain rfl : e0 :: r = c2 := by simpa using h
        obtain ⟨e, hek, hperm⟩ := ih r hrest
        exact ⟨e, hek, (hperm.cons e0).trans (List.Perm.swap e e0 r)⟩

/-- A masked hash always lands inside an allocated array. -/
lemma mask_lt (hv n : Nat) (hn : n ≠ 0) : hv &&& (n - 1) < n :=
  lt_of_le_of_lt Nat.and_le_right (by omega)

/-- moveEntries only redistributes: size and sizemask are untouched, the
array length is preserved, and used grows by the chain length. -/
lemma moveEntries_fields (hash : Nat → Nat) (c : List dictEntry) :
    ∀ ht : dictht, ht.table.length = ht.size → ht.sizemask = ht.size - 1 →
    ht.size ≠ 0 →
    (moveEntries hash c ht).size = ht.size ∧
    (moveEntries hash c ht).sizemask = ht.sizemask ∧
    (moveEntries hash c ht).table.length = ht.size ∧
    (moveEntries hash c ht).used = ht.used + c.length := by
  induction c with
  | nil => intro ht hlen hmask hpos; simp [moveEntries, hlen]
  | cons e rest ih =>
    intro ht hlen hmask hpos
    simp only [moveEntries]
    have hrec := ih { ht with
        table := ht.table.set (hash e.key &&& ht.sizemask)
          (e :: ht.table.getD (hash e.key &&& ht.sizemask) []),
        used := ht.used + 1 }
      (by simpa using hlen) (by simpa using hmask) (by simpa using hpos)
    simp only at hrec
    refine ⟨hrec.1, hrec.2.1, hrec.2.2.1, ?_⟩
    rw [hrec.2.2.2]
    simp
    omega

/-- Per-slot effect of moveEntries: the chain entries targeting a slot end
up prepended, in reverse chain order, in front of the old chain there. -/
lemma moveEntries_getD (hash : Nat → Nat) (c : List dictEntry) :
    ∀ ht : dictht, ht.table.length = ht.size → ht.sizemask = ht.size - 1 →
    ht.size ≠ 0 → ∀ t, t < ht.size →
    (moveEntries hash c ht).table.getD t [] =
      (c.filter fun e => hash e.key &&& ht.sizemask == t).reverse ++ ht.table.getD t [] := by
  induction c with
  | nil => intro ht hlen hmask hpos t htl; simp [moveEntries]
  | cons e rest ih =>
    intro ht hlen hmask hpos t htl
    simp only [moveEntries]
    have hslot : hash e.key &&& ht.sizemask < ht.size := by
      rw [hmask]; exact mask_lt _ _ hpos
    have hrec := ih { ht with
        table := ht.table.set (hash e.key &&& ht.sizemask)
          (e :: ht.table.getD (hash e.key &&& ht.sizemask) []),
        used := ht.used + 1 }
      (by simpa using hlen) (by simpa using hmask) (by simpa using hpos) t (by simpa using htl)
    simp only at hrec
    rw [hrec]
    by_cases hcase : hash e.key &&& ht.sizemask = t
    · rw [hcase, getD_set_self _ _ _ _ (by rw [hlen]; exact htl)]
      simp only [List.filter_cons, hcase, beq_self_eq_true, if_pos rfl]
      simp
    · rw [getD_set_ne _ _ _ _ _ hcase]
      have : ((e :: rest).filter fun x => hash x.key &&& ht.sizemask == t) =
          rest.filter fun x => hash x.key &&& ht.sizemask == t := by
        simp [List.filter_cons, hcase]
      rw [this]

/-- moveEntries moves exactly the chain entries, as a permutation. -/
lemma moveEntries_flatten_perm (hash : Nat → Nat) (c : List dictEntry) :
    ∀ ht : dictht, ht.table.length = ht.size → ht.sizemask = ht.size - 1 →
    ht.size ≠ 0 →
    List.Perm (htEntries (moveEntries hash c ht)) (c ++ htEntries ht) := by
  induction c with
  | nil => intro ht hlen hmask hpos; simp [moveEntries, htEntries]
  | cons e rest ih =>
    intro ht hlen hmask hpos
    simp only [moveEntries]
    have hslot : hash e.key &&& ht.sizemask < ht.table.length := by
      rw [hlen, hmask]; exact mask_lt _ _ hpos
    have hrec := ih { ht with
        table := ht.table.set (hash e.key &&& ht.sizemask)
          (e :: ht.table.getD (hash e.key &&& ht.sizemask) []),
        used := ht.used + 1 }
      (by simpa using hlen) (by simpa using hmask) (by simpa using hpos)
    refine hrec.trans ?_
    have h1 : List.Perm
        (htEntries { ht with
          table := ht.table.set (hash e.key &&& ht.sizemask)
            (e :: ht.table.getD (hash e.key &&& ht.sizemask) []),
          used := ht.used + 1 })
        (e :: htEntries ht) := by
      simp only [htEntries]
      exact (flatten_set_perm ht.table (hash e.key &&& ht.sizemask)
          (e :: ht.table.getD (hash e.key &&& ht.sizemask) []) hslot).trans
        ((flatten_getD_perm ht.table (hash e.key &&& ht.sizemask) hslot).symm.cons e)
    exact (h1.append_left rest).trans List.perm_middle

/-- Skip-loop auxiliary: with enough fuel, if some slot at or after start is
non-empty then the loop stops at the first such slot. -/
lemma findNonEmptySlotAux_spec (t : List (List dictEntry)) :
    ∀ fuel start, (∃ j, start ≤ j ∧ j < t.length ∧ t.getD j [] ≠ []) →
    t.length ≤ start + fuel →
    ∃ j0, findNonEmptySlotAux t fuel start = some j0 ∧ start ≤ j0 ∧
      j0 < t.length ∧ t.getD j0 [] ≠ [] ∧
      ∀ i, start ≤ i → i < j0 → t.getD i [] = [] := by
  intro fuel
  induction fuel with
  | zero =>
    intro start hex hfuel
    obtain ⟨j, hsj, hjl, hne⟩ := hex
    omega
  | succ n ih =>
    intro start hex hfuel
    obtain ⟨j, hsj, hjl, hne⟩ := hex
    have hstart : start < t.length := lt_of_le_of_lt hsj hjl
    simp only [findNonEmptySlotAux, if_pos hstart]
    by_cases hempty : (t.getD start []).isEmpty
    · rw [if_pos hempty]
      have hjs : j ≠ start := by
        intro heq
        apply hne
        rw [heq]
        exact List.isEmpty_iff.1 hempty
      obtain ⟨j0, heq, hge, hlt, hne0, hbelow⟩ :=
        ih (start + 1) ⟨j, by omega, hjl, hne⟩ (by omega)
      refine ⟨j0, heq, by omega, hlt, hne0, ?_⟩
      intro i hi1 hi2
      rcases Nat.eq_or_lt_of_le hi1 with rfl | hgt
      · exact List.isEmpty_iff.1 hempty
      · exact hbelow i (by omega) hi2
    · rw [if_neg hempty]
      refine ⟨start, rfl, le_refl start, hstart, ?_, ?_⟩
      · intro hnil
        rw [hnil] at hempty
        simp at hempty
      · intro i hi1 hi2
        omega

/-- The skip loop of dictRehash finds the first non-empty slot at or after
its start whenever one exists. -/
lemma findNonEmptySlot_found (t : List (List dictEntry)) (start j : Nat)
    (hsj : start ≤ j) (hjl : j < t.length) (hne : t.getD j [] ≠ []) :
    ∃ j0, findNonEmptySlot t start = some j0 ∧ start ≤ j0 ∧ j0 ≤ j ∧
      j0 < t.length ∧ t.getD j0 [] ≠ [] ∧
      ∀ i, start ≤ i → i < j0 → t.getD i [] = [] := by
  obtain ⟨j0, heq, hge, hlt, hne0, hbelow⟩ :=
    findNonEmptySlotAux_spec t (t.length - start) start ⟨j, hsj, hjl, hne⟩ (by omega)
  refine ⟨j0, heq, hge, ?_, hlt, hne0, hbelow⟩
  by_contra hgt
  exact hne (hbelow j hsj (by omega))

/-- Rehashing is active exactly when the cursor left its sentinel. -/
lemma dictIsRehashing_iff (d : dict) : dictIsRehashing d = true ↔ d.rehashidx ≠ -1 := by
  simp [dictIsRehashing]

/-- Rehashing is stable exactly when the cursor is at its sentinel. -/
lemma dictIsRehashing_false_iff (d : dict) : dictIsRehashing d = false ↔ d.rehashidx = -1 := by
  simp [dictIsRehashing]

/-- A generation with no used entry has no entry at all. -/
lemma htEntries_eq_nil (hash : Nat → Nat) (ht : dictht) (h : htWF hash ht)
    (h0 : ht.used = 0) : htEntries ht = [] := by
  have := h.2.2.1
  rw [h0] at this
  exact List.length_eq_zero.1 this.symm

/-- Completion branch of one rehash step: with no used entry left in the
primary generation, the step frees the primary array, promotes the incoming
generation, resets it, resets the cursor to its sentinel and reports that
rehashing is over. -/
lemma rehashStep1_complete (hash : Nat → Nat) (d : dict) (h0 : d.ht0.used = 0) :
    rehashStep1 hash d =
      some ({ ht0 := d.ht1, ht1 := emptyHt, rehashidx := -1,
              iterators := d.iterators }, false) := by
  simp [rehashStep1, h0]

/-- Drain branch of one rehash step: with entries left, the step locates the
first non-empty primary slot at or after the cursor, relocates its whole
chain into the incoming generation, clears the slot, and advances the cursor
just past it. -/
lemma rehashStep1_drain (hash : Nat → Nat) (d : dict) (hwf : dictWF hash d)
    (hre : dictIsRehashing d = true) (h0 : d.ht0.used ≠ 0) :
    ∃ j, findNonEmptySlot d.ht0.table d.rehashidx.toNat = some j ∧
      d.rehashidx.toNat ≤ j ∧ j < d.ht0.size ∧ d.ht0.table.getD j [] ≠ [] ∧
      (∀ i, d.rehashidx.toNat ≤ i → i < j → d.ht0.table.getD i [] = []) ∧
      rehashStep1 hash d = some
        ({ d with
           ht0 := { d.ht0 with
                    table := d.ht0.table.set j [],
                    used := d.ht0.used - (d.ht0.table.getD j []).length },
           ht1 := moveEntries hash (d.ht0.table.getD j []) d.ht1,
           rehashidx := (j : Int) + 1 }, true) := by
  obtain ⟨hwf0, hwf1, hnodup, hstate⟩ := hwf
  rcases hstate with ⟨hsent, -⟩ | ⟨hne, hge, hs0, hs1, hbelow⟩
  · exact absurd hsent ((dictIsRehashing_iff d).1 hre)
  · obtain ⟨hlen0, hmask0, hused0, hplace0⟩ := hwf0
    have hflat : htEntries d.ht0 ≠ [] := by
      intro hnil
      rw [hnil] at hused0
      simp at hused0
      exact h0 hused0
    obtain ⟨e, he⟩ := List.exists_mem_of_ne_nil _ hflat
    obtain ⟨i, hil, hie⟩ := (mem_flatten_iff_getD d.ht0.table e).1 he
    have hine : d.ht0.table.getD i [] ≠ [] := by
      intro hnil
      rw [hnil] at hie
      simp at hie
    have hicur : d.rehashidx.toNat ≤ i := by
      by_contra hlt
      exact hine (hbelow i (by omega))
    obtain ⟨j, hfind, hgej, hjle, hjlen, hjne, hjbelow⟩ :=
      findNonEmptySlot_found d.ht0.table d.rehashidx.toNat i hicur hil hine
    refine ⟨j, hfind, hgej, by rwa [hlen0] at hjlen, hjne, hjbelow, ?_⟩
    have hassert : 0 ≤ d.rehashidx ∧ d.rehashidx.toNat < d.ht0.size := by
      constructor
      · exact hge
      · rw [← hlen0]
        omega
    rw [rehashStep1, if_neg h0, if_pos hassert, hfind]

/-- One rehash step from a well-formed rehashing dictionary succeeds,
preserves well-formedness, permutes no entry away, keeps the iterator
count, keeps the primary allocated, and only reports more work while
rehashing is still active. -/
lemma rehashStep1_wf (hash : Nat → Nat) (d : dict) (hwf : dictWF hash d)
    (hre : dictIsRehashing d = true) :
    ∃ p : dict × Bool, rehashStep1 hash d = some p ∧ dictWF hash p.1 ∧
      List.Perm (allEntries p.1) (allEntries d) ∧
      p.1.iterators = d.iterators ∧ p.1.ht0.size ≠ 0 ∧
      (p.2 = true → dictIsRehashing p.1 = true) := by
  obtain ⟨hwf0, hwf1, hnodup, hstate⟩ := hwf
  rcases hstate with ⟨hsent, -⟩ | ⟨hnesent, hge, hs0, hs1, hbelow⟩
  · exact absurd hsent ((dictIsRehashing_iff d).1 hre)
  by_cases h0 : d.ht0.used = 0
  · have hflat0 : htEntries d.ht0 = [] := htEntries_eq_nil hash d.ht0 hwf0 h0
    have hperm : List.Perm
        (allEntries { ht0 := d.ht1, ht1 := emptyHt, rehashidx := -1,
                      iterators := d.iterators })
        (allEntries d) := by
      have h2 : allEntries { ht0 := d.ht1, ht1 := emptyHt, rehashidx := -1,
                             iterators := d.iterators } = htEntries d.ht1 := by
        simp [allEntries, htEntries, emptyHt]
      have h3 : allEntries d = htEntries d.ht1 := by
        simp [allEntries, hflat0]
      rw [h2, h3]
    refine ⟨_, rehashStep1_complete hash d h0, ⟨hwf1, htWF_emptyHt hash, ?_, ?_⟩,
      hperm, rfl, hs1, ?_⟩
    · exact ((hperm.map dictEntry.key).symm.nodup hnodup : _)
    · exact Or.inl ⟨rfl, rfl⟩
    · intro h
      simp at h
  · obtain ⟨j, hfind, hgej, hjsize, hjne, hjbelow, heq⟩ :=
      rehashStep1_drain hash d ⟨hwf0, hwf1, hnodup,
        Or.inr ⟨hnesent, hge, hs0, hs1, hbelow⟩⟩ hre h0
    obtain ⟨hlen0, hmask0, hused0, hplace0⟩ := hwf0
    obtain ⟨hlen1, hmask1, hused1, hplace1⟩ := hwf1
    have hjlen : j < d.ht0.table.length := by rw [hlen0]; exact hjsize
    have hmove := moveEntries_fields hash (d.ht0.table.getD j []) d.ht1 hlen1 hmask1 hs1
    have hmperm := moveEntries_flatten_perm hash (d.ht0.table.getD j []) d.ht1 hlen1 hmask1 hs1
    have hsplit := flatten_getD_perm d.ht0.table j hjlen
    have hperm : List.Perm
        (allEntries ({ d with
           ht0 := { d.ht0 with
                    table := d.ht0.table.set j [],
                    used := d.ht0.used - (d.ht0.table.getD j []).length },
           ht1 := moveEntries hash (d.ht0.table.getD j []) d.ht1,
           rehashidx := (j : Int) + 1 }))
        (allEntries d) := by
      simp only [allEntries, htEntries]
      refine List.Perm.trans (hmperm.append_left _) ?_
      refine List.Perm.trans ?_ ((hsplit.append_right (htEntries d.ht1)).symm)
      rw [← List.append_assoc]
      exact (List.perm_append_comm).append_right _
    have hlen0count : d.ht0.used =
        (d.ht0.table.getD j []).length + (d.ht0.table.set j []).flatten.length := by
      rw [hused0]
      have := hsplit.length_eq
      simpa [htEntries] using this
    refine ⟨_, heq, ⟨?_, ?_, ?_, ?_⟩, hperm, rfl, hs0, ?_⟩
    · -- htWF of the drained primary
      refine ⟨by simpa using hlen0, by simpa using hmask0, ?_, ?_⟩
      · simp only [htEntries]
        omega
      · intro i hi e he
        simp only at hi he
        by_cases hij : j = i
        · rw [← hij, getD_set_self _ _ _ _ hjlen] at he
          simp at he
        · rw [getD_set_ne _ _ _ _ _ hij] at he
          simpa using hplace0 i (by simpa using hi) e he
    · -- htWF of the incoming generation after the moves
      refine ⟨?_, ?_, ?_, ?_⟩
      · simp only
        rw [hmove.2.2.1, hmove.1]
      · simp only
        rw [hmove.2.1, hmove.1, hmask1]
      · simp only [htEntries]
        rw [hmove.2.2.2]
        have := hmperm.length_eq
        simp only [htEntries] at this
        rw [this]
        simp [hused1, htEntries]
        omega
      · intro t ht e he
        simp only at ht he
        rw [hmove.1] at ht
        rw [moveEntries_getD hash _ d.ht1 hlen1 hmask1 hs1 t ht] at he
        rw [hmove.2.1]
        rcases List.mem_append.1 he with hrev | hold
        · have hmem := List.mem_filter.1 (List.mem_reverse.1 hrev)
          simpa using hmem.2
        · exact hplace1 t ht e hold
    · exact ((hperm.map dictEntry.key).symm.nodup hnodup : _)
    · refine Or.inr ⟨by show (j : Int) + 1 ≠ -1; omega,
        by show (0 : Int) ≤ (j : Int) + 1; omega, by simpa using hs0, ?_, ?_⟩
      · simp only
        rw [hmove.1]
        exact hs1
      · intro i hi
        simp only at hi ⊢
        have hij1 : i < j + 1 := by omega
        by_cases hij : j = i
        · rw [← hij]
          exact getD_set_self _ _ _ _ hjlen
        · rw [getD_set_ne _ _ _ _ _ hij]
          rcases Nat.lt_or_ge i d.rehashidx.toNat with hcase | hcase
          · exact hbelow i hcase
          · exact hjbelow i hcase (by omega)
    · intro h
      rw [dictIsRehashing_iff]
      simp only
      omega

/-- The rehash loop from a well-formed rehashing dictionary succeeds and
preserves well-formedness, the entries and the iterator count. -/
lemma dictRehashLoop_wf (hash : Nat → Nat) (n : Nat) :
    ∀ d, dictWF hash d → dictIsRehashing d = true →
    ∃ p : dict × Bool, dictRehashLoop hash n d = some p ∧ dictWF hash p.1 ∧
      List.Perm (allEntries p.1) (allEntries d) ∧
      p.1.iterators = d.iterators ∧ p.1.ht0.size ≠ 0 := by
  induction n with
  | zero =>
    intro d hwf hre
    have hs0 : d.ht0.size ≠ 0 := by
      rcases hwf.2.2.2 with ⟨hsent, -⟩ | ⟨-, -, hs0, -⟩
      · exact absurd hsent ((dictIsRehashing_iff d).1 hre)
      · exact hs0
    exact ⟨(d, true), rfl, hwf, List.Perm.refl _, rfl, hs0⟩
  | succ n ih =>
    intro d hwf hre
    obtain ⟨p, heq, hwf2, hperm, hit, hs, himp⟩ := rehashStep1_wf hash d hwf hre
    obtain ⟨d2, b⟩ := p
    cases b with
    | false =>
      refine ⟨(d2, false), ?_, hwf2, hperm, hit, hs⟩
      simp only [dictRehashLoop]
      rw [heq]
    | true =>
      obtain ⟨q, heqq, hwfq, hpermq, hitq, hsq⟩ := ih d2 hwf2 (himp rfl)
      refine ⟨q, ?_, hwfq, hpermq.trans hperm, by rw [hitq]; exact hit, hsq⟩
      simp only [dictRehashLoop]
      rw [heq]
      exact heqq

/-- dictRehash from a well-formed dictionary succeeds and preserves
well-formedness, the entries and the iterator count. -/
lemma dictRehash_wf (hash : Nat → Nat) (d : dict) (n : Nat) (hwf : dictWF hash d) :
    ∃ p : dict × Bool, dictRehash hash d n = some p ∧ dictWF hash p.1 ∧
      List.Perm (allEntries p.1) (allEntries d) ∧
      p.1.iterators = d.iterators ∧ (d.ht0.size ≠ 0 → p.1.ht0.size ≠ 0) := by
  by_cases hre : dictIsRehashing d = true
  · obtain ⟨p, heq, hwf2, hperm, hit, hs⟩ := dictRehashLoop_wf hash n d hwf hre
    exact ⟨p, by rw [dictRehash, if_pos hre]; exact heq, hwf2, hperm, hit, fun _ => hs⟩
  · exact ⟨(d, false), by rw [dictRehash, if_neg hre], hwf, List.Perm.refl _, rfl, id⟩

/-- The amortized rehash step from a well-formed dictionary succeeds and
preserves well-formedness, the entries and the iterator count. -/
lemma _dictRehashStep_wf (hash : Nat → Nat) (d : dict) (hwf : dictWF hash d) :
    ∃ d2, _dictRehashStep hash d = some d2 ∧ dictWF hash d2 ∧
      List.Perm (allEntries d2) (allEntries d) ∧
      d2.iterators = d.iterators ∧ (d.ht0.size ≠ 0 → d2.ht0.size ≠ 0) := by
  unfold _dictRehashStep
  by_cases hit : d.iterators = 0
  · rw [if_pos hit]
    obtain ⟨p, heq, hwf2, hperm, hitp, hs⟩ := dictRehash_wf hash d 1 hwf
    refine ⟨p.1, ?_, hwf2, hperm, hitp, hs⟩
    rw [heq]
    rfl
  · rw [if_neg hit]
    exact ⟨d, rfl, hwf, List.Perm.refl _, rfl, id⟩

/-- The conditional amortized rehash step from a well-formed dictionary
succeeds and preserves well-formedness, the entries and the iterator
count. -/
lemma rehashStepIfActive_wf (hash : Nat → Nat) (d : dict) (hwf : dictWF hash d) :
    ∃ d2, rehashStepIfActive hash d = some d2 ∧ dictWF hash d2 ∧
      List.Perm (allEntries d2) (allEntries d) ∧
      d2.iterators = d.iterators ∧ (d.ht0.size ≠ 0 → d2.ht0.size ≠ 0) := by
  unfold rehashStepIfActive
  by_cases hre : dictIsRehashing d = true
  · rw [if_pos hre]
    exact _dictRehashStep_wf hash d hwf
  · rw [if_neg hre]
    exact ⟨d, rfl, hwf, List.Perm.refl _, rfl, id⟩

/-- While safe iterators are live the amortized rehash step does nothing. -/
lemma _dictRehashStep_suppressed (hash : Nat → Nat) (d : dict)
    (hit : d.iterators ≠ 0) : _dictRehashStep hash d = some d := by
  simp [_dictRehashStep, hit]

/-- While safe iterators are live the conditional rehash step does
nothing. -/
lemma rehashStepIfActive_suppressed (hash : Nat → Nat) (d : dict)
    (hit : d.iterators ≠ 0) : rehashStepIfActive hash d = some d := by
  unfold rehashStepIfActive
  split
  · exact _dictRehashStep_suppressed hash d hit
  · rfl

/-- dictExpand on an unallocated primary installs the new array as ht0 and
does not enter rehashing. -/
lemma dictExpand_init (d : dict) (s : Nat) (hre : dictIsRehashing d = false)
    (hus : d.ht0.used ≤ s) (hnil : d.ht0.table = []) :
    dictExpand d s = some { d with ht0 :=
      { table := List.replicate (_dictNextPower s) [], size := _dictNextPower s,
        sizemask := _dictNextPower s - 1, used := 0 } } := by
  simp [dictExpand, hre, hnil, Nat.not_lt.2 hus]

/-- dictExpand on an allocated primary installs the new array as ht1 and
sets the cursor to 0, beginning rehashing. -/
lemma dictExpand_grow (d : dict) (s : Nat) (hre : dictIsRehashing d = false)
    (hus : d.ht0.used ≤ s) (hne : d.ht0.table ≠ []) :
    dictExpand d s = some { d with
      ht1 := { table := List.replicate (_dictNextPower s) [], size := _dictNextPower s,
               sizemask := _dictNextPower s - 1, used := 0 },
      rehashidx := 0 } := by
  simp [dictExpand, hre, hne, Nat.not_lt.2 hus]

/-- The resize policy from a well-formed dictionary succeeds, preserves
well-formedness and the entry list itself, and leaves the primary
allocated. -/
lemma _dictExpandIfNeeded_wf (hash : Nat → Nat) (cr : Bool) (d : dict)
    (hwf : dictWF hash d) :
    ∃ d2, _dictExpandIfNeeded cr d = some d2 ∧ dictWF hash d2 ∧
      allEntries d2 = allEntries d ∧ d2.iterators = d.iterators ∧
      d2.ht0.size ≠ 0 := by
  obtain ⟨hwf0, hwf1, hnodup, hstate⟩ := hwf
  by_cases hre : dictIsRehashing d = true
  · have hs0 : d.ht0.size ≠ 0 := by
      rcases hstate with ⟨hsent, -⟩ | ⟨-, -, hs0, -⟩
      · exact absurd hsent ((dictIsRehashing_iff d).1 hre)
      · exact hs0
    exact ⟨d, by simp [_dictExpandIfNeeded, hre], ⟨hwf0, hwf1, hnodup, hstate⟩,
      rfl, rfl, hs0⟩
  · have hre2 : dictIsRehashing d = false := by simpa using hre
    have hsent : d.rehashidx = -1 := (dictIsRehashing_false_iff d).1 hre2
    have hht1 : d.ht1 = emptyHt := by
      rcases hstate with ⟨-, h⟩ | ⟨hne, -⟩
      · exact h
      · exact absurd hsent hne
    by_cases hsz : d.ht0.size = 0
    · have htab : d.ht0.table = [] := List.length_eq_zero.1 (by rw [hwf0.1, hsz])
      have hused0 : d.ht0.used = 0 := by
        rw [hwf0.2.2.1]
        simp [htEntries, htab]
      have hexp := dictExpand_init d DICT_HT_INITIAL_SIZE hre2 (by omega) htab
      refine ⟨{ d with ht0 :=
          { table := List.replicate (_dictNextPower DICT_HT_INITIAL_SIZE) [],
            size := _dictNextPower DICT_HT_INITIAL_SIZE,
            sizemask := _dictNextPower DICT_HT_INITIAL_SIZE - 1, used := 0 } },
        ?_, ?_, ?_, rfl,
        by show _dictNextPower DICT_HT_INITIAL_SIZE ≠ 0; exact _dictNextPower_pos _⟩
      · rw [_dictExpandIfNeeded, if_neg (by simp [hre2]), if_pos hsz]
        exact hexp
      · refine ⟨htWF_newArray hash _, hwf1, ?_, Or.inl ⟨hsent, hht1⟩⟩
        have hent : allEntries { d with ht0 :=
            { table := List.replicate (_dictNextPower DICT_HT_INITIAL_SIZE) [],
              size := _dictNextPower DICT_HT_INITIAL_SIZE,
              sizemask := _dictNextPower DICT_HT_INITIAL_SIZE - 1, used := 0 } } =
            allEntries d := by
          simp [allEntries, htEntries, htab, flatten_replicate_nil]
        unfold keysOf
        rw [hent]
        exact hnodup
      · simp [allEntries, htEntries, htab, flatten_replicate_nil]
    · have htab : d.ht0.table ≠ [] := by
        intro h
        apply hsz
        rw [← hwf0.1, h]
        rfl
      by_cases hcond : d.ht0.size ≤ d.ht0.used ∧
          (cr || decide (5 < d.ht0.used / d.ht0.size)) = true
      · have hmax : d.ht0.used ≤ max d.ht0.size d.ht0.used * 2 := by
          have := le_max_right d.ht0.size d.ht0.used
          omega
        have hexp := dictExpand_grow d (max d.ht0.size d.ht0.used * 2) hre2 hmax htab
        have hent : allEntries { d with
            ht1 := { table := List.replicate
                       (_dictNextPower (max d.ht0.size d.ht0.used * 2)) [],
                     size := _dictNextPower (max d.ht0.size d.ht0.used * 2),
                     sizemask := _dictNextPower (max d.ht0.size d.ht0.used * 2) - 1,
                     used := 0 },
            rehashidx := 0 } = allEntries d := by
          simp [allEntries, htEntries, hht1, emptyHt, flatten_replicate_nil]
        refine ⟨{ d with
            ht1 := { table := List.replicate
                       (_dictNextPower (max d.ht0.size d.ht0.used * 2)) [],
                     size := _dictNextPower (max d.ht0.size d.ht0.used * 2),
                     sizemask := _dictNextPower (max d.ht0.size d.ht0.used * 2) - 1,
                     used := 0 },
            rehashidx := 0 }, ?_, ?_, hent, rfl, hsz⟩
        · rw [_dictExpandIfNeeded, if_neg (by simp [hre2]), if_neg hsz, if_pos hcond]
          exact hexp
        · refine ⟨hwf0, htWF_newArray hash _, ?_, ?_⟩
          · unfold keysOf
            rw [hent]
            exact hnodup
          · refine Or.inr ⟨by norm_num, by norm_num, hsz, _dictNextPower_pos _, ?_⟩
            intro i hi
            simp at hi
      · refine ⟨d, ?_, ⟨hwf0, hwf1, hnodup, hstate⟩, rfl, rfl, hsz⟩
        rw [_dictExpandIfNeeded, if_neg (by simp [hre2]), if_neg hsz, if_neg hcond]

/-- With keys not duplicated, an entry is determined by its key. -/
lemma key_unique (d : dict) (hnodup : (keysOf d).Nodup) (e1 e2 : dictEntry)
    (h1 : e1 ∈ allEntries d) (h2 : e2 ∈ allEntries d) (hk : e1.key = e2.key) :
    e1 = e2 := by
  have hmap : ((allEntries d).map dictEntry.key).Nodup := hnodup
  exact List.inj_on_of_nodup_map hmap h1 h2 hk

/-- With keys not duplicated across the generations, no key sits in both. -/
lemma not_mem_both_gens (d : dict) (hnodup : (keysOf d).Nodup) (x e : dictEntry)
    (hx : x ∈ htEntries d.ht0) (he : e ∈ htEntries d.ht1) (hk : x.key = e.key) :
    False := by
  unfold keysOf allEntries at hnodup
  rw [List.map_append] at hnodup
  rcases List.nodup_append.1 hnodup with ⟨-, -, hdisj⟩
  exact hdisj (List.mem_map_of_mem _ hx) (by rw [hk]; exact List.mem_map_of_mem _ he)

/-- In a well-formed generation every entry sits in the chain of its masked
hash. -/
lemma htWF_mem_slot (hash : Nat → Nat) (ht : dictht) (hwf : htWF hash ht)
    (e : dictEntry) (he : e ∈ htEntries ht) :
    e ∈ ht.table.getD (hash e.key &&& ht.sizemask) [] := by
  obtain ⟨i, hil, hie⟩ := (mem_flatten_iff_getD ht.table e).1 he
  have hisize : i < ht.size := by rw [← hwf.1]; exact hil
  have := hwf.2.2.2 i hisize e hie
  rw [this]
  exact hie

/-- A key stored anywhere forces the primary to be allocated. -/
lemma size0_ne_of_mem (hash : Nat → Nat) (d : dict) (hwf : dictWF hash d)
    (e : dictEntry) (he : e ∈ allEntries d) : d.ht0.size ≠ 0 := by
  intro hsz
  obtain ⟨hwf0, hwf1, hnodup, hstate⟩ := hwf
  have htab : d.ht0.table = [] := List.length_eq_zero.1 (by rw [hwf0.1, hsz])
  rcases hstate with ⟨-, hht1⟩ | ⟨-, -, hs0, -⟩
  · rcases List.mem_append.1 he with h0 | h1
    · rw [htEntries, htab] at h0
      simp at h0
    · rw [hht1] at h1
      simp [htEntries, emptyHt] at h1
  · exact hs0 hsz

/-- Unfolding of dictFind through a known rehash-step result. -/
lemma dictFind_eq_of_step (hash : Nat → Nat) (d : dict) (key : Nat) (d1 : dict)
    (hs0 : d.ht0.size ≠ 0) (hstep : rehashStepIfActive hash d = some d1) :
    dictFind hash d key =
      (match chainFind (d1.ht0.table.getD (hash key &&& d1.ht0.sizemask) []) key with
       | some e => some (d1, some e)
       | none =>
         if !dictIsRehashing d1 then some (d1, none)
         else some (d1, chainFind (d1.ht1.table.getD (hash key &&& d1.ht1.sizemask) []) key)) := by
  unfold dictFind
  rw [if_neg hs0, hstep]

/-- A stored entry is returned by dictFind, whichever generation holds it:
the lookup performs the amortized rehash step and then searches the primary
chain of the masked hash and, while rehashing, the incoming chain. -/
lemma dictFind_found (hash : Nat → Nat) (d : dict) (key : Nat) (e : dictEntry)
    (hwf : dictWF hash d) (he : e ∈ allEntries d) (hk : e.key = key) :
    ∃ d1, dictFind hash d key = some (d1, some e) ∧ dictWF hash d1 ∧
      List.Perm (allEntries d1) (allEntries d) ∧ d1.iterators = d.iterators := by
  have hs0 : d.ht0.size ≠ 0 := size0_ne_of_mem hash d hwf e he
  obtain ⟨d1, hstep, hwf1, hperm, hit, hs⟩ := rehashStepIfActive_wf hash d hwf
  have he1 : e ∈ allEntries d1 := hperm.mem_iff.2 he
  refine ⟨d1, ?_, hwf1, hperm, hit⟩
  rcases List.mem_append.1 he1 with hin0 | hin1
  · have hslot := htWF_mem_slot hash d1.ht0 hwf1.1 e hin0
    rw [hk] at hslot
    obtain ⟨x, hx⟩ := chainFind_isSome _ key e hslot hk
    obtain ⟨hxmem, hxkey⟩ := chainFind_mem _ key x hx
    have hxall : x ∈ allEntries d1 :=
      List.mem_append_left _ (mem_flatten_of_getD _ _ _ hxmem)
    have hxe : x = e := key_unique d1 hwf1.2.2.1 x e hxall he1 (by rw [hxkey, hk])
    rw [hxe] at hx
    rw [dictFind_eq_of_step hash d key d1 hs0 hstep, hx]
  · have hre1 : dictIsRehashing d1 = true := by
      by_contra hnot
      have hre2 : dictIsRehashing d1 = false := by simpa using hnot
      have hsent := (dictIsRehashing_false_iff d1).1 hre2
      rcases hwf1.2.2.2 with ⟨-, hht1⟩ | ⟨hne, -⟩
      · rw [hht1] at hin1
        simp [htEntries, emptyHt] at hin1
      · exact hne hsent
    have hcf0 : chainFind (d1.ht0.table.getD (hash key &&& d1.ht0.sizemask) []) key
        = none := by
      rw [chainFind_eq_none_iff]
      intro x hx hxkey
      have hxflat : x ∈ htEntries d1.ht0 := mem_flatten_of_getD _ _ _ hx
      exact not_mem_both_gens d1 hwf1.2.2.1 x e hxflat hin1 (by rw [hxkey, hk])
    have hslot := htWF_mem_slot hash d1.ht1 hwf1.2.1 e hin1
    rw [hk] at hslot
    obtain ⟨x, hx⟩ := chainFind_isSome _ key e hslot hk
    obtain ⟨hxmem, hxkey⟩ := chainFind_mem _ key x hx
    have hxall : x ∈ allEntries d1 :=
      List.mem_append_right _ (mem_flatten_of_getD _ _ _ hxmem)
    have hxe : x = e := key_unique d1 hwf1.2.2.1 x e hxall he1 (by rw [hxkey, hk])
    rw [hxe] at hx
    rw [dictFind_eq_of_step hash d key d1 hs0 hstep, hcf0, hre1, hx]
    rfl

/-- An absent key makes dictFind return the not-found result (after the
amortized rehash step). -/
lemma dictFind_missing (hash : Nat → Nat) (d : dict) (key : Nat)
    (hwf : dictWF hash d) (habs : key ∉ keysOf d) :
    ∃ d1, dictFind hash d key = some (d1, none) ∧ dictWF hash d1 ∧
      List.Perm (allEntries d1) (allEntries d) ∧ d1.iterators = d.iterators := by
  by_cases hs0 : d.ht0.size = 0
  · exact ⟨d, by simp [dictFind, hs0], hwf, List.Perm.refl _, rfl⟩
  · obtain ⟨d1, hstep, hwf1, hperm, hit, hs⟩ := rehashStepIfActive_wf hash d hwf
    have habs1 : key ∉ keysOf d1 := by
      intro hmem
      exact habs (((hperm.map dictEntry.key).mem_iff).1 hmem)
    have hnone : ∀ x ∈ allEntries d1, x.key ≠ key := by
      intro x hx hxkey
      exact habs1 (by rw [← hxkey]; exact List.mem_map_of_mem _ hx)
    have hcf0 : chainFind (d1.ht0.table.getD (hash key &&& d1.ht0.sizemask) []) key
        = none := by
      rw [chainFind_eq_none_iff]
      intro x hx
      exact hnone x (List.mem_append_left _ (mem_flatten_of_getD _ _ _ hx))
    refine ⟨d1, ?_, hwf1, hperm, hit⟩
    by_cases hre1 : dictIsRehashing d1 = true
    · have hcf1 : chainFind (d1.ht1.table.getD (hash key &&& d1.ht1.sizemask) []) key
          = none := by
        rw [chainFind_eq_none_iff]
        intro x hx
        exact hnone x (List.mem_append_right _ (mem_flatten_of_getD _ _ _ hx))
      rw [dictFind_eq_of_step hash d key d1 hs0 hstep, hcf0, hre1, hcf1]
      rfl
    · have hre2 : dictIsRehashing d1 = false := by simpa using hre1
      rw [dictFind_eq_of_step hash d key d1 hs0 hstep, hcf0, hre2]
      rfl

/-- Unfolding of _dictKeyIndex through a known resize-policy result. -/
lemma _dictKeyIndex_eq_of_expand (hash : Nat → Nat) (cr : Bool) (d : dict)
    (key : Nat) (d2 : dict) (hexp : _dictExpandIfNeeded cr d = some d2) :
    _dictKeyIndex hash cr d key =
      (if chainHasKey (d2.ht0.table.getD (hash key &&& d2.ht0.sizemask) []) key
       then (d2, none)
       else if !dictIsRehashing d2 then (d2, some (hash key &&& d2.ht0.sizemask))
       else if chainHasKey (d2.ht1.table.getD (hash key &&& d2.ht1.sizemask) []) key
       then (d2, none)
       else (d2, some (hash key &&& d2.ht1.sizemask))) := by
  unfold _dictKeyIndex
  rw [hexp]

/-- With the key already present, _dictKeyIndex reports -1 (here none). -/
lemma _dictKeyIndex_dup (hash : Nat → Nat) (cr : Bool) (d : dict) (key : Nat)
    (hwf : dictWF hash d) (hdup : key ∈ keysOf d) :
    ∃ d2, _dictExpandIfNeeded cr d = some d2 ∧
      _dictKeyIndex hash cr d key = (d2, none) ∧ dictWF hash d2 ∧
      allEntries d2 = allEntries d ∧ d2.iterators = d.iterators ∧
      d2.ht0.size ≠ 0 := by
  obtain ⟨d2, hexp, hwf2, hent, hit, hs⟩ := _dictExpandIfNeeded_wf hash cr d hwf
  obtain ⟨e, hemem, hekey⟩ : ∃ e ∈ allEntries d2, e.key = key := by
    obtain ⟨e, he, hkey⟩ := List.mem_map.1 hdup
    exact ⟨e, by rw [hent]; exact he, hkey⟩
  refine ⟨d2, hexp, ?_, hwf2, hent, hit, hs⟩
  rw [_dictKeyIndex_eq_of_expand hash cr d key d2 hexp]
  by_cases hc0 : chainHasKey (d2.ht0.table.getD (hash key &&& d2.ht0.sizemask) []) key = true
  · rw [if_pos hc0]
  · have hc0f : chainHasKey (d2.ht0.table.getD (hash key &&& d2.ht0.sizemask) []) key
        = false := by simpa using hc0
    have hin1 : e ∈ htEntries d2.ht1 := by
      rcases List.mem_append.1 hemem with hin0 | hin1
      · exfalso
        apply hc0
        rw [chainHasKey_iff]
        have := htWF_mem_slot hash d2.ht0 hwf2.1 e hin0
        rw [hekey] at this
        exact ⟨e, this, hekey⟩
      · exact hin1
    have hre : dictIsRehashing d2 = true := by
      by_contra hnot
      have hre2 : dictIsRehashing d2 = false := by simpa using hnot
      have hsent := (dictIsRehashing_false_iff d2).1 hre2
      rcases hwf2.2.2.2 with ⟨-, hht1⟩ | ⟨hne, -⟩
      · rw [hht1] at hin1
        simp [htEntries, emptyHt] at hin1
      · exact hne hsent
    have hc1 : chainHasKey (d2.ht1.table.getD (hash key &&& d2.ht1.sizemask) []) key
        = true := by
      rw [chainHasKey_iff]
      have := htWF_mem_slot hash d2.ht1 hwf2.2.1 e hin1
      rw [hekey] at this
      exact ⟨e, this, hekey⟩
    rw [hc0f, hre, hc1]
    rfl

/-- With the key absent, _dictKeyIndex returns the slot of the generation
being written to. -/
lemma _dictKeyIndex_fresh (hash : Nat → Nat) (cr : Bool) (d : dict) (key : Nat)
    (hwf : dictWF hash d) (habs : key ∉ keysOf d) :
    ∃ d2, _dictExpandIfNeeded cr d = some d2 ∧ dictWF hash d2 ∧
      allEntries d2 = allEntries d ∧ d2.iterators = d.iterators ∧
      d2.ht0.size ≠ 0 ∧
      ((dictIsRehashing d2 = true ∧
         _dictKeyIndex hash cr d key = (d2, some (hash key &&& d2.ht1.sizemask))) ∨
       (dictIsRehashing d2 = false ∧
         _dictKeyIndex hash cr d key = (d2, some (hash key &&& d2.ht0.sizemask)))) := by
  obtain ⟨d2, hexp, hwf2, hent, hit, hs⟩ := _dictExpandIfNeeded_wf hash cr d hwf
  have habs2 : ∀ x ∈ allEntries d2, x.key ≠ key := by
    intro x hx hxkey
    apply habs
    rw [← hxkey]
    rw [hent] at hx
    exact List.mem_map_of_mem _ hx
  have hc0 : chainHasKey (d2.ht0.table.getD (hash key &&& d2.ht0.sizemask) []) key
      = false := by
    rw [Bool.eq_false_iff]
    intro hc
    obtain ⟨x, hx, hxkey⟩ := (chainHasKey_iff _ _).1 hc
    exact habs2 x (List.mem_append_left _ (mem_flatten_of_getD _ _ _ hx)) hxkey
  refine ⟨d2, hexp, hwf2, hent, hit, hs, ?_⟩
  by_cases hre : dictIsRehashing d2 = true
  · have hc1 : chainHasKey (d2.ht1.table.getD (hash key &&& d2.ht1.sizemask) []) key
        = false := by
      rw [Bool.eq_false_iff]
      intro hc
      obtain ⟨x, hx, hxkey⟩ := (chainHasKey_iff _ _).1 hc
      exact habs2 x (List.mem_append_right _ (mem_flatten_of_getD _ _ _ hx)) hxkey
    refine Or.inl ⟨hre, ?_⟩
    rw [_dictKeyIndex_eq_of_expand hash cr d key d2 hexp, hc0, hre, hc1]
    rfl
  · have hre2 : dictIsRehashing d2 = false := by simpa using hre
    refine Or.inr ⟨hre2, ?_⟩
    rw [_dictKeyIndex_eq_of_expand hash cr d key d2 hexp, hc0, hre2]
    rfl

/-- Unfolding of dictAddRaw through a known rehash-step result. -/
lemma dictAddRaw_eq_of_step (hash : Nat → Nat) (cr : Bool) (d : dict) (key : Nat)
    (d1 : dict) (hstep : rehashStepIfActive hash d = some d1) :
    dictAddRaw hash cr d key =
      (match _dictKeyIndex hash cr d1 key with
       | (d2, none) => some (d2, none)
       | (d2, some idx) =>
         if dictIsRehashing d2 then
           some ({ d2 with ht1 := { d2.ht1 with
                    table := d2.ht1.table.set idx
                      ({ key := key, val := 0 } :: d2.ht1.table.getD idx []),
                    used := d2.ht1.used + 1 } }, some (1, idx))
         else
           some ({ d2 with ht0 := { d2.ht0 with
                    table := d2.ht0.table.set idx
                      ({ key := key, val := 0 } :: d2.ht0.table.getD idx []),
                    used := d2.ht0.used + 1 } }, some (0, idx))) := by
  unfold dictAddRaw
  rw [hstep]

/-- With the key already present, dictAddRaw rejects, leaving the entries of
both generations unchanged apart from the amortized rehash step and the
resize policy. -/
lemma dictAddRaw_dup (hash : Nat → Nat) (cr : Bool) (d : dict) (key : Nat)
    (hwf : dictWF hash d) (hdup : key ∈ keysOf d) :
    ∃ d2, dictAddRaw hash cr d key = some (d2, none) ∧ dictWF hash d2 ∧
      List.Perm (allEntries d2) (allEntries d) ∧ d2.iterators = d.iterators := by
  obtain ⟨d1, hstep, hwf1, hperm, hit, hs⟩ := rehashStepIfActive_wf hash d hwf
  have hdup1 : key ∈ keysOf d1 := ((hperm.map dictEntry.key).mem_iff).2 hdup
  obtain ⟨d2, hexp, hki, hwf2, hent, hit2, hs2⟩ := _dictKeyIndex_dup hash cr d1 key hwf1 hdup1
  refine ⟨d2, ?_, hwf2, by rw [hent]; exact hperm, by rw [hit2, hit]⟩
  rw [dictAddRaw_eq_of_step hash cr d key d1 hstep, hki]

/-- With the key absent, dictAddRaw installs a new entry carrying the key at
the head of the slot of the generation being written to and increments that
generation's used count. -/
lemma dictAddRaw_fresh (hash : Nat → Nat) (cr : Bool) (d : dict) (key : Nat)
    (hwf : dictWF hash d) (habs : key ∉ keysOf d) :
    ∃ d1 d2,
      rehashStepIfActive hash d = some d1 ∧
      _dictExpandIfNeeded cr d1 = some d2 ∧
      dictWF hash d2 ∧ List.Perm (allEntries d2) (allEntries d) ∧
      d2.iterators = d.iterators ∧ d2.ht0.size ≠ 0 ∧ (key ∉ keysOf d2) ∧
      ((dictIsRehashing d2 = true ∧ hash key &&& d2.ht1.sizemask < d2.ht1.size ∧
         dictAddRaw hash cr d key = some ({ d2 with ht1 := { d2.ht1 with
           table := d2.ht1.table.set (hash key &&& d2.ht1.sizemask)
             ({ key := key, val := 0 } ::
               d2.ht1.table.getD (hash key &&& d2.ht1.sizemask) []),
           used := d2.ht1.used + 1 } }, some (1, hash key &&& d2.ht1.sizemask))) ∨
       (dictIsRehashing d2 = false ∧ hash key &&& d2.ht0.sizemask < d2.ht0.size ∧
         dictAddRaw hash cr d key = some ({ d2 with ht0 := { d2.ht0 with
           table := d2.ht0.table.set (hash key &&& d2.ht0.sizemask)
             ({ key := key, val := 0 } ::
               d2.ht0.table.getD (hash key &&& d2.ht0.sizemask) []),
           used := d2.ht0.used + 1 } }, some (0, hash key &&& d2.ht0.sizemask)))) := by
  obtain ⟨d1, hstep, hwf1, hperm, hit, hs⟩ := rehashStepIfActive_wf hash d hwf
  have habs1 : key ∉ keysOf d1 := by
    intro hmem
    exact habs (((hperm.map dictEntry.key).mem_iff).1 hmem)
  obtain ⟨d2, hexp, hwf2, hent, hit2, hs2, hbranch⟩ :=
    _dictKeyIndex_fresh hash cr d1 key hwf1 habs1
  have hperm2 : List.Perm (allEntries d2) (allEntries d) := by
    rw [hent]
    exact hperm
  have habs2 : key ∉ keysOf d2 := by
    intro hmem
    exact habs (((hperm2.map dictEntry.key).mem_iff).1 hmem)
  refine ⟨d1, d2, hstep, hexp, hwf2, hperm2, by rw [hit2, hit], hs2, habs2, ?_⟩
  rcases hbranch with ⟨hre, hki⟩ | ⟨hre, hki⟩
  · refine Or.inl ⟨hre, ?_, ?_⟩
    · have hs1 : d2.ht1.size ≠ 0 := by
        rcases hwf2.2.2.2 with ⟨hsent, -⟩ | ⟨-, -, -, hs1, -⟩
        · exact absurd hsent ((dictIsRehashing_iff d2).1 hre)
        · exact hs1
      rw [hwf2.2.1.2.1]
      exact mask_lt _ _ hs1
    · rw [dictAddRaw_eq_of_step hash cr d key d1 hstep, hki]
      simp only [hre]
      rfl
  · refine Or.inr ⟨hre, ?_, ?_⟩
    · rw [hwf2.1.2.1]
      exact mask_lt _ _ hs2
    · rw [dictAddRaw_eq_of_step hash cr d key d1 hstep, hki]
      simp only [hre]
      rfl

/-- Inserting a fresh-keyed entry at the head of its masked-hash slot keeps
a generation well formed and conses the entry onto the generation's
entries. -/
lemma ht_insert_wf (hash : Nat → Nat) (ht : dictht) (key val : Nat)
    (hwf : htWF hash ht) (hs : ht.size ≠ 0) :
    htWF hash { ht with
      table := ht.table.set (hash key &&& ht.sizemask)
        ({ key := key, val := val } :: ht.table.getD (hash key &&& ht.sizemask) []),
      used := ht.used + 1 } ∧
    List.Perm (htEntries { ht with
      table := ht.table.set (hash key &&& ht.sizemask)
        ({ key := key, val := val } :: ht.table.getD (hash key &&& ht.sizemask) []),
      used := ht.used + 1 })
      ({ key := key, val := val } :: htEntries ht) := by
  obtain ⟨hlen, hmask, hused, hplace⟩ := hwf
  have hidxsz : hash key &&& ht.sizemask < ht.size := by
    rw [hmask]
    exact mask_lt _ _ hs
  have hidxlen : hash key &&& ht.sizemask < ht.table.length := by
    rw [hlen]
    exact hidxsz
  have hperm : List.Perm (htEntries { ht with
      table := ht.table.set (hash key &&& ht.sizemask)
        ({ key := key, val := val } :: ht.table.getD (hash key &&& ht.sizemask) []),
      used := ht.used + 1 })
      ({ key := key, val := val } :: htEntries ht) := by
    simp only [htEntries]
    exact (flatten_set_perm ht.table _ _ hidxlen).trans
      ((flatten_getD_perm ht.table _ hidxlen).symm.cons _)
  refine ⟨⟨by simpa using hlen, by simpa using hmask, ?_, ?_⟩, hperm⟩
  · have := hperm.length_eq
    simp only [htEntries] at this ⊢
    rw [this]
    simp [hused, htEntries]
  · intro i hi e he
    simp only at hi he ⊢
    by_cases hix : hash key &&& ht.sizemask = i
    · rw [← hix] at he ⊢
      rw [getD_set_self _ _ _ _ hidxlen] at he
      rcases List.mem_cons.1 he with rfl | hmem
      · rfl
      · exact hplace _ hidxsz e hmem
    · rw [getD_set_ne _ _ _ _ _ hix] at he
      exact hplace i (by simpa using hi) e he

/-- Unfolding of dictAdd through a successful dictAddRaw. -/
lemma dictAdd_eq_of_addRaw_some (hash : Nat → Nat) (cr : Bool) (d : dict)
    (key val : Nat) (d3 : dict) (g idx : Nat)
    (heq : dictAddRaw hash cr d key = some (d3, some (g, idx))) :
    dictAdd hash cr d key val = some (setSlotHeadVal d3 g idx val, true) := by
  unfold dictAdd
  rw [heq]

/-- With the key already present, dictAdd fails with DICT_ERR. -/
lemma dictAdd_dup (hash : Nat → Nat) (cr : Bool) (d : dict) (key val : Nat)
    (hwf : dictWF hash d) (hdup : key ∈ keysOf d) :
    ∃ d2, dictAdd hash cr d key val = some (d2, false) ∧ dictWF hash d2 ∧
      List.Perm (allEntries d2) (allEntries d) ∧ d2.iterators = d.iterators := by
  obtain ⟨d2, heq, hwf2, hperm, hit⟩ := dictAddRaw_dup hash cr d key hwf hdup
  refine ⟨d2, ?_, hwf2, hperm, hit⟩
  unfold dictAdd
  rw [heq]

/-- With the key absent, dictAdd succeeds and stores the key/value pair. -/
lemma dictAdd_fresh (hash : Nat → Nat) (cr : Bool) (d : dict) (key val : Nat)
    (hwf : dictWF hash d) (habs : key ∉ keysOf d) :
    ∃ d4, dictAdd hash cr d key val = some (d4, true) ∧ dictWF hash d4 ∧
      List.Perm (allEntries d4) ({ key := key, val := val } :: allEntries d) ∧
      d4.iterators = d.iterators ∧ d4.ht0.size ≠ 0 := by
  obtain ⟨d1, d2, hstep, hexp, hwf2, hperm2, hit2, hs2, habs2, hbranch⟩ :=
    dictAddRaw_fresh hash cr d key hwf habs
  rcases hbranch with ⟨hre, hlt, heq⟩ | ⟨hre, hlt, heq⟩
  · have hs1 : d2.ht1.size ≠ 0 := by omega
    have hlen1 : hash key &&& d2.ht1.sizemask < d2.ht1.table.length := by
      rw [hwf2.2.1.1]
      exact hlt
    obtain ⟨hinswf, hinsperm⟩ := ht_insert_wf hash d2.ht1 key val hwf2.2.1 hs1
    have hsethead : setSlotHeadVal { d2 with ht1 := { d2.ht1 with
          table := d2.ht1.table.set (hash key &&& d2.ht1.sizemask)
            ({ key := key, val := 0 } ::
              d2.ht1.table.getD (hash key &&& d2.ht1.sizemask) []),
          used := d2.ht1.used + 1 } } 1 (hash key &&& d2.ht1.sizemask) val =
        { d2 with ht1 := { d2.ht1 with
          table := d2.ht1.table.set (hash key &&& d2.ht1.sizemask)
            ({ key := key, val := val } ::
              d2.ht1.table.getD (hash key &&& d2.ht1.sizemask) []),
          used := d2.ht1.used + 1 } } := by
      unfold setSlotHeadVal
      rw [if_pos rfl]
      simp only
      rw [getD_set_self _ _ _ _ hlen1, List.set_set]
    have hpermAll : List.Perm
        (allEntries { d2 with ht1 := { d2.ht1 with
          table := d2.ht1.table.set (hash key &&& d2.ht1.sizemask)
            ({ key := key, val := val } ::
              d2.ht1.table.getD (hash key &&& d2.ht1.sizemask) []),
          used := d2.ht1.used + 1 } })
        ({ key := key, val := val } :: allEntries d2) := by
      show List.Perm (htEntries d2.ht0 ++ htEntries { d2.ht1 with
        table := d2.ht1.table.set (hash key &&& d2.ht1.sizemask)
          ({ key := key, val := val } ::
            d2.ht1.table.getD (hash key &&& d2.ht1.sizemask) []),
        used := d2.ht1.used + 1 })
        ({ key := key, val := val } :: (htEntries d2.ht0 ++ htEntries d2.ht1))
      exact (hinsperm.append_left _).trans List.perm_middle
    refine ⟨{ d2 with ht1 := { d2.ht1 with
        table := d2.ht1.table.set (hash key &&& d2.ht1.sizemask)
          ({ key := key, val := val } ::
            d2.ht1.table.getD (hash key &&& d2.ht1.sizemask) []),
        used := d2.ht1.used + 1 } }, ?_, ?_, ?_, ?_, ?_⟩
    · rw [dictAdd_eq_of_addRaw_some hash cr d key val _ _ _ heq, hsethead]
    · refine ⟨hwf2.1, hinswf, ?_, ?_⟩
      · have hkeysperm : List.Perm
            (keysOf { d2 with ht1 := { d2.ht1 with
              table := d2.ht1.table.set (hash key &&& d2.ht1.sizemask)
                ({ key := key, val := val } ::
                  d2.ht1.table.getD (hash key &&& d2.ht1.sizemask) []),
              used := d2.ht1.used + 1 } })
            (key :: keysOf d2) := hpermAll.map dictEntry.key
        exact hkeysperm.symm.nodup (List.nodup_cons.2 ⟨habs2, hwf2.2.2.1⟩)
      · rcases hwf2.2.2.2 with ⟨hsent, -⟩ | ⟨hne, hge, hsa, hsb, hbelow⟩
        · exact absurd hsent ((dictIsRehashing_iff d2).1 hre)
        · exact Or.inr ⟨hne, hge, hsa, by simpa using hsb, hbelow⟩
    · exact hpermAll.trans (hperm2.cons _)
    · exact hit2
    · exact hs2
  · have hlen0 : hash key &&& d2.ht0.sizemask < d2.ht0.table.length := by
      rw [hwf2.1.1]
      exact hlt
    obtain ⟨hinswf, hinsperm⟩ := ht_insert_wf hash d2.ht0 key val hwf2.1 hs2
    have hsethead : setSlotHeadVal { d2 with ht0 := { d2.ht0 with
          table := d2.ht0.table.set (hash key &&& d2.ht0.sizemask)
            ({ key := key, val := 0 } ::
              d2.ht0.table.getD (hash key &&& d2.ht0.sizemask) []),
          used := d2.ht0.used + 1 } } 0 (hash key &&& d2.ht0.sizemask) val =
        { d2 with ht0 := { d2.ht0 with
          table := d2.ht0.table.set (hash key &&& d2.ht0.sizemask)
            ({ key := key, val := val } ::
              d2.ht0.table.getD (hash key &&& d2.ht0.sizemask) []),
          used := d2.ht0.used + 1 } } := by
      unfold setSlotHeadVal
      rw [if_neg (by norm_num)]
      simp only
      rw [getD_set_self _ _ _ _ hlen0, List.set_set]
    have hpermAll : List.Perm
        (allEntries { d2 with ht0 := { d2.ht0 with
          table := d2.ht0.table.set (hash key &&& d2.ht0.sizemask)
            ({ key := key, val := val } ::
              d2.ht0.table.getD (hash key &&& d2.ht0.sizemask) []),
          used := d2.ht0.used + 1 } })
        ({ key := key, val := val } :: allEntries d2) := by
      show List.Perm (htEntries { d2.ht0 with
        table := d2.ht0.table.set (hash key &&& d2.ht0.sizemask)
          ({ key := key, val := val } ::
            d2.ht0.table.getD (hash key &&& d2.ht0.sizemask) []),
        used := d2.ht0.used + 1 } ++ htEntries d2.ht1)
        ({ key := key, val := val } :: (htEntries d2.ht0 ++ htEntries d2.ht1))
      exact hinsperm.append_right _
    refine ⟨{ d2 with ht0 := { d2.ht0 with
        table := d2.ht0.table.set (hash key &&& d2.ht0.sizemask)
          ({ key := key, val := val } ::
            d2.ht0.table.getD (hash key &&& d2.ht0.sizemask) []),
        used := d2.ht0.used + 1 } }, ?_, ?_, ?_, ?_, ?_⟩
    · rw [dictAdd_eq_of_addRaw_some hash cr d key val _ _ _ heq, hsethead]
    · refine ⟨hinswf, hwf2.2.1, ?_, ?_⟩
      · have hkeysperm : List.Perm
            (keysOf { d2 with ht0 := { d2.ht0 with
              table := d2.ht0.table.set (hash key &&& d2.ht0.sizemask)
                ({ key := key, val := val } ::
                  d2.ht0.table.getD (hash key &&& d2.ht0.sizemask) []),
              used := d2.ht0.used + 1 } })
            (key :: keysOf d2) := hpermAll.map dictEntry.key
        exact hkeysperm.symm.nodup (List.nodup_cons.2 ⟨habs2, hwf2.2.2.1⟩)
      · rcases hwf2.2.2.2 with ⟨hsent, hht1⟩ | ⟨hne, -⟩
        · exact Or.inl ⟨hsent, hht1⟩
        · exact absurd ((dictIsRehashing_false_iff d2).1 hre) hne
    · exact hpermAll.trans (hperm2.cons _)
    · exact hit2
    · show d2.ht0.size ≠ 0
      exact hs2

/-- Unfolding of dictGenericDelete through a known rehash-step result. -/
lemma dictGenericDelete_eq_of_step (hash : Nat → Nat) (d : dict) (key : Nat)
    (d1 : dict) (hs0 : d.ht0.size ≠ 0)
    (hstep : rehashStepIfActive hash d = some d1) :
    dictGenericDelete hash d key =
      (match removeKeyChain key (d1.ht0.table.getD (hash key &&& d1.ht0.sizemask) []) with
       | some c0 => some ({ d1 with ht0 := { d1.ht0 with
           table := d1.ht0.table.set (hash key &&& d1.ht0.sizemask) c0,
           used := d1.ht0.used - 1 } }, true)
       | none =>
         if !dictIsRehashing d1 then some (d1, false)
         else
           match removeKeyChain key (d1.ht1.table.getD (hash key &&& d1.ht1.sizemask) []) with
           | some c1 => some ({ d1 with ht1 := { d1.ht1 with
               table := d1.ht1.table.set (hash key &&& d1.ht1.sizemask) c1,
               used := d1.ht1.used - 1 } }, true)
           | none => some (d1, false)) := by
  unfold dictGenericDelete
  rw [if_neg hs0, hstep]

/-- dictDelete on an absent key fails with DICT_ERR after the amortized
rehash step (and does so immediately when the primary is unallocated). -/
lemma dictDelete_missing (hash : Nat → Nat) (d : dict) (key : Nat)
    (hwf : dictWF hash d) (habs : key ∉ keysOf d) :
    ∃ d1, dictDelete hash d key = some (d1, false) ∧ dictWF hash d1 ∧
      List.Perm (allEntries d1) (allEntries d) ∧ d1.iterators = d.iterators := by
  by_cases hs0 : d.ht0.size = 0
  · exact ⟨d, by simp [dictDelete, dictGenericDelete, hs0], hwf, List.Perm.refl _, rfl⟩
  · obtain ⟨d1, hstep, hwf1, hperm, hit, hs⟩ := rehashStepIfActive_wf hash d hwf
    have hnone : ∀ x ∈ allEntries d1, x.key ≠ key := by
      intro x hx hxkey
      apply habs
      rw [← hxkey]
      exact List.mem_map_of_mem _ (hperm.mem_iff.1 hx)
    have hrm0 : removeKeyChain key
        (d1.ht0.table.getD (hash key &&& d1.ht0.sizemask) []) = none := by
      rw [removeKeyChain_none_iff]
      intro x hx
      exact hnone x (List.mem_append_left _ (mem_flatten_of_getD _ _ _ hx))
    refine ⟨d1, ?_, hwf1, hperm, hit⟩
    show dictGenericDelete hash d key = some (d1, false)
    by_cases hre1 : dictIsRehashing d1 = true
    · have hrm1 : removeKeyChain key
          (d1.ht1.table.getD (hash key &&& d1.ht1.sizemask) []) = none := by
        rw [removeKeyChain_none_iff]
        intro x hx
        exact hnone x (List.mem_append_right _ (mem_flatten_of_getD _ _ _ hx))
      rw [dictGenericDelete_eq_of_step hash d key d1 hs0 hstep, hrm0, hre1, hrm1]
      rfl
    · have hre2 : dictIsRehashing d1 = false := by simpa using hre1
      rw [dictGenericDelete_eq_of_step hash d key d1 hs0 hstep, hrm0, hre2]
      rfl

/-- dictDelete on a stored key unlinks exactly that entry from its
generation and decrements that generation's used count. -/
lemma dictDelete_found (hash : Nat → Nat) (d : dict) (key : Nat) (e : dictEntry)
    (hwf : dictWF hash d) (he : e ∈ allEntries d) (hk : e.key = key) :
    ∃ d2, dictDelete hash d key = some (d2, true) ∧ dictWF hash d2 ∧
      List.Perm (allEntries d) (e :: allEntries d2) ∧
      key ∉ keysOf d2 ∧ d2.iterators = d.iterators := by
  have hs0 : d.ht0.size ≠ 0 := size0_ne_of_mem hash d hwf e he
  obtain ⟨d1, hstep, hwf1, hperm, hit, hs⟩ := rehashStepIfActive_wf hash d hwf
  have he1 : e ∈ allEntries d1 := hperm.mem_iff.2 he
  rcases List.mem_append.1 he1 with hin0 | hin1
  · -- the entry sits in the primary generation
    have hslot := htWF_mem_slot hash d1.ht0 hwf1.1 e hin0
    rw [hk] at hslot
    have hidxlen : hash key &&& d1.ht0.sizemask < d1.ht0.table.length := by
      rw [hwf1.1.1, hwf1.1.2.1]
      exact mask_lt _ _ (hs hs0)
    cases hrm0 : removeKeyChain key
        (d1.ht0.table.getD (hash key &&& d1.ht0.sizemask) []) with
    | none =>
      rw [removeKeyChain_none_iff] at hrm0
      exact absurd hk (hrm0 e hslot)
    | some c0 =>
      obtain ⟨er, herk, hchperm0⟩ := removeKeyChain_some key _ c0 hrm0
      have hermem : er ∈ allEntries d1 := by
        refine List.mem_append_left _
          (mem_flatten_of_getD _ (hash key &&& d1.ht0.sizemask) _ ?_)
        exact hchperm0.mem_iff.2 (List.mem_cons.2 (Or.inl rfl))
      have hee : er = e := key_unique d1 hwf1.2.2.1 er e hermem he1 (by rw [herk, hk])
      have hchperm : List.Perm
          (d1.ht0.table.getD (hash key &&& d1.ht0.sizemask) []) (e :: c0) :=
        hee ▸ hchperm0
      have hflatperm : List.Perm (htEntries d1.ht0)
          (e :: (d1.ht0.table.set (hash key &&& d1.ht0.sizemask) c0).flatten) :=
        ((flatten_getD_perm d1.ht0.table _ hidxlen).trans
          (hchperm.append_right _)).trans
          (((flatten_set_perm d1.ht0.table _ c0 hidxlen).symm).cons e)
      have hall : List.Perm (allEntries d1)
          (e :: allEntries { d1 with ht0 := { d1.ht0 with
            table := d1.ht0.table.set (hash key &&& d1.ht0.sizemask) c0,
            used := d1.ht0.used - 1 } }) := by
        show List.Perm (htEntries d1.ht0 ++ htEntries d1.ht1)
          (e :: ((d1.ht0.table.set (hash key &&& d1.ht0.sizemask) c0).flatten
            ++ htEntries d1.ht1))
        exact hflatperm.append_right _
      have hkeys : List.Perm (keysOf d1)
          (key :: keysOf { d1 with ht0 := { d1.ht0 with
            table := d1.ht0.table.set (hash key &&& d1.ht0.sizemask) c0,
            used := d1.ht0.used - 1 } }) := by
        have h1 := hall.map dictEntry.key
        rw [List.map_cons, hk] at h1
        exact h1
      have hnodup2 := hkeys.nodup hwf1.2.2.1
      refine ⟨{ d1 with ht0 := { d1.ht0 with
          table := d1.ht0.table.set (hash key &&& d1.ht0.sizemask) c0,
          used := d1.ht0.used - 1 } }, ?_, ⟨?_, hwf1.2.1, ?_, ?_⟩,
        hperm.symm.trans hall, (List.nodup_cons.1 hnodup2).1, hit⟩
      · show dictGenericDelete hash d key = _
        rw [dictGenericDelete_eq_of_step hash d key d1 hs0 hstep, hrm0]
      · refine ⟨by simpa using hwf1.1.1, by simpa using hwf1.1.2.1, ?_, ?_⟩
        · show d1.ht0.used - 1 =
            (htEntries { d1.ht0 with
              table := d1.ht0.table.set (hash key &&& d1.ht0.sizemask) c0,
              used := d1.ht0.used - 1 }).length
          have hlen := hflatperm.length_eq
          have hused := hwf1.1.2.2.1
          simp only [htEntries, List.length_cons] at hlen hused ⊢
          omega
        · intro i hi e2 he2
          simp only at hi he2 ⊢
          by_cases hix : hash key &&& d1.ht0.sizemask = i
          · rw [← hix] at he2 ⊢
            rw [getD_set_self _ _ _ _ hidxlen] at he2
            have : e2 ∈ d1.ht0.table.getD (hash key &&& d1.ht0.sizemask) [] :=
              hchperm.mem_iff.2 (List.mem_cons_of_mem e he2)
            exact hwf1.1.2.2.2 _ (by rw [← hwf1.1.1]; exact hidxlen) e2 this
          · rw [getD_set_ne _ _ _ _ _ hix] at he2
            exact hwf1.1.2.2.2 i (by simpa using hi) e2 he2
      · exact (List.nodup_cons.1 hnodup2).2
      · rcases hwf1.2.2.2 with ⟨hsent, hht1⟩ | ⟨hne, hge, hsa, hsb, hbelow⟩
        · exact Or.inl ⟨hsent, hht1⟩
        · refine Or.inr ⟨hne, hge, by simpa using hsa, hsb, ?_⟩
          intro i hi
          simp only at hi ⊢
          by_cases hix : hash key &&& d1.ht0.sizemask = i
          · exfalso
            have hempty := hbelow i (by simpa using hi)
            rw [← hix] at hempty
            rw [hempty] at hslot
            simp at hslot
          · rw [getD_set_ne _ _ _ _ _ hix]
            exact hbelow i (by simpa using hi)
  · -- the entry sits in the incoming generation
    have hre1 : dictIsRehashing d1 = true := by
      by_contra hnot
      have hre2 : dictIsRehashing d1 = false := by simpa using hnot
      have hsent := (dictIsRehashing_false_iff d1).1 hre2
      rcases hwf1.2.2.2 with ⟨-, hht1⟩ | ⟨hne, -⟩
      · rw [hht1] at hin1
        simp [htEntries, emptyHt] at hin1
      · exact hne hsent
    have hs1 : d1.ht1.size ≠ 0 := by
      rcases hwf1.2.2.2 with ⟨hsent, -⟩ | ⟨-, -, -, hs1, -⟩
      · exact absurd hsent ((dictIsRehashing_iff d1).1 hre1)
      · exact hs1
    have hslot := htWF_mem_slot hash d1.ht1 hwf1.2.1 e hin1
    rw [hk] at hslot
    have hidxlen : hash key &&& d1.ht1.sizemask < d1.ht1.table.length := by
      rw [hwf1.2.1.1, hwf1.2.1.2.1]
      exact mask_lt _ _ hs1
    have hrm0 : removeKeyChain key
        (d1.ht0.table.getD (hash key &&& d1.ht0.sizemask) []) = none := by
      rw [removeKeyChain_none_iff]
      intro x hx hxkey
      exact not_mem_both_gens d1 hwf1.2.2.1 x e
        (mem_flatten_of_getD _ _ _ hx) hin1 (by rw [hxkey, hk])
    cases hrm1 : removeKeyChain key
        (d1.ht1.table.getD (hash key &&& d1.ht1.sizemask) []) with
    | none =>
      rw [removeKeyChain_none_iff] at hrm1
      exact absurd hk (hrm1 e hslot)
    | some c1 =>
      obtain ⟨er, herk, hchperm0⟩ := removeKeyChain_some key _ c1 hrm1
      have hermem : er ∈ allEntries d1 := by
        refine List.mem_append_right _
          (mem_flatten_of_getD _ (hash key &&& d1.ht1.sizemask) _ ?_)
        exact hchperm0.mem_iff.2 (List.mem_cons.2 (Or.inl rfl))
      have hee : er = e := key_unique d1 hwf1.2.2.1 er e hermem he1 (by rw [herk, hk])
      have hchperm : List.Perm
          (d1.ht1.table.getD (hash key &&& d1.ht1.sizemask) []) (e :: c1) :=
        hee ▸ hchperm0
      have hflatperm : List.Perm (htEntries d1.ht1)
          (e :: (d1.ht1.table.set (hash key &&& d1.ht1.sizemask) c1).flatten) :=
        ((flatten_getD_perm d1.ht1.table _ hidxlen).trans
          (hchperm.append_right _)).trans
          (((flatten_set_perm d1.ht1.table _ c1 hidxlen).symm).cons e)
      have hall : List.Perm (allEntries d1)
          (e :: allEntries { d1 with ht1 := { d1.ht1 with
            table := d1.ht1.table.set (hash key &&& d1.ht1.sizemask) c1,
            used := d1.ht1.used - 1 } }) := by
        show List.Perm (htEntries d1.ht0 ++ htEntries d1.ht1)
          (e :: (htEntries d1.ht0 ++
            (d1.ht1.table.set (hash key &&& d1.ht1.sizemask) c1).flatten))
        exact (hflatperm.append_left _).trans List.perm_middle
      have hkeys : List.Perm (keysOf d1)
          (key :: keysOf { d1 with ht1 := { d1.ht1 with
            table := d1.ht1.table.set (hash key &&& d1.ht1.sizemask) c1,
            used := d1.ht1.used - 1 } }) := by
        have h1 := hall.map dictEntry.key
        rw [List.map_cons, hk] at h1
        exact h1
      have hnodup2 := hkeys.nodup hwf1.2.2.1
      refine ⟨{ d1 with ht1 := { d1.ht1 with
          table := d1.ht1.table.set (hash key &&& d1.ht1.sizemask) c1,
          used := d1.ht1.used - 1 } }, ?_, ⟨hwf1.1, ?_, ?_, ?_⟩,
        hperm.symm.trans hall, (List.nodup_cons.1 hnodup2).1, hit⟩
      · show dictGenericDelete hash d key = _
        rw [dictGenericDelete_eq_of_step hash d key d1 hs0 hstep, hrm0, hre1, hrm1]
        rfl
      · refine ⟨by simpa using hwf1.2.1.1, by simpa using hwf1.2.1.2.1, ?_, ?_⟩
        · show d1.ht1.used - 1 =
            (htEntries { d1.ht1 with
              table := d1.ht1.table.set (hash key &&& d1.ht1.sizemask) c1,
              used := d1.ht1.used - 1 }).length
          have hlen := hflatperm.length_eq
          have hused := hwf1.2.1.2.2.1
          simp only [htEntries, List.length_cons] at hlen hused ⊢
          omega
        · intro i hi e2 he2
          simp only at hi he2 ⊢
          by_cases hix : hash key &&& d1.ht1.sizemask = i
          · rw [← hix] at he2 ⊢
            rw [getD_set_self _ _ _ _ hidxlen] at he2
            have : e2 ∈ d1.ht1.table.getD (hash key &&& d1.ht1.sizemask) [] :=
              hchperm.mem_iff.2 (List.mem_cons_of_mem e he2)
            exact hwf1.2.1.2.2.2 _ (by rw [← hwf1.2.1.1]; exact hidxlen) e2 this
          · rw [getD_set_ne _ _ _ _ _ hix] at he2
            exact hwf1.2.1.2.2.2 i (by simpa using hi) e2 he2
      · exact (List.nodup_cons.1 hnodup2).2
      · rcases hwf1.2.2.2 with ⟨hsent, -⟩ | ⟨hne, hge, hsa, hsb, hbelow⟩
        · exact absurd hsent ((dictIsRehashing_iff d1).1 hre1)
        · exact Or.inr ⟨hne, hge, hsa, by simpa using hsb, hbelow⟩


/-- dictNext never touches the generations or the cursor, only possibly the
iterator count. -/
lemma dictNextLoop_tables (fuel : Nat) : ∀ (d : dict) (it : dictIterator),
    (dictNextLoop fuel d it).1.ht0 = d.ht0 ∧
    (dictNextLoop fuel d it).1.ht1 = d.ht1 ∧
    (dictNextLoop fuel d it).1.rehashidx = d.rehashidx := by
  induction fuel with
  | zero => intro d it; exact ⟨rfl, rfl, rfl⟩
  | succ n ih =>
    intro d it
    simp only [dictNextLoop]
    repeat (first | exact ⟨rfl, rfl, rfl⟩ | exact ih _ _ | split)

/-- Once the iterator has advanced (index no longer -1), dictNext never
touches the dict again, and the index stays non-negative. -/
lemma dictNextLoop_pos (fuel : Nat) : ∀ (d : dict) (it : dictIterator),
    0 ≤ it.index →
    (dictNextLoop fuel d it).1 = d ∧ 0 ≤ (dictNextLoop fuel d it).2.1.index := by
  induction fuel with
  | zero => intro d it h; exact ⟨rfl, h⟩
  | succ n ih =>
    intro d it h
    have hcond : ¬(it.safe = true ∧ it.index = -1 ∧ it.table = 0) := by
      rintro ⟨-, h2, -⟩
      omega
    simp only [dictNextLoop, if_neg hcond]
    repeat
      first
      | exact ih _ _ (by first | omega | (simp <;> omega))
      | exact ⟨rfl, by first | omega | (simp <;> omega)⟩
      | split

/-- The result iterator of dictNext keeps the safety flag of its input. -/
lemma dictNextLoop_safe (fuel : Nat) : ∀ (d : dict) (it : dictIterator),
    (dictNextLoop fuel d it).2.1.safe = it.safe := by
  induction fuel with
  | zero => intro d it; rfl
  | succ n ih =>
    intro d it
    simp only [dictNextLoop]
    repeat
      first
      | exact (ih _ _).trans rfl
      | rfl
      | split

/-- A scan-only iterator never changes the dict at all. -/
lemma dictNextLoop_scanOnly (fuel : Nat) : ∀ (d : dict) (it : dictIterator),
    it.safe = false → (dictNextLoop fuel d it).1 = d := by
  induction fuel with
  | zero => intro d it hs; rfl
  | succ n ih =>
    intro d it hs
    have hcond : ¬(it.safe = true ∧ it.index = -1 ∧ it.table = 0) := by
      rintro ⟨h1, -⟩
      rw [hs] at h1
      exact Bool.false_ne_true h1
    simp only [dictNextLoop, if_neg hcond]
    repeat
      first
      | exact ih _ _ (by simpa using hs)
      | rfl
      | split

/-- First advance of a fresh safe iterator: the live counter is incremented
once and the index becomes non-negative. -/
lemma dictNextLoop_fresh_safe (fuel : Nat) (d : dict) (it : dictIterator)
    (hfr : it.index = -1 ∧ it.table = 0 ∧ it.entry = []) (hsafe : it.safe = true) :
    (dictNextLoop (fuel + 1) d it).1 = { d with iterators := d.iterators + 1 } ∧
    0 ≤ (dictNextLoop (fuel + 1) d it).2.1.index := by
  obtain ⟨hidx, htab, hent⟩ := hfr
  have hempty : it.entry.isEmpty = true := by rw [hent]; rfl
  have hcond : it.safe = true ∧ it.index = -1 ∧ it.table = 0 := ⟨hsafe, hidx, htab⟩
  simp only [dictNextLoop, if_pos hempty, if_pos hcond]
  repeat
    first
    | exact ⟨rfl, by first | omega | (simp <;> omega)⟩
    | exact ⟨(dictNextLoop_pos _ _ _ (by first | omega | (simp <;> omega))).1,
        (dictNextLoop_pos _ _ _ (by first | omega | (simp <;> omega))).2⟩
    | split

/-- First advance of a fresh scan-only iterator: the dict is untouched and
the index becomes non-negative. -/
lemma dictNextLoop_fresh_scanOnly (fuel : Nat) (d : dict) (it : dictIterator)
    (hfr : it.index = -1 ∧ it.table = 0 ∧ it.entry = []) (hsafe : it.safe = false) :
    (dictNextLoop (fuel + 1) d it).1 = d ∧
    0 ≤ (dictNextLoop (fuel + 1) d it).2.1.index := by
  obtain ⟨hidx, htab, hent⟩ := hfr
  have hempty : it.entry.isEmpty = true := by rw [hent]; rfl
  have hcond : ¬(it.safe = true ∧ it.index = -1 ∧ it.table = 0) := by
    rintro ⟨h1, -⟩
    rw [hsafe] at h1
    exact Bool.false_ne_true h1
  simp only [dictNextLoop, if_pos hempty, if_neg hcond]
  repeat
    first
    | exact ⟨rfl, by first | omega | (simp <;> omega)⟩
    | exact ⟨(dictNextLoop_pos _ _ _ (by first | omega | (simp <;> omega))).1,
        (dictNextLoop_pos _ _ _ (by first | omega | (simp <;> omega))).2⟩
    | split

/-- Helper: counting after replacing one element. -/
lemma countP_set_balance {α : Type} (p : α → Bool) (l : List α) (j : Nat) (x : α)
    (h : j < l.length) :
    (l.set j x).countP p + (if p (l.get ⟨j, h⟩) then 1 else 0) =
      l.countP p + (if p x then 1 else 0) := by
  have hl : l = l.take j ++ l.get ⟨j, h⟩ :: l.drop (j + 1) := by
    conv_lhs => rw [← List.take_append_drop j l, List.drop_eq_getElem_cons h]
    rfl
  have h2 : l.countP p = (l.take j).countP p + ((l.drop (j + 1)).countP p +
      if p (l.get ⟨j, h⟩) then 1 else 0) := by
    conv_lhs => rw [hl]
    rw [List.countP_append, List.countP_cons]
  rw [List.set_eq_take_append_cons_drop, if_pos h, List.countP_append,
    List.countP_cons, h2]
  omega

/-- Helper: counting after removing one element. -/
lemma countP_eraseIdx_balance {α : Type} (p : α → Bool) (l : List α) (j : Nat)
    (h : j < l.length) :
    (l.eraseIdx j).countP p + (if p (l.get ⟨j, h⟩) then 1 else 0) = l.countP p := by
  have hl : l = l.take j ++ l.get ⟨j, h⟩ :: l.drop (j + 1) := by
    conv_lhs => rw [← List.take_append_drop j l, List.drop_eq_getElem_cons h]
    rfl
  have h2 : l.countP p = (l.take j).countP p + ((l.drop (j + 1)).countP p +
      if p (l.get ⟨j, h⟩) then 1 else 0) := by
    conv_lhs => rw [hl]
    rw [List.countP_append, List.countP_cons]
  rw [List.eraseIdx_eq_take_drop_succ, List.countP_append, h2]
  omega

/-- One iterator-subsystem operation preserves the counting invariant: the
dict's live counter always exceeds its base value by exactly the number of
live safe iterators that have been advanced at least once. -/
lemma applyIterOp_invariant (op : IterOp) (s : IterState) (c0 : Int)
    (hok : ∀ it ∈ s.live, (it.index = -1 ∧ it.table = 0 ∧ it.entry = []) ∨ 0 ≤ it.index)
    (hcount : s.d.iterators = c0 + chargedCount s.live) :
    (∀ it ∈ (applyIterOp op s).live,
      (it.index = -1 ∧ it.table = 0 ∧ it.entry = []) ∨ 0 ≤ it.index) ∧
    (applyIterOp op s).d.iterators = c0 + chargedCount (applyIterOp op s).live := by
  cases op with
  | createO safe =>
    simp only [applyIterOp]
    constructor
    · intro it hit
      rcases List.mem_append.1 hit with hmem | hmem
      · exact hok it hmem
      · left
        have := List.mem_singleton.1 hmem
        rw [this]
        cases safe <;> exact ⟨rfl, rfl, rfl⟩
    · show s.d.iterators = c0 + chargedCount (s.live ++ [_])
      rw [chargedCount, List.countP_append]
      have hz : List.countP
          (fun it => decide (it.safe = true ∧ ¬(it.index = -1 ∧ it.table = 0)))
          [if safe then dictGetSafeIterator else dictGetIterator] = 0 := by
        cases safe <;> rfl
      rw [hz, Nat.add_zero]
      exact hcount
  | nextO j =>
    by_cases hj : j < s.live.length
    · simp only [applyIterOp, dif_pos hj]
      have hmem : s.live.get ⟨j, hj⟩ ∈ s.live := List.get_mem s.live j hj
      have hsafe_eq : (dictNext s.d (s.live.get ⟨j, hj⟩)).2.1.safe =
          (s.live.get ⟨j, hj⟩).safe := dictNextLoop_safe _ _ _
      have hbal := countP_set_balance
        (fun it => decide (it.safe = true ∧ ¬(it.index = -1 ∧ it.table = 0)))
        s.live j (dictNext s.d (s.live.get ⟨j, hj⟩)).2.1 hj
      simp only at hbal
      have hok2 : ∀ it ∈ s.live.set j (dictNext s.d (s.live.get ⟨j, hj⟩)).2.1,
          (it.index = -1 ∧ it.table = 0 ∧ it.entry = []) ∨ 0 ≤ it.index := by
        intro it hit
        rcases List.mem_or_eq_of_mem_set hit with hmem2 | rfl
        · exact hok it hmem2
        · right
          rcases hok _ hmem with hfr | hpos
          · cases hsafe : (s.live.get ⟨j, hj⟩).safe with
            | true =>
              exact (dictNextLoop_fresh_safe _ s.d _ hfr hsafe).2
            | false =>
              exact (dictNextLoop_fresh_scanOnly _ s.d _ hfr hsafe).2
          · exact (dictNextLoop_pos _ s.d _ hpos).2
      refine ⟨hok2, ?_⟩
      rcases hok _ hmem with hfr | hpos
      · have holdp : decide ((s.live.get ⟨j, hj⟩).safe = true ∧
            ¬((s.live.get ⟨j, hj⟩).index = -1 ∧ (s.live.get ⟨j, hj⟩).table = 0)) = false := by
          simp only [decide_eq_false_iff_not]
          rintro ⟨-, hno⟩
          exact hno ⟨hfr.1, hfr.2.1⟩
        cases hsafe : (s.live.get ⟨j, hj⟩).safe with
        | true =>
          obtain ⟨hd, hidx⟩ := dictNextLoop_fresh_safe
            (s.d.ht0.size + s.d.ht1.size + 1) s.d _ hfr hsafe
          have hnewp : decide ((dictNext s.d (s.live.get ⟨j, hj⟩)).2.1.safe = true ∧
              ¬((dictNext s.d (s.live.get ⟨j, hj⟩)).2.1.index = -1 ∧
                (dictNext s.d (s.live.get ⟨j, hj⟩)).2.1.table = 0)) = true := by
            simp only [decide_eq_true_eq]
            refine ⟨by rw [hsafe_eq]; exact hsafe, ?_⟩
            rintro ⟨hidx2, -⟩
            have : (0 : Int) ≤ -1 := by rw [← hidx2]; exact hidx
            omega
          have hd2 : (dictNext s.d (s.live.get ⟨j, hj⟩)).1 =
              { s.d with iterators := s.d.iterators + 1 } := hd
          rw [hd2]
          show s.d.iterators + 1 = c0 + (chargedCount (s.live.set j _) : Int)
          rw [holdp, hnewp, if_neg Bool.false_ne_true, if_pos rfl, Nat.add_zero] at hbal
          rw [chargedCount]
          rw [chargedCount] at hcount
          omega
        | false =>
          obtain ⟨hd, hidx⟩ := dictNextLoop_fresh_scanOnly
            (s.d.ht0.size + s.d.ht1.size + 1) s.d _ hfr hsafe
          have hnewp : decide ((dictNext s.d (s.live.get ⟨j, hj⟩)).2.1.safe = true ∧
              ¬((dictNext s.d (s.live.get ⟨j, hj⟩)).2.1.index = -1 ∧
                (dictNext s.d (s.live.get ⟨j, hj⟩)).2.1.table = 0)) = false := by
            simp only [decide_eq_false_iff_not]
            rintro ⟨hs2, -⟩
            rw [hsafe_eq, hsafe] at hs2
            exact Bool.false_ne_true hs2
          have hd2 : (dictNext s.d (s.live.get ⟨j, hj⟩)).1 = s.d := hd
          rw [hd2]
          show s.d.iterators = c0 + (chargedCount (s.live.set j _) : Int)
          rw [holdp, hnewp, if_neg Bool.false_ne_true] at hbal
          rw [chargedCount]
          rw [chargedCount] at hcount
          omega
      · obtain ⟨hd, hidx⟩ := dictNextLoop_pos
          (s.d.ht0.size + s.d.ht1.size + 2) s.d _ hpos
        have hsame : decide ((dictNext s.d (s.live.get ⟨j, hj⟩)).2.1.safe = true ∧
            ¬((dictNext s.d (s.live.get ⟨j, hj⟩)).2.1.index = -1 ∧
              (dictNext s.d (s.live.get ⟨j, hj⟩)).2.1.table = 0)) =
            decide ((s.live.get ⟨j, hj⟩).safe = true ∧
            ¬((s.live.get ⟨j, hj⟩).index = -1 ∧ (s.live.get ⟨j, hj⟩).table = 0)) := by
          simp only [decide_eq_decide]
          constructor
          · rintro ⟨hs2, -⟩
            rw [hsafe_eq] at hs2
            refine ⟨hs2, ?_⟩
            rintro ⟨hidx2, -⟩
            omega
          · rintro ⟨hs2, -⟩
            refine ⟨by rw [hsafe_eq]; exact hs2, ?_⟩
            rintro ⟨hidx2, -⟩
            have hidx3 : (0 : Int) ≤ (dictNext s.d (s.live.get ⟨j, hj⟩)).2.1.index := hidx
            rw [hidx2] at hidx3
            omega
        have hd2 : (dictNext s.d (s.live.get ⟨j, hj⟩)).1 = s.d := hd
        rw [hd2]
        show s.d.iterators = c0 + (chargedCount (s.live.set j _) : Int)
        rw [hsame] at hbal
        rw [chargedCount]
        rw [chargedCount] at hcount
        omega
    · simp only [applyIterOp, dif_neg hj]
      exact ⟨hok, hcount⟩
  | releaseO j =>
    by_cases hj : j < s.live.length
    · simp only [applyIterOp, dif_pos hj]
      have hbal := countP_eraseIdx_balance
        (fun it => decide (it.safe = true ∧ ¬(it.index = -1 ∧ it.table = 0)))
        s.live j hj
      simp only at hbal
      refine ⟨?_, ?_⟩
      · intro it hit
        exact hok it (List.mem_of_mem_eraseIdx hit)
      · unfold dictReleaseIterator
        by_cases hch : (s.live.get ⟨j, hj⟩).safe = true ∧
            ¬((s.live.get ⟨j, hj⟩).index = -1 ∧ (s.live.get ⟨j, hj⟩).table = 0)
        · rw [if_pos hch]
          have hp : decide ((s.live.get ⟨j, hj⟩).safe = true ∧
              ¬((s.live.get ⟨j, hj⟩).index = -1 ∧ (s.live.get ⟨j, hj⟩).table = 0)) = true := by
            simp only [decide_eq_true_eq]
            exact hch
          rw [hp, if_pos rfl] at hbal
          show s.d.iterators - 1 = c0 + (chargedCount (s.live.eraseIdx j) : Int)
          rw [chargedCount]
          rw [chargedCount] at hcount
          omega
        · rw [if_neg hch]
          have hp : decide ((s.live.get ⟨j, hj⟩).safe = true ∧
              ¬((s.live.get ⟨j, hj⟩).index = -1 ∧ (s.live.get ⟨j, hj⟩).table = 0)) = false := by
            simp only [decide_eq_false_iff_not]
            exact hch
          rw [hp, if_neg Bool.false_ne_true, Nat.add_zero] at hbal
          show s.d.iterators = c0 + (chargedCount (s.live.eraseIdx j) : Int)
          rw [chargedCount]
          rw [chargedCount] at hcount
          omega
    · simp only [applyIterOp, dif_neg hj]
      exact ⟨hok, hcount⟩

/-- The counting invariant holds along any run of iterator operations. -/
lemma runIter_invariant (ops : List IterOp) : ∀ (s : IterState) (c0 : Int),
    (∀ it ∈ s.live, (it.index = -1 ∧ it.table = 0 ∧ it.entry = []) ∨ 0 ≤ it.index) →
    s.d.iterators = c0 + chargedCount s.live →
    (∀ it ∈ (runIter ops s).live,
      (it.index = -1 ∧ it.table = 0 ∧ it.entry = []) ∨ 0 ≤ it.index) ∧
    (runIter ops s).d.iterators = c0 + chargedCount (runIter ops s).live := by
  induction ops with
  | nil => intro s c0 hok hcount; exact ⟨hok, hcount⟩
  | cons op ops ih =>
    intro s c0 hok hcount
    obtain ⟨hok2, hcount2⟩ := applyIterOp_invariant op s c0 hok hcount
    exact ih (applyIterOp op s) c0 hok2 hcount2

/-- A fresh dictionary is well formed. -/
lemma dictWF_dictCreate (hash : Nat → Nat) : dictWF hash dictCreate :=
  ⟨htWF_emptyHt hash, htWF_emptyHt hash, List.nodup_nil, Or.inl ⟨rfl, rfl⟩⟩

/-- Well-formedness only reads the two generations and the cursor. -/
lemma dictWF_of_eq_fields (hash : Nat → Nat) (d d2 : dict) (h0 : d2.ht0 = d.ht0)
    (h1 : d2.ht1 = d.ht1) (hr : d2.rehashidx = d.rehashidx) (hwf : dictWF hash d) :
    dictWF hash d2 := by
  unfold dictWF keysOf allEntries
  rw [h0, h1, hr]
  exact hwf

/-- Helper: replacing one slot by a chain with the same membership for a
given element keeps that element's membership in the flattening. -/
lemma mem_flatten_set_iff {α : Type} (t : List (List α)) (i : Nat) (c : List α)
    (hi : i < t.length) (e : α) (hiff : e ∈ c ↔ e ∈ t.getD i []) :
    e ∈ (t.set i c).flatten ↔ e ∈ t.flatten := by
  rw [(flatten_set_perm t i c hi).mem_iff, (flatten_getD_perm t i hi).mem_iff,
    List.mem_append, List.mem_append, hiff]

/-- The resize policy never moves an entry between the generations: each
generation keeps exactly its own entries. -/
lemma _dictExpandIfNeeded_gen (hash : Nat → Nat) (cr : Bool) (d : dict)
    (hwf : dictWF hash d) :
    ∃ d2, _dictExpandIfNeeded cr d = some d2 ∧ dictWF hash d2 ∧
      htEntries d2.ht0 = htEntries d.ht0 ∧ htEntries d2.ht1 = htEntries d.ht1 ∧
      d2.iterators = d.iterators ∧ d2.ht0.size ≠ 0 := by
  obtain ⟨d2, hexp, hwf2, hent, hit, hs⟩ := _dictExpandIfNeeded_wf hash cr d hwf
  suffices h : htEntries d2.ht0 = htEntries d.ht0 ∧ htEntries d2.ht1 = htEntries d.ht1 by
    exact ⟨d2, hexp, hwf2, h.1, h.2, hit, hs⟩
  have hexp2 := hexp
  rw [_dictExpandIfNeeded] at hexp2
  by_cases hre : dictIsRehashing d = true
  · rw [if_pos hre] at hexp2
    obtain rfl : d = d2 := Option.some.inj hexp2
    exact ⟨rfl, rfl⟩
  · have hre2 : dictIsRehashing d = false := by simpa using hre
    rw [if_neg (by simp [hre2])] at hexp2
    have hsent : d.rehashidx = -1 := (dictIsRehashing_false_iff d).1 hre2
    have hht1 : d.ht1 = emptyHt := by
      rcases hwf.2.2.2 with ⟨-, h⟩ | ⟨hne, -⟩
      · exact h
      · exact absurd hsent hne
    by_cases hsz : d.ht0.size = 0
    · rw [if_pos hsz] at hexp2
      have htab : d.ht0.table = [] := List.length_eq_zero.1 (by rw [hwf.1.1, hsz])
      have hused0 : d.ht0.used = 0 := by
        rw [hwf.1.2.2.1]
        simp [htEntries, htab]
      rw [dictExpand_init d DICT_HT_INITIAL_SIZE hre2 (by omega) htab] at hexp2
      obtain rfl := (Option.some.inj hexp2)
      constructor
      · show (List.replicate (_dictNextPower DICT_HT_INITIAL_SIZE)
            ([] : List dictEntry)).flatten = htEntries d.ht0
        rw [flatten_replicate_nil]
        simp [htEntries, htab]
      · rfl
    · rw [if_neg hsz] at hexp2
      have htab : d.ht0.table ≠ [] := by
        intro h
        apply hsz
        rw [← hwf.1.1, h]
        rfl
      by_cases hcond : d.ht0.size ≤ d.ht0.used ∧
          (cr || decide (5 < d.ht0.used / d.ht0.size)) = true
      · rw [if_pos hcond] at hexp2
        have hmax : d.ht0.used ≤ max d.ht0.size d.ht0.used * 2 := by
          have := le_max_right d.ht0.size d.ht0.used
          omega
        rw [dictExpand_grow d (max d.ht0.size d.ht0.used * 2) hre2 hmax htab] at hexp2
        obtain rfl := (Option.some.inj hexp2)
        constructor
        · rfl
        · show (List.replicate (_dictNextPower (max d.ht0.size d.ht0.used * 2))
              ([] : List dictEntry)).flatten = htEntries d.ht1
          rw [flatten_replicate_nil]
          simp [htEntries, hht1, emptyHt]
      · rw [if_neg hcond] at hexp2
        obtain rfl := (Option.some.inj hexp2)
        exact ⟨rfl, rfl⟩

/-- The state effect of dictGetRandomKey from a well-formed dictionary
succeeds and preserves well-formedness. -/
lemma dictGetRandomKeyState_wf (hash : Nat → Nat) (d : dict) (hwf : dictWF hash d) :
    ∃ d2, dictGetRandomKeyState hash d = some d2 ∧ dictWF hash d2 := by
  unfold dictGetRandomKeyState
  by_cases h0 : dictSize d = 0
  · rw [if_pos h0]
    exact ⟨d, rfl, hwf⟩
  · rw [if_neg h0]
    by_cases hre : dictIsRehashing d = true
    · rw [if_pos hre]
      obtain ⟨d2, heq, hwf2, -⟩ := _dictRehashStep_wf hash d hwf
      exact ⟨d2, heq, hwf2⟩
    · rw [if_neg hre]
      exact ⟨d, rfl, hwf⟩

/-- With a live safe iterator, dictFind does not change the dictionary at
all: the amortized rehash step is suppressed and the lookup only reads. -/
lemma dictFind_id_of_iter (hash : Nat → Nat) (d : dict) (key : Nat)
    (hit : d.iterators ≠ 0) :
    ∃ r, dictFind hash d key = some (d, r) := by
  by_cases hs0 : d.ht0.size = 0
  · exact ⟨none, by simp [dictFind, hs0]⟩
  · have hstep := rehashStepIfActive_suppressed hash d hit
    rcases hcf : chainFind (d.ht0.table.getD (hash key &&& d.ht0.sizemask) []) key
        with _ | e
    · by_cases hre : dictIsRehashing d = true
      · refine ⟨chainFind (d.ht1.table.getD (hash key &&& d.ht1.sizemask) []) key, ?_⟩
        rw [dictFind_eq_of_step hash d key d hs0 hstep, hcf, hre]
        rfl
      · have hre2 : dictIsRehashing d = false := by simpa using hre
        refine ⟨none, ?_⟩
        rw [dictFind_eq_of_step hash d key d hs0 hstep, hcf, hre2]
        rfl
    · exact ⟨some e, by rw [dictFind_eq_of_step hash d key d hs0 hstep, hcf]⟩

/-- Every public mutating operation from a well-formed dictionary succeeds
and preserves well-formedness (hence the below-cursor drain invariant). -/
lemma applyDictOp_wf (hash : Nat → Nat) (cr : Bool) (op : DictOp) (d : dict)
    (hwf : dictWF hash d) :
    ∃ d2, applyDictOp hash cr op d = some d2 ∧ dictWF hash d2 := by
  cases op with
  | addO k v =>
    by_cases hdup : k ∈ keysOf d
    · obtain ⟨d2, heq, hwf2, -, -⟩ := dictAdd_dup hash cr d k v hwf hdup
      exact ⟨d2, by simp [applyDictOp, heq], hwf2⟩
    · obtain ⟨d4, heq, hwf4, -, -, -⟩ := dictAdd_fresh hash cr d k v hwf hdup
      exact ⟨d4, by simp [applyDictOp, heq], hwf4⟩
  | findO k =>
    by_cases hdup : k ∈ keysOf d
    · obtain ⟨e, he, hek⟩ := List.mem_map.1 hdup
      obtain ⟨d1, heq, hwf1, -, -⟩ := dictFind_found hash d k e hwf he hek
      exact ⟨d1, by simp [applyDictOp, heq], hwf1⟩
    · obtain ⟨d1, heq, hwf1, -, -⟩ := dictFind_missing hash d k hwf hdup
      exact ⟨d1, by simp [applyDictOp, heq], hwf1⟩
  | delO k =>
    by_cases hdup : k ∈ keysOf d
    · obtain ⟨e, he, hek⟩ := List.mem_map.1 hdup
      obtain ⟨d2, heq, hwf2, -, -, -⟩ := dictDelete_found hash d k e hwf he hek
      exact ⟨d2, by simp [applyDictOp, heq], hwf2⟩
    · obtain ⟨d1, heq, hwf1, -, -⟩ := dictDelete_missing hash d k hwf hdup
      exact ⟨d1, by simp [applyDictOp, heq], hwf1⟩
  | rehashO n =>
    obtain ⟨p, heq, hwfp, -, -, -⟩ := dictRehash_wf hash d n hwf
    exact ⟨p.1, by simp [applyDictOp, heq], hwfp⟩
  | iterO it =>
    obtain ⟨h0, h1, hr⟩ := dictNextLoop_tables (d.ht0.size + d.ht1.size + 2) d it
    exact ⟨(dictNext d it).1, rfl, dictWF_of_eq_fields hash d _ h0 h1 hr hwf⟩
  | randomO =>
    obtain ⟨d2, heq, hwf2⟩ := dictGetRandomKeyState_wf hash d hwf
    exact ⟨d2, heq, hwf2⟩

/-- With a live safe iterator, dictDelete succeeds, keeps the live count,
preserves well-formedness, and touches no entry other than the deleted key:
every other entry stays in exactly the generation that held it. -/
lemma dictDelete_iter (hash : Nat → Nat) (d : dict) (key : Nat)
    (hwf : dictWF hash d) (hit : d.iterators ≠ 0) :
    ∃ d2 b, dictDelete hash d key = some (d2, b) ∧ dictWF hash d2 ∧
      d2.iterators = d.iterators ∧
      ∀ e : dictEntry, e.key ≠ key →
        ((e ∈ htEntries d2.ht0 ↔ e ∈ htEntries d.ht0) ∧
         (e ∈ htEntries d2.ht1 ↔ e ∈ htEntries d.ht1)) := by
  by_cases hs0 : d.ht0.size = 0
  · exact ⟨d, false, by simp [dictDelete, dictGenericDelete, hs0], hwf, rfl,
      fun e he => ⟨Iff.rfl, Iff.rfl⟩⟩
  · have hstep := rehashStepIfActive_suppressed hash d hit
    have hunf := dictGenericDelete_eq_of_step hash d key d hs0 hstep
    rcases hrm0 : removeKeyChain key (d.ht0.table.getD (hash key &&& d.ht0.sizemask) [])
        with _ | c0
    · by_cases hre : dictIsRehashing d = true
      · rcases hrm1 : removeKeyChain key
            (d.ht1.table.getD (hash key &&& d.ht1.sizemask) []) with _ | c1
        · refine ⟨d, false, ?_, hwf, rfl, fun e he => ⟨Iff.rfl, Iff.rfl⟩⟩
          show dictGenericDelete hash d key = some (d, false)
          rw [hunf, hrm0, hre, hrm1]
          rfl
        · obtain ⟨e0, he0k, hperm1⟩ := removeKeyChain_some key _ c1 hrm1
          have he0mem : e0 ∈ allEntries d := List.mem_append_right _
            (mem_flatten_of_getD _ _ _ (hperm1.mem_iff.2 (List.mem_cons_self _ _)))
          have heqmine : dictDelete hash d key = some ({ d with ht1 := { d.ht1 with
              table := d.ht1.table.set (hash key &&& d.ht1.sizemask) c1,
              used := d.ht1.used - 1 } }, true) := by
            show dictGenericDelete hash d key = _
            rw [hunf, hrm0, hre, hrm1]
            rfl
          obtain ⟨d2f, heqf, hwff, -, -, -⟩ := dictDelete_found hash d key e0 hwf he0mem he0k
          have hd2 : d2f = { d with ht1 := { d.ht1 with
              table := d.ht1.table.set (hash key &&& d.ht1.sizemask) c1,
              used := d.ht1.used - 1 } } :=
            congrArg Prod.fst (Option.some.inj (heqf.symm.trans heqmine))
          rw [hd2] at hwff
          have hs1 : d.ht1.size ≠ 0 := by
            rcases hwf.2.2.2 with ⟨hsent, -⟩ | ⟨-, -, -, hs1, -⟩
            · exact absurd hsent ((dictIsRehashing_iff d).1 hre)
            · exact hs1
          have hi1 : hash key &&& d.ht1.sizemask < d.ht1.table.length := by
            rw [hwf.2.1.1, hwf.2.1.2.1]
            exact mask_lt _ _ hs1
          refine ⟨_, true, heqmine, hwff, rfl, ?_⟩
          intro e he
          refine ⟨Iff.rfl, ?_⟩
          show e ∈ (d.ht1.table.set (hash key &&& d.ht1.sizemask) c1).flatten ↔ _
          apply mem_flatten_set_iff _ _ _ hi1
          constructor
          · intro h
            exact hperm1.mem_iff.2 (List.mem_cons_of_mem _ h)
          · intro h
            rcases List.mem_cons.1 (hperm1.mem_iff.1 h) with rfl | h2
            · exact absurd he0k he
            · exact h2
      · refine ⟨d, false, ?_, hwf, rfl, fun e he => ⟨Iff.rfl, Iff.rfl⟩⟩
        have hre2 : dictIsRehashing d = false := by simpa using hre
        show dictGenericDelete hash d key = some (d, false)
        rw [hunf, hrm0, hre2]
        rfl
    · obtain ⟨e0, he0k, hperm0⟩ := removeKeyChain_some key _ c0 hrm0
      have he0mem : e0 ∈ allEntries d := List.mem_append_left _
        (mem_flatten_of_getD _ _ _ (hperm0.mem_iff.2 (List.mem_cons_self _ _)))
      have heqmine : dictDelete hash d key = some ({ d with ht0 := { d.ht0 with
          table := d.ht0.table.set (hash key &&& d.ht0.sizemask) c0,
          used := d.ht0.used - 1 } }, true) := by
        show dictGenericDelete hash d key = _
        rw [hunf, hrm0]
      obtain ⟨d2f, heqf, hwff, -, -, -⟩ := dictDelete_found hash d key e0 hwf he0mem he0k
      have hd2 : d2f = { d with ht0 := { d.ht0 with
          table := d.ht0.table.set (hash key &&& d.ht0.sizemask) c0,
          used := d.ht0.used - 1 } } :=
        congrArg Prod.fst (Option.some.inj (heqf.symm.trans heqmine))
      rw [hd2] at hwff
      have hi0 : hash key &&& d.ht0.sizemask < d.ht0.table.length := by
        rw [hwf.1.1, hwf.1.2.1]
        exact mask_lt _ _ hs0
      refine ⟨_, true, heqmine, hwff, rfl, ?_⟩
      intro e he
      refine ⟨?_, Iff.rfl⟩
      show e ∈ (d.ht0.table.set (hash key &&& d.ht0.sizemask) c0).flatten ↔ _
      apply mem_flatten_set_iff _ _ _ hi0
      constructor
      · intro h
        exact hperm0.mem_iff.2 (List.mem_cons_of_mem _ h)
      · intro h
        rcases List.mem_cons.1 (hperm0.mem_iff.1 h) with rfl | h2
        · exact absurd he0k he
        · exact h2

/-- With a live safe iterator, dictAdd succeeds or rejects a duplicate,
keeps the live count, preserves well-formedness, and moves no existing
entry between the generations: every entry with a different key stays in
exactly the generation that held it. -/
lemma dictAdd_iter (hash : Nat → Nat) (cr : Bool) (d : dict) (key val : Nat)
    (hwf : dictWF hash d) (hit : d.iterators ≠ 0) :
    ∃ d2 b, dictAdd hash cr d key val = some (d2, b) ∧ dictWF hash d2 ∧
      d2.iterators = d.iterators ∧
      ∀ e : dictEntry, e.key ≠ key →
        ((e ∈ htEntries d2.ht0 ↔ e ∈ htEntries d.ht0) ∧
         (e ∈ htEntries d2.ht1 ↔ e ∈ htEntries d.ht1)) := by
  by_cases hdup : key ∈ keysOf d
  · obtain ⟨d2, hexp, hki, hwf2, hent, hit2, hs⟩ := _dictKeyIndex_dup hash cr d key hwf hdup
    obtain ⟨d2g, hexpg, -, hg0, hg1, -, -⟩ := _dictExpandIfNeeded_gen hash cr d hwf
    have hd2 : d2g = d2 := Option.some.inj (hexpg.symm.trans hexp)
    rw [hd2] at hg0 hg1
    have heqraw : dictAddRaw hash cr d key = some (d2, none) := by
      rw [dictAddRaw_eq_of_step hash cr d key d (rehashStepIfActive_suppressed hash d hit),
        hki]
    refine ⟨d2, false, ?_, hwf2, hit2, fun e he => ⟨by rw [hg0], by rw [hg1]⟩⟩
    unfold dictAdd
    rw [heqraw]
  · obtain ⟨d1, d2, hstep, hexp, hwf2, hperm2, hit2, hs2, habs2, hbranch⟩ :=
      dictAddRaw_fresh hash cr d key hwf hdup
    obtain rfl : d = d1 :=
      (Option.some.inj (hstep.symm.trans (rehashStepIfActive_suppressed hash d hit))).symm
    obtain ⟨d2g, hexpg, -, hg0, hg1, -, -⟩ := _dictExpandIfNeeded_gen hash cr d hwf
    have hd2 : d2g = d2 := Option.some.inj (hexpg.symm.trans hexp)
    rw [hd2] at hg0 hg1
    obtain ⟨d4, heq4, hwf4, -, hit4, -⟩ := dictAdd_fresh hash cr d key val hwf hdup
    rcases hbranch with ⟨hre, hlt, heqraw⟩ | ⟨hre, hlt, heqraw⟩
    · have hlen1 : hash key &&& d2.ht1.sizemask < d2.ht1.table.length := by
        rw [hwf2.2.1.1]
        exact hlt
      have heqadd := dictAdd_eq_of_addRaw_some hash cr d key val _ 1
        (hash key &&& d2.ht1.sizemask) heqraw
      have hsethead : setSlotHeadVal { d2 with ht1 := { d2.ht1 with
            table := d2.ht1.table.set (hash key &&& d2.ht1.sizemask)
              ({ key := key, val := 0 } ::
                d2.ht1.table.getD (hash key &&& d2.ht1.sizemask) []),
            used := d2.ht1.used + 1 } } 1 (hash key &&& d2.ht1.sizemask) val =
          { d2 with ht1 := { d2.ht1 with
            table := d2.ht1.table.set (hash key &&& d2.ht1.sizemask)
              ({ key := key, val := val } ::
                d2.ht1.table.getD (hash key &&& d2.ht1.sizemask) []),
            used := d2.ht1.used + 1 } } := by
        unfold setSlotHeadVal
        rw [if_pos rfl]
        simp only
        rw [getD_set_self _ _ _ _ hlen1, List.set_set]
      rw [hsethead] at heqadd
      have hd4 : d4 = { d2 with ht1 := { d2.ht1 with
          table := d2.ht1.table.set (hash key &&& d2.ht1.sizemask)
            ({ key := key, val := val } ::
              d2.ht1.table.getD (hash key &&& d2.ht1.sizemask) []),
          used := d2.ht1.used + 1 } } :=
        congrArg Prod.fst (Option.some.inj (heq4.symm.trans heqadd))
      rw [hd4] at hwf4
      refine ⟨_, true, heqadd, hwf4, hit2, ?_⟩
      intro e he
      refine ⟨by rw [hg0], ?_⟩
      show e ∈ (d2.ht1.table.set (hash key &&& d2.ht1.sizemask) _).flatten ↔ _
      rw [← hg1]
      apply mem_flatten_set_iff _ _ _ hlen1
      constructor
      · intro h
        rcases List.mem_cons.1 h with rfl | h2
        · exact absurd rfl he
        · exact h2
      · intro h
        exact List.mem_cons_of_mem _ h
    · have hlen0 : hash key &&& d2.ht0.sizemask < d2.ht0.table.length := by
        rw [hwf2.1.1]
        exact hlt
      have heqadd := dictAdd_eq_of_addRaw_some hash cr d key val _ 0
        (hash key &&& d2.ht0.sizemask) heqraw
      have hsethead : setSlotHeadVal { d2 with ht0 := { d2.ht0 with
            table := d2.ht0.table.set (hash key &&& d2.ht0.sizemask)
              ({ key := key, val := 0 } ::
                d2.ht0.table.getD (hash key &&& d2.ht0.sizemask) []),
            used := d2.ht0.used + 1 } } 0 (hash key &&& d2.ht0.sizemask) val =
          { d2 with ht0 := { d2.ht0 with
            table := d2.ht0.table.set (hash key &&& d2.ht0.sizemask)
              ({ key := key, val := val } ::
                d2.ht0.table.getD (hash key &&& d2.ht0.sizemask) []),
            used := d2.ht0.used + 1 } } := by
        unfold setSlotHeadVal
        rw [if_neg (by omega)]
        simp only
        rw [getD_set_self _ _ _ _ hlen0, List.set_set]
      rw [hsethead] at heqadd
      have hd4 : d4 = { d2 with ht0 := { d2.ht0 with
          table := d2.ht0.table.set (hash key &&& d2.ht0.sizemask)
            ({ key := key, val := val } ::
              d2.ht0.table.getD (hash key &&& d2.ht0.sizemask) []),
          used := d2.ht0.used + 1 } } :=
        congrArg Prod.fst (Option.some.inj (heq4.symm.trans heqadd))
      rw [hd4] at hwf4
      refine ⟨_, true, heqadd, hwf4, hit2, ?_⟩
      intro e he
      refine ⟨?_, by rw [hg1]⟩
      show e ∈ (d2.ht0.table.set (hash key &&& d2.ht0.sizemask) _).flatten ↔ _
      rw [← hg0]
      apply mem_flatten_set_iff _ _ _ hlen0
      constructor
      · intro h
        rcases List.mem_cons.1 h with rfl | h2
        · exact absurd rfl he
        · exact h2
      · intro h
        exact List.mem_cons_of_mem _ h

/-- With a live safe iterator, one add/find/delete call succeeds, keeps the
live count, preserves well-formedness, and leaves every entry keyed
differently from the operated key in exactly the generation that held it. -/
lemma applyMut_iter (hash : Nat → Nat) (cr : Bool) (op : MutOp) (d : dict)
    (hwf : dictWF hash d) (hit : d.iterators ≠ 0) :
    ∃ d2, applyMut hash cr op d = some d2 ∧ dictWF hash d2 ∧
      d2.iterators = d.iterators ∧
      ∀ e : dictEntry, e.key ≠ mutKey op →
        ((e ∈ htEntries d2.ht0 ↔ e ∈ htEntries d.ht0) ∧
         (e ∈ htEntries d2.ht1 ↔ e ∈ htEntries d.ht1)) := by
  cases op with
  | addM k v =>
    obtain ⟨d2, b, heq, hwf2, hit2, hmem⟩ := dictAdd_iter hash cr d k v hwf hit
    exact ⟨d2, by simp [applyMut, heq], hwf2, hit2, hmem⟩
  | findM k =>
    obtain ⟨r, heq⟩ := dictFind_id_of_iter hash d k hit
    exact ⟨d, by simp [applyMut, heq], hwf, rfl, fun e he => ⟨Iff.rfl, Iff.rfl⟩⟩
  | delM k =>
    obtain ⟨d2, b, heq, hwf2, hit2, hmem⟩ := dictDelete_iter hash d k hwf hit
    exact ⟨d2, by simp [applyMut, heq], hwf2, hit2, hmem⟩

/-- With a live safe iterator, a whole sequence of add/find/delete calls
keeps the live count and moves no differently-keyed entry between the
generations. -/
lemma runMut_iter (hash : Nat → Nat) (cr : Bool) (ops : List MutOp) :
    ∀ d : dict, dictWF hash d → d.iterators ≠ 0 →
    ∃ d2, runMut hash cr ops d = some d2 ∧ dictWF hash d2 ∧
      d2.iterators = d.iterators ∧
      ∀ e : dictEntry, e.key ∉ opKeys ops →
        ((e ∈ htEntries d2.ht0 ↔ e ∈ htEntries d.ht0) ∧
         (e ∈ htEntries d2.ht1 ↔ e ∈ htEntries d.ht1)) := by
  induction ops with
  | nil =>
    intro d hwf hit
    exact ⟨d, rfl, hwf, rfl, fun e he => ⟨Iff.rfl, Iff.rfl⟩⟩
  | cons op ops ih =>
    intro d hwf hit
    obtain ⟨d1, heq1, hwf1, hit1, hmem1⟩ := applyMut_iter hash cr op d hwf hit
    obtain ⟨dn, heqn, hwfn, hitn, hmemn⟩ := ih d1 hwf1 (by rw [hit1]; exact hit)
    refine ⟨dn, ?_, hwfn, by rw [hitn, hit1], ?_⟩
    · show runMut hash cr (op :: ops) d = some dn
      simp only [runMut]
      rw [heq1]
      exact heqn
    · intro e he
      have henot1 : e.key ≠ mutKey op := fun h => he (h ▸ List.mem_cons_self _ _)
      have henot2 : e.key ∉ opKeys ops := fun h => he (List.mem_cons_of_mem _ h)
      obtain ⟨h1a, h1b⟩ := hmem1 e henot1
      obtain ⟨h2a, h2b⟩ := hmemn e henot2
      exact ⟨h2a.trans h1a, h2b.trans h1b⟩

/-- Claim C1 (amended): one rehash step on a rehashing table either, with
entries left, drains the whole chain of the first non-empty slot at or after
the cursor into the incoming generation (each entry prepended at its hash
masked with the incoming sizemask, the counters moved per entry by
moveEntries) and advances the cursor past the drained slot, or, with the
primary's occupied count at 0, frees the old primary, promotes the incoming
generation, resets it and sets the cursor to the sentinel.  This completion
is however not the only transition back to the stable state: dictEmpty also
resets the cursor to the sentinel. -/
theorem claimC1_rehash_step_drains (hash : Nat → Nat) (d : dict)
    (hwf : dictWF hash d) (hre : dictIsRehashing d = true) :
    (d.ht0.used = 0 →
      rehashStep1 hash d = some ({ ht0 := d.ht1, ht1 := emptyHt, rehashidx := -1,
                                   iterators := d.iterators }, false)) ∧
    (d.ht0.used ≠ 0 →
      ∃ j, findNonEmptySlot d.ht0.table d.rehashidx.toNat = some j ∧
        d.rehashidx.toNat ≤ j ∧ j < d.ht0.size ∧ d.ht0.table.getD j [] ≠ [] ∧
        (∀ i, d.rehashidx.toNat ≤ i → i < j → d.ht0.table.getD i [] = []) ∧
        rehashStep1 hash d = some
          ({ d with
             ht0 := { d.ht0 with
                      table := d.ht0.table.set j [],
                      used := d.ht0.used - (d.ht0.table.getD j []).length },
             ht1 := moveEntries hash (d.ht0.table.getD j []) d.ht1,
             rehashidx := (j : Int) + 1 }, true)) ∧
    dictIsRehashing (dictEmpty d) = false := by
  refine ⟨fun h0 => rehashStep1_complete hash d h0,
    fun h0 => rehashStep1_drain hash d hwf hre h0, rfl⟩

/-- Witness for claim C1 at a concrete rehashing dictionary. -/
theorem claimC1_witness :
    (dictWF (fun k => k)
        ⟨⟨[[], [⟨1, 7⟩]], 2, 1, 1⟩, ⟨[[], [], [], []], 4, 3, 0⟩, 0, 0⟩ ∧
      dictIsRehashing
        ⟨⟨[[], [⟨1, 7⟩]], 2, 1, 1⟩, ⟨[[], [], [], []], 4, 3, 0⟩, 0, 0⟩ = true) ∧
    (((⟨⟨[[], [⟨1, 7⟩]], 2, 1, 1⟩, ⟨[[], [], [], []], 4, 3, 0⟩, 0, 0⟩ : dict).ht0.used = 0 →
      rehashStep1 (fun k => k)
          ⟨⟨[[], [⟨1, 7⟩]], 2, 1, 1⟩, ⟨[[], [], [], []], 4, 3, 0⟩, 0, 0⟩ =
        some ({ ht0 := (⟨⟨[[], [⟨1, 7⟩]], 2, 1, 1⟩, ⟨[[], [], [], []], 4, 3, 0⟩, 0, 0⟩ : dict).ht1,
                ht1 := emptyHt, rehashidx := -1,
                iterators := (⟨⟨[[], [⟨1, 7⟩]], 2, 1, 1⟩, ⟨[[], [], [], []], 4, 3, 0⟩, 0, 0⟩ : dict).iterators }, false)) ∧
    ((⟨⟨[[], [⟨1, 7⟩]], 2, 1, 1⟩, ⟨[[], [], [], []], 4, 3, 0⟩, 0, 0⟩ : dict).ht0.used ≠ 0 →
      ∃ j, findNonEmptySlot
          (⟨⟨[[], [⟨1, 7⟩]], 2, 1, 1⟩, ⟨[[], [], [], []], 4, 3, 0⟩, 0, 0⟩ : dict).ht0.table
          (⟨⟨[[], [⟨1, 7⟩]], 2, 1, 1⟩, ⟨[[], [], [], []], 4, 3, 0⟩, 0, 0⟩ : dict).rehashidx.toNat = some j ∧
        (⟨⟨[[], [⟨1, 7⟩]], 2, 1, 1⟩, ⟨[[], [], [], []], 4, 3, 0⟩, 0, 0⟩ : dict).rehashidx.toNat ≤ j ∧
        j < (⟨⟨[[], [⟨1, 7⟩]], 2, 1, 1⟩, ⟨[[], [], [], []], 4, 3, 0⟩, 0, 0⟩ : dict).ht0.size ∧
        (⟨⟨[[], [⟨1, 7⟩]], 2, 1, 1⟩, ⟨[[], [], [], []], 4, 3, 0⟩, 0, 0⟩ : dict).ht0.table.getD j [] ≠ [] ∧
        (∀ i, (⟨⟨[[], [⟨1, 7⟩]], 2, 1, 1⟩, ⟨[[], [], [], []], 4, 3, 0⟩, 0, 0⟩ : dict).rehashidx.toNat ≤ i → i < j →
          (⟨⟨[[], [⟨1, 7⟩]], 2, 1, 1⟩, ⟨[[], [], [], []], 4, 3, 0⟩, 0, 0⟩ : dict).ht0.table.getD i [] = []) ∧
        rehashStep1 (fun k => k)
            ⟨⟨[[], [⟨1, 7⟩]], 2, 1, 1⟩, ⟨[[], [], [], []], 4, 3, 0⟩, 0, 0⟩ = some
          ({ (⟨⟨[[], [⟨1, 7⟩]], 2, 1, 1⟩, ⟨[[], [], [], []], 4, 3, 0⟩, 0, 0⟩ : dict) with
             ht0 := { (⟨⟨[[], [⟨1, 7⟩]], 2, 1, 1⟩, ⟨[[], [], [], []], 4, 3, 0⟩, 0, 0⟩ : dict).ht0 with
                      table := (⟨⟨[[], [⟨1, 7⟩]], 2, 1, 1⟩, ⟨[[], [], [], []], 4, 3, 0⟩, 0, 0⟩ : dict).ht0.table.set j [],
                      used := (⟨⟨[[], [⟨1, 7⟩]], 2, 1, 1⟩, ⟨[[], [], [], []], 4, 3, 0⟩, 0, 0⟩ : dict).ht0.used -
                        ((⟨⟨[[], [⟨1, 7⟩]], 2, 1, 1⟩, ⟨[[], [], [], []], 4, 3, 0⟩, 0, 0⟩ : dict).ht0.table.getD j []).length },
             ht1 := moveEntries (fun k => k)
               ((⟨⟨[[], [⟨1, 7⟩]], 2, 1, 1⟩, ⟨[[], [], [], []], 4, 3, 0⟩, 0, 0⟩ : dict).ht0.table.getD j [])
               (⟨⟨[[], [⟨1, 7⟩]], 2, 1, 1⟩, ⟨[[], [], [], []], 4, 3, 0⟩, 0, 0⟩ : dict).ht1,
             rehashidx := (j : Int) + 1 }, true)) ∧
    dictIsRehashing (dictEmpty ⟨⟨[[], [⟨1, 7⟩]], 2, 1, 1⟩, ⟨[[], [], [], []], 4, 3, 0⟩, 0, 0⟩) = false) :=
  ⟨⟨by unfold dictWF htWF; decide, by decide⟩,
    claimC1_rehash_step_drains (fun k => k)
      ⟨⟨[[], [⟨1, 7⟩]], 2, 1, 1⟩, ⟨[[], [], [], []], 4, 3, 0⟩, 0, 0⟩
      (by unfold dictWF htWF; decide) (by decide)⟩

/-- Counterexample for claim C1 as frozen: dictEmpty takes a rehashing
dictionary with entries still waiting straight back to the stable state, so
the completion of the rehash is not the only transition back to stable. -/
theorem claimC1_cex :
    dictIsRehashing
      ⟨⟨[[], [⟨1, 7⟩]], 2, 1, 1⟩, ⟨[[], [], [], []], 4, 3, 0⟩, 0, 0⟩ = true ∧
    (⟨⟨[[], [⟨1, 7⟩]], 2, 1, 1⟩, ⟨[[], [], [], []], 4, 3, 0⟩, 0, 0⟩ : dict).ht0.used ≠ 0 ∧
    dictIsRehashing
      (dictEmpty ⟨⟨[[], [⟨1, 7⟩]], 2, 1, 1⟩, ⟨[[], [], [], []], 4, 3, 0⟩, 0, 0⟩) = false ∧
    allEntries
      (dictEmpty ⟨⟨[[], [⟨1, 7⟩]], 2, 1, 1⟩, ⟨[[], [], [], []], 4, 3, 0⟩, 0, 0⟩) = [] := by
  decide

/-- Claim C2: round-trip of the basic operations on a well-formed table —
after a successful add of (key, value), find returns an entry carrying that
value (whichever generation holds it), and after a successful delete of a
key, find reports not-found. -/
theorem claimC2_round_trip (hash : Nat → Nat) (cr : Bool) (d : dict)
    (key val : Nat) (hwf : dictWF hash d) :
    (∀ d4, dictAdd hash cr d key val = some (d4, true) →
       ∃ d5 e, dictFind hash d4 key = some (d5, some e) ∧ e.val = val) ∧
    (∀ d2, dictDelete hash d key = some (d2, true) →
       ∃ d5, dictFind hash d2 key = some (d5, none)) := by
  constructor
  · intro d4 h
    by_cases hdup : key ∈ keysOf d
    · obtain ⟨d2, heqd, -, -, -⟩ := dictAdd_dup hash cr d key val hwf hdup
      have : (d4, true) = (d2, false) := Option.some.inj (h.symm.trans heqd)
      have hb : true = false := congrArg Prod.snd this
      exact absurd hb (by decide)
    · obtain ⟨d4f, heqf, hwf4, hperm4, -, -⟩ := dictAdd_fresh hash cr d key val hwf hdup
      have hd4 : d4f = d4 := congrArg Prod.fst (Option.some.inj (heqf.symm.trans h))
      rw [hd4] at hwf4 hperm4
      have hmem : ({ key := key, val := val } : dictEntry) ∈ allEntries d4 :=
        hperm4.mem_iff.2 (List.mem_cons_self _ _)
      obtain ⟨d5, heqF, -, -, -⟩ := dictFind_found hash d4 key _ hwf4 hmem rfl
      exact ⟨d5, { key := key, val := val }, heqF, rfl⟩
  · intro d2 h
    by_cases hdup : key ∈ keysOf d
    · obtain ⟨e, he, hek⟩ := List.mem_map.1 hdup
      obtain ⟨d2f, heqf, hwf2, -, habs2, -⟩ := dictDelete_found hash d key e hwf he hek
      have hd2 : d2f = d2 := congrArg Prod.fst (Option.some.inj (heqf.symm.trans h))
      rw [hd2] at hwf2 habs2
      obtain ⟨d5, heqF, -, -, -⟩ := dictFind_missing hash d2 key hwf2 habs2
      exact ⟨d5, heqF⟩
    · obtain ⟨d1, heqm, -, -, -⟩ := dictDelete_missing hash d key hwf hdup
      have : (d2, true) = (d1, false) := Option.some.inj (h.symm.trans heqm)
      have hb : true = false := congrArg Prod.snd this
      exact absurd hb (by decide)

/-- Witness for claim C2 on a fresh dictionary. -/
theorem claimC2_witness :
    dictWF (fun k => k) dictCreate ∧
    ((∀ d4, dictAdd (fun k => k) true dictCreate 1 42 = some (d4, true) →
       ∃ d5 e, dictFind (fun k => k) d4 1 = some (d5, some e) ∧ e.val = 42) ∧
     (∀ d2, dictDelete (fun k => k) dictCreate 1 = some (d2, true) →
       ∃ d5, dictFind (fun k => k) d2 1 = some (d5, none))) :=
  ⟨dictWF_dictCreate _,
    claimC2_round_trip (fun k => k) true dictCreate 1 42 (dictWF_dictCreate _)⟩

/-- Claim C3: every public operation keeps the dictionary well formed, and
in particular whenever rehashing is active afterwards, every primary slot
strictly below the cursor holds an empty chain (already migrated). -/
theorem claimC3_below_cursor_drained (hash : Nat → Nat) (cr : Bool)
    (op : DictOp) (d : dict) (hwf : dictWF hash d) :
    ∃ d2, applyDictOp hash cr op d = some d2 ∧ dictWF hash d2 ∧
      (dictIsRehashing d2 = true →
        ∀ i < d2.rehashidx.toNat, d2.ht0.table.getD i [] = []) := by
  obtain ⟨d2, heq, hwf2⟩ := applyDictOp_wf hash cr op d hwf
  refine ⟨d2, heq, hwf2, ?_⟩
  intro hre i hi
  rcases hwf2.2.2.2 with ⟨hsent, -⟩ | ⟨-, -, -, -, hbelow⟩
  · exact absurd hsent ((dictIsRehashing_iff d2).1 hre)
  · exact hbelow i hi

/-- Witness for claim C3 at an insertion into a rehashing dictionary. -/
theorem claimC3_witness :
    dictWF (fun k => k)
      ⟨⟨[[], [⟨1, 7⟩]], 2, 1, 1⟩, ⟨[[], [], [], []], 4, 3, 0⟩, 1, 0⟩ ∧
    (∃ d2, applyDictOp (fun k => k) true (DictOp.addO 2 9)
        ⟨⟨[[], [⟨1, 7⟩]], 2, 1, 1⟩, ⟨[[], [], [], []], 4, 3, 0⟩, 1, 0⟩ = some d2 ∧
      dictWF (fun k => k) d2 ∧
      (dictIsRehashing d2 = true →
        ∀ i < d2.rehashidx.toNat, d2.ht0.table.getD i [] = [])) :=
  ⟨by unfold dictWF htWF; decide,
    claimC3_below_cursor_drained (fun k => k) true (DictOp.addO 2 9)
      ⟨⟨[[], [⟨1, 7⟩]], 2, 1, 1⟩, ⟨[[], [], [], []], 4, 3, 0⟩, 1, 0⟩
      (by unfold dictWF htWF; decide)⟩

/-- Claim C4 (amended): when rehashing is entered through the grow trigger
of the insertion path, the incoming array is at least as large as the
primary (absent overflow of the doubling); but a direct dictExpand — and in
particular the resize-to-fit operation, which requests max(used, 4) — only
guarantees the incoming array the minimum size 4, and may be smaller than
the primary. -/
theorem claimC4_incoming_size (hash : Nat → Nat) (cr : Bool) (d d2 : dict)
    (hwf : dictWF hash d) :
    (∀ s, dictIsRehashing d = false → dictExpand d s = some d2 →
       dictIsRehashing d2 = true → DICT_HT_INITIAL_SIZE ≤ d2.ht1.size) ∧
    (_dictExpandIfNeeded cr d = some d2 → dictIsRehashing d = false →
       dictIsRehashing d2 = true → 2 * d.ht0.used < LONG_MAX →
       d2.ht0.size ≤ d2.ht1.size) := by
  constructor
  · intro s hre hexp hre2
    by_cases hus : d.ht0.used ≤ s
    · by_cases htab : d.ht0.table = []
      · rw [dictExpand_init d s hre hus htab] at hexp
        obtain rfl := Option.some.inj hexp
        have hre2' : dictIsRehashing d = true := hre2
        rw [hre] at hre2'
        exact absurd hre2' (by decide)
      · rw [dictExpand_grow d s hre hus htab] at hexp
        obtain rfl := Option.some.inj hexp
        show DICT_HT_INITIAL_SIZE ≤ _dictNextPower s
        exact _dictNextPower_ge4 s
    · have hnone : dictExpand d s = none := by
        rw [dictExpand, if_pos]
        simp [hre]
        omega
      rw [hnone] at hexp
      exact absurd hexp (by simp)
  · intro hexp2 hre hre2 hbound
    rw [_dictExpandIfNeeded, if_neg (by simp [hre])] at hexp2
    by_cases hsz : d.ht0.size = 0
    · have htab : d.ht0.table = [] := List.length_eq_zero.1 (by rw [hwf.1.1, hsz])
      have hused0 : d.ht0.used = 0 := by
        rw [hwf.1.2.2.1]
        simp [htEntries, htab]
      rw [if_pos hsz, dictExpand_init d DICT_HT_INITIAL_SIZE hre (by omega) htab] at hexp2
      obtain rfl := Option.some.inj hexp2
      have hre2' : dictIsRehashing d = true := hre2
      rw [hre] at hre2'
      exact absurd hre2' (by decide)
    · rw [if_neg hsz] at hexp2
      have htab : d.ht0.table ≠ [] := by
        intro h
        apply hsz
        rw [← hwf.1.1, h]
        rfl
      by_cases hcond : d.ht0.size ≤ d.ht0.used ∧
          (cr || decide (5 < d.ht0.used / d.ht0.size)) = true
      · have hmax : d.ht0.used ≤ max d.ht0.size d.ht0.used * 2 := by
          have := le_max_right d.ht0.size d.ht0.used
          omega
        rw [if_pos hcond, dictExpand_grow d (max d.ht0.size d.ht0.used * 2) hre hmax htab]
          at hexp2
        obtain rfl := Option.some.inj hexp2
        show d.ht0.size ≤ _dictNextPower (max d.ht0.size d.ht0.used * 2)
        have hmaxeq : max d.ht0.size d.ht0.used = d.ht0.used :=
          Nat.max_eq_right hcond.1
        have hsmall : max d.ht0.size d.ht0.used * 2 < LONG_MAX := by
          rw [hmaxeq]
          omega
        obtain ⟨hge, -, -⟩ := _dictNextPower_spec _ hsmall
        have h1 := hcond.1
        omega
      · rw [if_neg hcond] at hexp2
        obtain rfl := Option.some.inj hexp2
        rw [hre] at hre2
        exact absurd hre2 (by decide)

/-- Witness for claim C4. -/
theorem claimC4_witness :
    dictWF (fun k => k) dictCreate ∧
    ((∀ s, dictIsRehashing dictCreate = false → dictExpand dictCreate s = some dictCreate →
       dictIsRehashing dictCreate = true → DICT_HT_INITIAL_SIZE ≤ dictCreate.ht1.size) ∧
     (_dictExpandIfNeeded true dictCreate = some dictCreate →
       dictIsRehashing dictCreate = false → dictIsRehashing dictCreate = true →
       2 * dictCreate.ht0.used < LONG_MAX →
       dictCreate.ht0.size ≤ dictCreate.ht1.size)) :=
  ⟨dictWF_dictCreate _,
    claimC4_incoming_size (fun k => k) true dictCreate dictCreate (dictWF_dictCreate _)⟩

/-- Counterexample for claim C4 as frozen: resize-to-fit on a sparsely used
size-8 primary begins rehashing into a size-4 incoming array, smaller than
the primary. -/
theorem claimC4_cex :
    dictWF (fun k => k)
      ⟨⟨[[⟨0, 1⟩], [], [], [], [], [], [], []], 8, 7, 1⟩, ⟨[], 0, 0, 0⟩, -1, 0⟩ ∧
    dictResize true
      ⟨⟨[[⟨0, 1⟩], [], [], [], [], [], [], []], 8, 7, 1⟩, ⟨[], 0, 0, 0⟩, -1, 0⟩ =
      some ⟨⟨[[⟨0, 1⟩], [], [], [], [], [], [], []], 8, 7, 1⟩,
            ⟨[[], [], [], []], 4, 3, 0⟩, 0, 0⟩ ∧
    dictIsRehashing
      ⟨⟨[[⟨0, 1⟩], [], [], [], [], [], [], []], 8, 7, 1⟩,
       ⟨[[], [], [], []], 4, 3, 0⟩, 0, 0⟩ = true ∧
    (⟨⟨[[⟨0, 1⟩], [], [], [], [], [], [], []], 8, 7, 1⟩,
      ⟨[[], [], [], []], 4, 3, 0⟩, 0, 0⟩ : dict).ht1.size <
      (⟨⟨[[⟨0, 1⟩], [], [], [], [], [], [], []], 8, 7, 1⟩,
        ⟨[[], [], [], []], 4, 3, 0⟩, 0, 0⟩ : dict).ht0.size := by
  refine ⟨by unfold dictWF htWF; decide, by decide, by decide, by decide⟩

/-- Claim C5 (amended): delete on a table whose primary is unallocated and
delete of an absent key on a nonempty table both fail with the same
DICT_ERR value (false); the two failure cases are not distinguishable from
the result value. -/
theorem claimC5_same_err (hash : Nat → Nat) (d : dict) (key : Nat) :
    (d.ht0.size = 0 → dictDelete hash d key = some (d, false)) ∧
    (dictWF hash d → key ∉ keysOf d →
      ∃ d1, dictDelete hash d key = some (d1, false)) := by
  constructor
  · intro hs0
    simp [dictDelete, dictGenericDelete, hs0]
  · intro hwf habs
    obtain ⟨d1, heq, -, -, -⟩ := dictDelete_missing hash d key hwf habs
    exact ⟨d1, heq⟩

/-- Witness for claim C5: both failure modes at concrete tables. -/
theorem claimC5_witness :
    (dictCreate.ht0.size = 0 ∧
      dictDelete (fun k => k) dictCreate 2 = some (dictCreate, false)) ∧
    (dictWF (fun k => k) ⟨⟨[[], [⟨1, 7⟩], [], []], 4, 3, 1⟩, ⟨[], 0, 0, 0⟩, -1, 0⟩ ∧
      (2 : Nat) ∉ keysOf ⟨⟨[[], [⟨1, 7⟩], [], []], 4, 3, 1⟩, ⟨[], 0, 0, 0⟩, -1, 0⟩ ∧
      ∃ d1, dictDelete (fun k => k)
        ⟨⟨[[], [⟨1, 7⟩], [], []], 4, 3, 1⟩, ⟨[], 0, 0, 0⟩, -1, 0⟩ 2 = some (d1, false)) :=
  ⟨⟨rfl, (claimC5_same_err (fun k => k) dictCreate 2).1 rfl⟩,
    ⟨by unfold dictWF htWF; decide, by decide,
      (claimC5_same_err (fun k => k)
        ⟨⟨[[], [⟨1, 7⟩], [], []], 4, 3, 1⟩, ⟨[], 0, 0, 0⟩, -1, 0⟩ 2).2
        (by unfold dictWF htWF; decide) (by decide)⟩⟩

/-- Counterexample for claim C5 as frozen: the empty-table failure and the
key-absent failure carry the same DICT_ERR value false, so a caller cannot
tell them apart from the result value alone. -/
theorem claimC5_cex :
    dictCreate.ht0.size = 0 ∧
    (⟨⟨[[], [⟨1, 7⟩], [], []], 4, 3, 1⟩, ⟨[], 0, 0, 0⟩, -1, 0⟩ : dict).ht0.size ≠ 0 ∧
    (2 : Nat) ∉ keysOf ⟨⟨[[], [⟨1, 7⟩], [], []], 4, 3, 1⟩, ⟨[], 0, 0, 0⟩, -1, 0⟩ ∧
    dictDelete (fun k => k) dictCreate 2 = some (dictCreate, false) ∧
    dictDelete (fun k => k)
      ⟨⟨[[], [⟨1, 7⟩], [], []], 4, 3, 1⟩, ⟨[], 0, 0, 0⟩, -1, 0⟩ 2 =
      some (⟨⟨[[], [⟨1, 7⟩], [], []], 4, 3, 1⟩, ⟨[], 0, 0, 0⟩, -1, 0⟩, false) := by
  decide

/-- Claim C6 (amended): on the insertion path of a table not currently
rehashing, an unallocated primary is initialized at the minimum size 4;
otherwise, when used has reached size and the resize gate is enabled or the
load factor exceeds 5, the table begins rehashing — but the target is the
next power of two at least 2 * max(size, used), which exceeds double the
current size whenever used is above size. -/
theorem claimC6_grow_trigger (hash : Nat → Nat) (cr : Bool) (d : dict)
    (hwf : dictWF hash d) (hre : dictIsRehashing d = false) :
    (d.ht0.size = 0 →
      ∃ d2, _dictExpandIfNeeded cr d = some d2 ∧
        d2.ht0.size = DICT_HT_INITIAL_SIZE ∧ dictIsRehashing d2 = false) ∧
    (d.ht0.size ≠ 0 → d.ht0.size ≤ d.ht0.used →
      (cr || decide (5 < d.ht0.used / d.ht0.size)) = true →
      ∃ d2, _dictExpandIfNeeded cr d = some d2 ∧ dictIsRehashing d2 = true ∧
        d2.ht1.size = _dictNextPower (max d.ht0.size d.ht0.used * 2) ∧
        d2.ht0 = d.ht0) ∧
    (d.ht0.size ≠ 0 →
      ¬(d.ht0.size ≤ d.ht0.used ∧ (cr || decide (5 < d.ht0.used / d.ht0.size)) = true) →
      _dictExpandIfNeeded cr d = some d) := by
  refine ⟨?_, ?_, ?_⟩
  · intro hsz
    have htab : d.ht0.table = [] := List.length_eq_zero.1 (by rw [hwf.1.1, hsz])
    have hused0 : d.ht0.used = 0 := by
      rw [hwf.1.2.2.1]
      simp [htEntries, htab]
    refine ⟨{ d with ht0 :=
        { table := List.replicate (_dictNextPower DICT_HT_INITIAL_SIZE) [],
          size := _dictNextPower DICT_HT_INITIAL_SIZE,
          sizemask := _dictNextPower DICT_HT_INITIAL_SIZE - 1, used := 0 } },
      ?_, ?_, ?_⟩
    · rw [_dictExpandIfNeeded, if_neg (by simp [hre]), if_pos hsz]
      exact dictExpand_init d DICT_HT_INITIAL_SIZE hre (by omega) htab
    · show _dictNextPower DICT_HT_INITIAL_SIZE = DICT_HT_INITIAL_SIZE
      decide
    · exact hre
  · intro hsz hload hgate
    have htab : d.ht0.table ≠ [] := by
      intro h
      apply hsz
      rw [← hwf.1.1, h]
      rfl
    have hmax : d.ht0.used ≤ max d.ht0.size d.ht0.used * 2 := by
      have := le_max_right d.ht0.size d.ht0.used
      omega
    refine ⟨{ d with
        ht1 := { table := List.replicate (_dictNextPower (max d.ht0.size d.ht0.used * 2)) [],
                 size := _dictNextPower (max d.ht0.size d.ht0.used * 2),
                 sizemask := _dictNextPower (max d.ht0.size d.ht0.used * 2) - 1,
                 used := 0 },
        rehashidx := 0 }, ?_, ?_, rfl, rfl⟩
    · rw [_dictExpandIfNeeded, if_neg (by simp [hre]), if_neg hsz,
        if_pos ⟨hload, hgate⟩]
      exact dictExpand_grow d (max d.ht0.size d.ht0.used * 2) hre hmax htab
    · rfl
  · intro hsz hcond
    rw [_dictExpandIfNeeded, if_neg (by simp [hre]), if_neg hsz, if_neg hcond]

/-- Witness for claim C6 at a size-4 primary holding 5 entries. -/
theorem claimC6_witness :
    (dictWF (fun k => k)
        ⟨⟨[[⟨0, 10⟩, ⟨4, 11⟩], [⟨1, 12⟩], [⟨2, 13⟩], [⟨3, 14⟩]], 4, 3, 5⟩,
         ⟨[], 0, 0, 0⟩, -1, 0⟩ ∧
      dictIsRehashing
        ⟨⟨[[⟨0, 10⟩, ⟨4, 11⟩], [⟨1, 12⟩], [⟨2, 13⟩], [⟨3, 14⟩]], 4, 3, 5⟩,
         ⟨[], 0, 0, 0⟩, -1, 0⟩ = false) ∧
    ((⟨⟨[[⟨0, 10⟩, ⟨4, 11⟩], [⟨1, 12⟩], [⟨2, 13⟩], [⟨3, 14⟩]], 4, 3, 5⟩,
       ⟨[], 0, 0, 0⟩, -1, 0⟩ : dict).ht0.size = 0 →
      ∃ d2, _dictExpandIfNeeded true
          ⟨⟨[[⟨0, 10⟩, ⟨4, 11⟩], [⟨1, 12⟩], [⟨2, 13⟩], [⟨3, 14⟩]], 4, 3, 5⟩,
           ⟨[], 0, 0, 0⟩, -1, 0⟩ = some d2 ∧
        d2.ht0.size = DICT_HT_INITIAL_SIZE ∧ dictIsRehashing d2 = false) ∧
    ((⟨⟨[[⟨0, 10⟩, ⟨4, 11⟩], [⟨1, 12⟩], [⟨2, 13⟩], [⟨3, 14⟩]], 4, 3, 5⟩,
       ⟨[], 0, 0, 0⟩, -1, 0⟩ : dict).ht0.size ≠ 0 →
      (⟨⟨[[⟨0, 10⟩, ⟨4, 11⟩], [⟨1, 12⟩], [⟨2, 13⟩], [⟨3, 14⟩]], 4, 3, 5⟩,
        ⟨[], 0, 0, 0⟩, -1, 0⟩ : dict).ht0.size ≤
        (⟨⟨[[⟨0, 10⟩, ⟨4, 11⟩], [⟨1, 12⟩], [⟨2, 13⟩], [⟨3, 14⟩]], 4, 3, 5⟩,
          ⟨[], 0, 0, 0⟩, -1, 0⟩ : dict).ht0.used →
      (true || decide (5 <
        (⟨⟨[[⟨0, 10⟩, ⟨4, 11⟩], [⟨1, 12⟩], [⟨2, 13⟩], [⟨3, 14⟩]], 4, 3, 5⟩,
          ⟨[], 0, 0, 0⟩, -1, 0⟩ : dict).ht0.used /
        (⟨⟨[[⟨0, 10⟩, ⟨4, 11⟩], [⟨1, 12⟩], [⟨2, 13⟩], [⟨3, 14⟩]], 4, 3, 5⟩,
          ⟨[], 0, 0, 0⟩, -1, 0⟩ : dict).ht0.size)) = true →
      ∃ d2, _dictExpandIfNeeded true
          ⟨⟨[[⟨0, 10⟩, ⟨4, 11⟩], [⟨1, 12⟩], [⟨2, 13⟩], [⟨3, 14⟩]], 4, 3, 5⟩,
           ⟨[], 0, 0, 0⟩, -1, 0⟩ = some d2 ∧ dictIsRehashing d2 = true ∧
        d2.ht1.size = _dictNextPower (max
          (⟨⟨[[⟨0, 10⟩, ⟨4, 11⟩], [⟨1, 12⟩], [⟨2, 13⟩], [⟨3, 14⟩]], 4, 3, 5⟩,
            ⟨[], 0, 0, 0⟩, -1, 0⟩ : dict).ht0.size
          (⟨⟨[[⟨0, 10⟩, ⟨4, 11⟩], [⟨1, 12⟩], [⟨2, 13⟩], [⟨3, 14⟩]], 4, 3, 5⟩,
            ⟨[], 0, 0, 0⟩, -1, 0⟩ : dict).ht0.used * 2) ∧
        d2.ht0 = (⟨⟨[[⟨0, 10⟩, ⟨4, 11⟩], [⟨1, 12⟩], [⟨2, 13⟩], [⟨3, 14⟩]], 4, 3, 5⟩,
          ⟨[], 0, 0, 0⟩, -1, 0⟩ : dict).ht0) ∧
    ((⟨⟨[[⟨0, 10⟩, ⟨4, 11⟩], [⟨1, 12⟩], [⟨2, 13⟩], [⟨3, 14⟩]], 4, 3, 5⟩,
       ⟨[], 0, 0, 0⟩, -1, 0⟩ : dict).ht0.size ≠ 0 →
      ¬((⟨⟨[[⟨0, 10⟩, ⟨4, 11⟩], [⟨1, 12⟩], [⟨2, 13⟩], [⟨3, 14⟩]], 4, 3, 5⟩,
          ⟨[], 0, 0, 0⟩, -1, 0⟩ : dict).ht0.size ≤
          (⟨⟨[[⟨0, 10⟩, ⟨4, 11⟩], [⟨1, 12⟩], [⟨2, 13⟩], [⟨3, 14⟩]], 4, 3, 5⟩,
            ⟨[], 0, 0, 0⟩, -1, 0⟩ : dict).ht0.used ∧
        (true || decide (5 <
          (⟨⟨[[⟨0, 10⟩, ⟨4, 11⟩], [⟨1, 12⟩], [⟨2, 13⟩], [⟨3, 14⟩]], 4, 3, 5⟩,
            ⟨[], 0, 0, 0⟩, -1, 0⟩ : dict).ht0.used /
          (⟨⟨[[⟨0, 10⟩, ⟨4, 11⟩], [⟨1, 12⟩], [⟨2, 13⟩], [⟨3, 14⟩]], 4, 3, 5⟩,
            ⟨[], 0, 0, 0⟩, -1, 0⟩ : dict).ht0.size)) = true) →
      _dictExpandIfNeeded true
        ⟨⟨[[⟨0, 10⟩, ⟨4, 11⟩], [⟨1, 12⟩], [⟨2, 13⟩], [⟨3, 14⟩]], 4, 3, 5⟩,
         ⟨[], 0, 0, 0⟩, -1, 0⟩ =
        some ⟨⟨[[⟨0, 10⟩, ⟨4, 11⟩], [⟨1, 12⟩], [⟨2, 13⟩], [⟨3, 14⟩]], 4, 3, 5⟩,
              ⟨[], 0, 0, 0⟩, -1, 0⟩) :=
  ⟨⟨by unfold dictWF htWF; decide, by decide⟩,
    claimC6_grow_trigger (fun k => k) true
      ⟨⟨[[⟨0, 10⟩, ⟨4, 11⟩], [⟨1, 12⟩], [⟨2, 13⟩], [⟨3, 14⟩]], 4, 3, 5⟩,
       ⟨[], 0, 0, 0⟩, -1, 0⟩
      (by unfold dictWF htWF; decide) (by decide)⟩

/-- Counterexample for claim C6 as frozen: with size 4 and used 5 the grow
trigger targets 16, not double the current size 8. -/
theorem claimC6_cex :
    dictWF (fun k => k)
      ⟨⟨[[⟨0, 10⟩, ⟨4, 11⟩], [⟨1, 12⟩], [⟨2, 13⟩], [⟨3, 14⟩]], 4, 3, 5⟩,
       ⟨[], 0, 0, 0⟩, -1, 0⟩ ∧
    _dictExpandIfNeeded true
      ⟨⟨[[⟨0, 10⟩, ⟨4, 11⟩], [⟨1, 12⟩], [⟨2, 13⟩], [⟨3, 14⟩]], 4, 3, 5⟩,
       ⟨[], 0, 0, 0⟩, -1, 0⟩ =
      some ⟨⟨[[⟨0, 10⟩, ⟨4, 11⟩], [⟨1, 12⟩], [⟨2, 13⟩], [⟨3, 14⟩]], 4, 3, 5⟩,
            ⟨List.replicate 16 [], 16, 15, 0⟩, 0, 0⟩ ∧
    (⟨⟨[[⟨0, 10⟩, ⟨4, 11⟩], [⟨1, 12⟩], [⟨2, 13⟩], [⟨3, 14⟩]], 4, 3, 5⟩,
      ⟨List.replicate 16 [], 16, 15, 0⟩, 0, 0⟩ : dict).ht1.size ≠
      2 * (⟨⟨[[⟨0, 10⟩, ⟨4, 11⟩], [⟨1, 12⟩], [⟨2, 13⟩], [⟨3, 14⟩]], 4, 3, 5⟩,
           ⟨[], 0, 0, 0⟩, -1, 0⟩ : dict).ht0.size := by
  refine ⟨by unfold dictWF htWF; decide, by decide, by decide⟩

/-- Claim C7: dictAddRaw rejects a key already present in either generation
(with the entries only permuted by the amortized rehash step and the resize
policy), and installs a fresh key at the head of the slot of the generation
being written to — the incoming generation while rehashing, the primary
otherwise — incrementing exactly that generation's occupied count. -/
theorem claimC7_addRaw (hash : Nat → Nat) (cr : Bool) (d : dict) (key : Nat)
    (hwf : dictWF hash d) :
    (key ∈ keysOf d →
      ∃ d2, dictAddRaw hash cr d key = some (d2, none) ∧ dictWF hash d2 ∧
        List.Perm (allEntries d2) (allEntries d) ∧ d2.iterators = d.iterators) ∧
    (key ∉ keysOf d →
      ∃ d1 d2,
        rehashStepIfActive hash d = some d1 ∧
        _dictExpandIfNeeded cr d1 = some d2 ∧
        dictWF hash d2 ∧ List.Perm (allEntries d2) (allEntries d) ∧
        d2.iterators = d.iterators ∧ d2.ht0.size ≠ 0 ∧ (key ∉ keysOf d2) ∧
        ((dictIsRehashing d2 = true ∧ hash key &&& d2.ht1.sizemask < d2.ht1.size ∧
           dictAddRaw hash cr d key = some ({ d2 with ht1 := { d2.ht1 with
             table := d2.ht1.table.set (hash key &&& d2.ht1.sizemask)
               ({ key := key, val := 0 } ::
                 d2.ht1.table.getD (hash key &&& d2.ht1.sizemask) []),
             used := d2.ht1.used + 1 } }, some (1, hash key &&& d2.ht1.sizemask))) ∨
         (dictIsRehashing d2 = false ∧ hash key &&& d2.ht0.sizemask < d2.ht0.size ∧
           dictAddRaw hash cr d key = some ({ d2 with ht0 := { d2.ht0 with
             table := d2.ht0.table.set (hash key &&& d2.ht0.sizemask)
               ({ key := key, val := 0 } ::
                 d2.ht0.table.getD (hash key &&& d2.ht0.sizemask) []),
             used := d2.ht0.used + 1 } }, some (0, hash key &&& d2.ht0.sizemask))))) :=
  ⟨fun h => dictAddRaw_dup hash cr d key hwf h,
   fun h => dictAddRaw_fresh hash cr d key hwf h⟩

/-- Witness for claim C7 at a fresh dictionary and key 1. -/
theorem claimC7_witness :
    dictWF (fun k => k) dictCreate ∧
    ((1 : Nat) ∈ keysOf dictCreate →
      ∃ d2, dictAddRaw (fun k => k) true dictCreate 1 = some (d2, none) ∧
        dictWF (fun k => k) d2 ∧
        List.Perm (allEntries d2) (allEntries dictCreate) ∧
        d2.iterators = dictCreate.iterators) ∧
    ((1 : Nat) ∉ keysOf dictCreate →
      ∃ d1 d2,
        rehashStepIfActive (fun k => k) dictCreate = some d1 ∧
        _dictExpandIfNeeded true d1 = some d2 ∧
        dictWF (fun k => k) d2 ∧
        List.Perm (allEntries d2) (allEntries dictCreate) ∧
        d2.iterators = dictCreate.iterators ∧ d2.ht0.size ≠ 0 ∧
        ((1 : Nat) ∉ keysOf d2) ∧
        ((dictIsRehashing d2 = true ∧ (fun k => k) 1 &&& d2.ht1.sizemask < d2.ht1.size ∧
           dictAddRaw (fun k => k) true dictCreate 1 = some ({ d2 with ht1 := { d2.ht1 with
             table := d2.ht1.table.set ((fun k => k) 1 &&& d2.ht1.sizemask)
               ({ key := 1, val := 0 } ::
                 d2.ht1.table.getD ((fun k => k) 1 &&& d2.ht1.sizemask) []),
             used := d2.ht1.used + 1 } }, some (1, (fun k => k) 1 &&& d2.ht1.sizemask))) ∨
         (dictIsRehashing d2 = false ∧ (fun k => k) 1 &&& d2.ht0.sizemask < d2.ht0.size ∧
           dictAddRaw (fun k => k) true dictCreate 1 = some ({ d2 with ht0 := { d2.ht0 with
             table := d2.ht0.table.set ((fun k => k) 1 &&& d2.ht0.sizemask)
               ({ key := 1, val := 0 } ::
                 d2.ht0.table.getD ((fun k => k) 1 &&& d2.ht0.sizemask) []),
             used := d2.ht0.used + 1 } }, some (0, (fun k => k) 1 &&& d2.ht0.sizemask)))))
    := by
  refine ⟨dictWF_dictCreate _, ?_⟩
  exact claimC7_addRaw (fun k => k) true dictCreate 1 (dictWF_dictCreate _)

/-- Claim C8: while the live-safe-iterator count is nonzero the amortized
rehash step is suppressed, and no sequence of add, find or delete calls
moves an entry between the generations — every entry keyed differently
from the operated keys stays in exactly the generation that held it, and
the count itself is unchanged by the sequence. -/
theorem claimC8_no_moves_while_iterating (hash : Nat → Nat) (cr : Bool)
    (ops : List MutOp) (d : dict) (hwf : dictWF hash d)
    (hit : d.iterators ≠ 0) :
    _dictRehashStep hash d = some d ∧
    ∃ d2, runMut hash cr ops d = some d2 ∧ dictWF hash d2 ∧
      d2.iterators = d.iterators ∧
      ∀ e : dictEntry, e.key ∉ opKeys ops →
        ((e ∈ htEntries d2.ht0 ↔ e ∈ htEntries d.ht0) ∧
         (e ∈ htEntries d2.ht1 ↔ e ∈ htEntries d.ht1)) := by
  obtain ⟨d2, heq, hwf2, hit2, hmem⟩ := runMut_iter hash cr ops d hwf hit
  exact ⟨_dictRehashStep_suppressed hash d hit, d2, heq, hwf2, hit2, hmem⟩

/-- Witness for claim C8: a rehashing dictionary carrying one live safe
iterator, run through an add, a find and a delete. -/
theorem claimC8_witness :
    (dictWF (fun k => k)
        ⟨⟨[[], [⟨1, 7⟩]], 2, 1, 1⟩, ⟨[[], [], [], []], 4, 3, 0⟩, 0, 1⟩ ∧
      (⟨⟨[[], [⟨1, 7⟩]], 2, 1, 1⟩, ⟨[[], [], [], []], 4, 3, 0⟩, 0, 1⟩ : dict).iterators ≠ 0) ∧
    (_dictRehashStep (fun k => k)
        ⟨⟨[[], [⟨1, 7⟩]], 2, 1, 1⟩, ⟨[[], [], [], []], 4, 3, 0⟩, 0, 1⟩ =
      some ⟨⟨[[], [⟨1, 7⟩]], 2, 1, 1⟩, ⟨[[], [], [], []], 4, 3, 0⟩, 0, 1⟩ ∧
    ∃ d2, runMut (fun k => k) true [MutOp.addM 2 9, MutOp.findM 1, MutOp.delM 2]
        ⟨⟨[[], [⟨1, 7⟩]], 2, 1, 1⟩, ⟨[[], [], [], []], 4, 3, 0⟩, 0, 1⟩ = some d2 ∧
      dictWF (fun k => k) d2 ∧
      d2.iterators =
        (⟨⟨[[], [⟨1, 7⟩]], 2, 1, 1⟩, ⟨[[], [], [], []], 4, 3, 0⟩, 0, 1⟩ : dict).iterators ∧
      ∀ e : dictEntry, e.key ∉ opKeys [MutOp.addM 2 9, MutOp.findM 1, MutOp.delM 2] →
        ((e ∈ htEntries d2.ht0 ↔ e ∈ htEntries
            (⟨⟨[[], [⟨1, 7⟩]], 2, 1, 1⟩, ⟨[[], [], [], []], 4, 3, 0⟩, 0, 1⟩ : dict).ht0) ∧
         (e ∈ htEntries d2.ht1 ↔ e ∈ htEntries
            (⟨⟨[[], [⟨1, 7⟩]], 2, 1, 1⟩, ⟨[[], [], [], []], 4, 3, 0⟩, 0, 1⟩ : dict).ht1))) :=
  ⟨⟨by unfold dictWF htWF; decide, by decide⟩,
    claimC8_no_moves_while_iterating (fun k => k) true
      [MutOp.addM 2 9, MutOp.findM 1, MutOp.delM 2]
      ⟨⟨[[], [⟨1, 7⟩]], 2, 1, 1⟩, ⟨[[], [], [], []], 4, 3, 0⟩, 0, 1⟩
      (by unfold dictWF htWF; decide) (by decide)⟩

/-- Claim C9 (amended): dictResize is refused, leaving the table unchanged,
exactly when the resize gate is disabled or rehashing is already active; on
success it expands to the next power of two at least max(used, 4) — but
when the primary is still unallocated the new array is installed as the
primary itself and no rehashing begins; rehashing begins only when the
primary was allocated. -/
theorem claimC9_resize (hash : Nat → Nat) (cr : Bool) (d : dict) :
    (dictResize cr d = none ↔ (cr = false ∨ dictIsRehashing d = true)) ∧
    (dictIsRehashing d = false → cr = true → d.ht0.table ≠ [] →
      dictResize cr d = some { d with
        ht1 := { table := List.replicate
                   (_dictNextPower (max d.ht0.used DICT_HT_INITIAL_SIZE)) [],
                 size := _dictNextPower (max d.ht0.used DICT_HT_INITIAL_SIZE),
                 sizemask := _dictNextPower (max d.ht0.used DICT_HT_INITIAL_SIZE) - 1,
                 used := 0 },
        rehashidx := 0 }) ∧
    (dictIsRehashing d = false → cr = true → d.ht0.table = [] →
      dictResize cr d = some { d with
        ht0 := { table := List.replicate
                   (_dictNextPower (max d.ht0.used DICT_HT_INITIAL_SIZE)) [],
                 size := _dictNextPower (max d.ht0.used DICT_HT_INITIAL_SIZE),
                 sizemask := _dictNextPower (max d.ht0.used DICT_HT_INITIAL_SIZE) - 1,
                 used := 0 } } ∧
      dictIsRehashing { d with
        ht0 := { table := List.replicate
                   (_dictNextPower (max d.ht0.used DICT_HT_INITIAL_SIZE)) [],
                 size := _dictNextPower (max d.ht0.used DICT_HT_INITIAL_SIZE),
                 sizemask := _dictNextPower (max d.ht0.used DICT_HT_INITIAL_SIZE) - 1,
                 used := 0 } } = dictIsRehashing d) := by
  refine ⟨⟨?_, ?_⟩, ?_, ?_⟩
  · intro h
    by_cases hcr : cr = false
    · exact Or.inl hcr
    · by_cases hre : dictIsRehashing d = true
      · exact Or.inr hre
      · exfalso
        have hcr2 : cr = true := by
          cases cr
          · exact absurd rfl hcr
          · rfl
        have hre2 : dictIsRehashing d = false := by simpa using hre
        rw [dictResize, if_neg (by rw [hcr2, hre2]; decide)] at h
        have hus : d.ht0.used ≤ max d.ht0.used DICT_HT_INITIAL_SIZE :=
          le_max_left _ _
        by_cases htab : d.ht0.table = []
        · rw [dictExpand_init d _ hre2 hus htab] at h
          exact Option.noConfusion h
        · rw [dictExpand_grow d _ hre2 hus htab] at h
          exact Option.noConfusion h
  · intro h
    rcases h with hc | hr
    · rw [dictResize, if_pos (by rw [hc]; rfl)]
    · rw [dictResize, if_pos (by rw [hr]; simp)]
  · intro hre hc htab
    rw [dictResize, if_neg (by rw [hre, hc]; decide)]
    exact dictExpand_grow d _ hre (le_max_left _ _) htab
  · intro hre hc htab
    refine ⟨?_, rfl⟩
    rw [dictResize, if_neg (by rw [hre, hc]; decide)]
    exact dictExpand_init d _ hre (le_max_left _ _) htab

/-- Witness for claim C9 at an allocated, stable table. -/
theorem claimC9_witness :
    (dictResize true ⟨⟨[[], [⟨1, 7⟩], [], []], 4, 3, 1⟩, ⟨[], 0, 0, 0⟩, -1, 0⟩ = none ↔
      ((true = false) ∨ dictIsRehashing
        ⟨⟨[[], [⟨1, 7⟩], [], []], 4, 3, 1⟩, ⟨[], 0, 0, 0⟩, -1, 0⟩ = true)) ∧
    (dictIsRehashing ⟨⟨[[], [⟨1, 7⟩], [], []], 4, 3, 1⟩, ⟨[], 0, 0, 0⟩, -1, 0⟩ = false →
      true = true →
      (⟨⟨[[], [⟨1, 7⟩], [], []], 4, 3, 1⟩, ⟨[], 0, 0, 0⟩, -1, 0⟩ : dict).ht0.table ≠ [] →
      dictResize true ⟨⟨[[], [⟨1, 7⟩], [], []], 4, 3, 1⟩, ⟨[], 0, 0, 0⟩, -1, 0⟩ =
        some { (⟨⟨[[], [⟨1, 7⟩], [], []], 4, 3, 1⟩, ⟨[], 0, 0, 0⟩, -1, 0⟩ : dict) with
          ht1 := { table := List.replicate (_dictNextPower (max
                     (⟨⟨[[], [⟨1, 7⟩], [], []], 4, 3, 1⟩, ⟨[], 0, 0, 0⟩, -1, 0⟩ : dict).ht0.used
                     DICT_HT_INITIAL_SIZE)) [],
                   size := _dictNextPower (max
                     (⟨⟨[[], [⟨1, 7⟩], [], []], 4, 3, 1⟩, ⟨[], 0, 0, 0⟩, -1, 0⟩ : dict).ht0.used
                     DICT_HT_INITIAL_SIZE),
                   sizemask := _dictNextPower (max
                     (⟨⟨[[], [⟨1, 7⟩], [], []], 4, 3, 1⟩, ⟨[], 0, 0, 0⟩, -1, 0⟩ : dict).ht0.used
                     DICT_HT_INITIAL_SIZE) - 1,
                   used := 0 },
          rehashidx := 0 }) ∧
    (dictIsRehashing ⟨⟨[[], [⟨1, 7⟩], [], []], 4, 3, 1⟩, ⟨[], 0, 0, 0⟩, -1, 0⟩ = false →
      true = true →
      (⟨⟨[[], [⟨1, 7⟩], [], []], 4, 3, 1⟩, ⟨[], 0, 0, 0⟩, -1, 0⟩ : dict).ht0.table = [] →
      dictResize true ⟨⟨[[], [⟨1, 7⟩], [], []], 4, 3, 1⟩, ⟨[], 0, 0, 0⟩, -1, 0⟩ =
        some { (⟨⟨[[], [⟨1, 7⟩], [], []], 4, 3, 1⟩, ⟨[], 0, 0, 0⟩, -1, 0⟩ : dict) with
          ht0 := { table := List.replicate (_dictNextPower (max
                     (⟨⟨[[], [⟨1, 7⟩], [], []], 4, 3, 1⟩, ⟨[], 0, 0, 0⟩, -1, 0⟩ : dict).ht0.used
                     DICT_HT_INITIAL_SIZE)) [],
                   size := _dictNextPower (max
                     (⟨⟨[[], [⟨1, 7⟩], [], []], 4, 3, 1⟩, ⟨[], 0, 0, 0⟩, -1, 0⟩ : dict).ht0.used
                     DICT_HT_INITIAL_SIZE),
                   sizemask := _dictNextPower (max
                     (⟨⟨[[], [⟨1, 7⟩], [], []], 4, 3, 1⟩, ⟨[], 0, 0, 0⟩, -1, 0⟩ : dict).ht0.used
                     DICT_HT_INITIAL_SIZE) - 1,
                   used := 0 } } ∧
      dictIsRehashing { (⟨⟨[[], [⟨1, 7⟩], [], []], 4, 3, 1⟩, ⟨[], 0, 0, 0⟩, -1, 0⟩ : dict) with
          ht0 := { table := List.replicate (_dictNextPower (max
                     (⟨⟨[[], [⟨1, 7⟩], [], []], 4, 3, 1⟩, ⟨[], 0, 0, 0⟩, -1, 0⟩ : dict).ht0.used
                     DICT_HT_INITIAL_SIZE)) [],
                   size := _dictNextPower (max
                     (⟨⟨[[], [⟨1, 7⟩], [], []], 4, 3, 1⟩, ⟨[], 0, 0, 0⟩, -1, 0⟩ : dict).ht0.used
                     DICT_HT_INITIAL_SIZE),
                   sizemask := _dictNextPower (max
                     (⟨⟨[[], [⟨1, 7⟩], [], []], 4, 3, 1⟩, ⟨[], 0, 0, 0⟩, -1, 0⟩ : dict).ht0.used
                     DICT_HT_INITIAL_SIZE) - 1,
                   used := 0 } } =
        dictIsRehashing ⟨⟨[[], [⟨1, 7⟩], [], []], 4, 3, 1⟩, ⟨[], 0, 0, 0⟩, -1, 0⟩) :=
  claimC9_resize (fun k => k) true ⟨⟨[[], [⟨1, 7⟩], [], []], 4, 3, 1⟩, ⟨[], 0, 0, 0⟩, -1, 0⟩

/-- Counterexample for claim C9 as frozen: a successful resize-to-fit of a
fresh table installs the new array as the primary and does not begin
rehashing. -/
theorem claimC9_cex :
    dictResize true dictCreate =
      some ⟨⟨[[], [], [], []], 4, 3, 0⟩, ⟨[], 0, 0, 0⟩, -1, 0⟩ ∧
    dictIsRehashing ⟨⟨[[], [], [], []], 4, 3, 0⟩, ⟨[], 0, 0, 0⟩, -1, 0⟩ = false := by
  decide

/-- Claim C10: the live-safe-iterator counter is balanced — starting with no
live iterators, after any sequence of creations, advances and releases the
counter exceeds its initial value by exactly the number of live safe
iterators already advanced; once every iterator is released it is back to
the initial value.  A safe iterator released without ever advancing leaves
the dict untouched, a scan-only iterator never changes the dict, and the
first advance of a safe iterator increments the counter by one. -/
theorem claimC10_counter_balanced (ops : List IterOp) (d : dict) :
    (runIter ops ⟨d, []⟩).d.iterators =
      d.iterators + (chargedCount (runIter ops ⟨d, []⟩).live : Int) ∧
    ((runIter ops ⟨d, []⟩).live = [] →
      (runIter ops ⟨d, []⟩).d.iterators = d.iterators) ∧
    dictReleaseIterator d dictGetSafeIterator = d ∧
    (dictNext d dictGetIterator).1 = d ∧
    (dictNext d dictGetSafeIterator).1 = { d with iterators := d.iterators + 1 } := by
  obtain ⟨-, hcount⟩ := runIter_invariant ops ⟨d, []⟩ d.iterators
    (by intro it hit; cases hit) (by simp [chargedCount])
  refine ⟨hcount, ?_, ?_, ?_, ?_⟩
  · intro hnil
    rw [hcount, hnil]
    simp [chargedCount]
  · rw [dictReleaseIterator, if_neg]
    rintro ⟨-, h⟩
    exact h ⟨rfl, rfl⟩
  · exact (dictNextLoop_fresh_scanOnly (d.ht0.size + d.ht1.size + 1) d _
      ⟨rfl, rfl, rfl⟩ rfl).1
  · exact (dictNextLoop_fresh_safe (d.ht0.size + d.ht1.size + 1) d _
      ⟨rfl, rfl, rfl⟩ rfl).1
